import Mathlib

/-!
# Stick and trigger calibration (`firmware/app/Application/cali.c`)

A shallow embedding of the calibration module of the game-pad firmware:
the persisted parameter record with its checksum, the three-state
calibration machine driven by button events and by the periodic poll, the
margin collection of the two sticks, and the stick correction.

Conventions of the embedding.

* `uint16_t` / `uint32_t` values are natural numbers; every store into such
  a field that can leave the range is written with an explicit `% 65536`
  (or `% 2 ^ 32`), and the well-formedness predicates below say that the
  values held in a state are in range.
* The static variables of the module (`caliParams`, `caliStatus`,
  `middleQueue`, `lastTime`), the flash page at `PAD_PARAM_ADDR` and the
  LED style are the fields of `State`; every C function becomes a function
  on `State`.
* `float` arithmetic appears at two levels. `StickMarginProcF` and
  `StickCorrectF` follow the C code operation by operation: every operation
  rounds, a division by zero gives an infinity or a NaN, a conversion that C
  leaves undefined gives no result, and the rounding functions, `acosf` and
  `sqrtf` are the fields of `FloatOps`. The functions on real numbers
  (`GetRadian`, `StickMarginProc`, `interpMag`, `StickCorrect`) are these
  functions without rounding errors (`StickMarginProcF_ideal`,
  `StickCorrectF_ideal`); the geometry of the angle and of the interpolated
  radius and the runs of the state machine are stated on them.
-/

set_option maxRecDepth 100000

namespace Cali

/-! ## Data model -/

/-- Number of entries of `leftMag` and of `rightMag`
(`CL_ARRAY_LENGTH(caliParams.leftMag)`). -/
def MAG_LEN : Nat := 60

/-- Modelled from the spec: the type `CaliParams_t` of `cali.h`, which is not
among the sources. The C module uses the fields `leftMidX`, `leftMidY`,
`rightMidX`, `rightMidY`, the arrays `leftMag`, `rightMag` (60 entries each),
`leftTrigger`, `rightTrigger` (2 entries each, here a pair) and `crc`. -/
structure CaliParams where
  leftMidX : Nat
  leftMidY : Nat
  rightMidX : Nat
  rightMidY : Nat
  leftMag : List Nat
  rightMag : List Nat
  leftTrigger : Nat × Nat
  rightTrigger : Nat × Nat
  crc : Nat
  deriving DecidableEq, Repr

/-- The values held by a `CaliParams_t` object: 16-bit fields, two arrays of
60 16-bit entries, a 32-bit checksum. -/
def ParamsWF (p : CaliParams) : Prop :=
  p.leftMidX < 65536 ∧ p.leftMidY < 65536 ∧ p.rightMidX < 65536 ∧ p.rightMidY < 65536 ∧
  p.leftMag.length = MAG_LEN ∧ (∀ v ∈ p.leftMag, v < 65536) ∧
  p.rightMag.length = MAG_LEN ∧ (∀ v ∈ p.rightMag, v < 65536) ∧
  p.leftTrigger.1 < 65536 ∧ p.leftTrigger.2 < 65536 ∧
  p.rightTrigger.1 < 65536 ∧ p.rightTrigger.2 < 65536 ∧
  p.crc < 2 ^ 32

instance (p : CaliParams) : Decidable (ParamsWF p) := by
  unfold ParamsWF; infer_instance

/-- The `CaliStatus_t` values used by the module. -/
inductive CaliStatus where
  | CaliSta_None
  | CaliSta_Middle
  | CaliSta_Margin
  deriving DecidableEq, Repr

/-- Modelled from the spec: the LED styles of `led.h` that the module sets. -/
inductive PadLedStyle where
  | PadLedStyle_On
  | PadLedStyle_Breath
  | PadLedStyle_Blink
  deriving DecidableEq, Repr

/-- Modelled from the spec: the button events of `button.h`; only click and
long press are named by the module, every other event kind is `Other`. -/
inductive ButtonEvent where
  | ButtonEvent_Click
  | ButtonEvent_LongPress
  | Other (code : Nat)
  deriving DecidableEq, Repr

/-- One entry of `middleQueue` (`MidVal_t`). -/
structure MidVal where
  leftX : Nat
  leftY : Nat
  rightX : Nat
  rightY : Nat
  leftHall : Nat
  rightHall : Nat
  deriving DecidableEq, Repr

/-- The ADC channels read by the module. -/
inductive AdcChan where
  | AdcChan_LeftX
  | AdcChan_LeftY
  | AdcChan_RightX
  | AdcChan_RightY
  | AdcChan_LeftHall
  | AdcChan_RightHall
  deriving DecidableEq, Repr

/-- What the environment supplies to one call of `Cali_Process`: the value
`GetAdcResult` returns for each channel and the value of `GetSysTime`. -/
structure PollInput where
  leftX : Nat
  leftY : Nat
  rightX : Nat
  rightY : Nat
  leftHall : Nat
  rightHall : Nat
  now : Nat
  deriving DecidableEq, Repr

/-- The value `GetAdcResult` returns for a channel during the poll. -/
def GetAdcResult (inp : PollInput) : AdcChan → Nat
  | .AdcChan_LeftX => inp.leftX
  | .AdcChan_LeftY => inp.leftY
  | .AdcChan_RightX => inp.rightX
  | .AdcChan_RightY => inp.rightY
  | .AdcChan_LeftHall => inp.leftHall
  | .AdcChan_RightHall => inp.rightHall

/-- The state of the module: its static variables, the bytes of the flash
page at `PAD_PARAM_ADDR` that hold the record, and the LED style. -/
structure State where
  caliParams : CaliParams
  caliStatus : CaliStatus
  middleQueue : List MidVal
  lastTime : Nat
  flash : List Nat
  led : PadLedStyle
  deriving DecidableEq, Repr

/-! ## Persisted layout -/

/-- The two bytes of a 16-bit value, low byte first. -/
def u16Bytes (v : Nat) : List Nat := [v % 256, v / 256 % 256]

/-- The four bytes of a 32-bit value, low byte first. -/
def u32Bytes (v : Nat) : List Nat :=
  [v % 256, v / 256 % 256, v / 65536 % 256, v / 16777216 % 256]

/-- Reads a 16-bit value from the front of a byte list (absent bytes read
as 0) and returns it with the remaining bytes. -/
def takeU16 : List Nat → Nat × List Nat
  | a :: b :: rest => (a % 256 + 256 * (b % 256), rest)
  | [a] => (a % 256, [])
  | [] => (0, [])

/-- Reads `n` consecutive 16-bit values. -/
def takeU16s : Nat → List Nat → List Nat × List Nat
  | 0, bs => ([], bs)
  | n + 1, bs =>
    let (v, r) := takeU16 bs
    let (vs, r2) := takeU16s n r
    (v :: vs, r2)

/-- Reads a 32-bit value from the front of a byte list. -/
def takeU32 (bs : List Nat) : Nat :=
  let (lo, r) := takeU16 bs
  let (hi, _) := takeU16 r
  lo + 65536 * hi

/-- Modelled from the spec: the bytes of a `CaliParams_t` object that precede
its `crc` field, `CL_OFFSET_OF(CaliParams_t, crc)` of them; the layout
(centers, the two radius tables, the two trigger ranges, then the checksum)
is the one the spec gives for the persisted record, `cali.h` being absent. -/
def fieldBytes (p : CaliParams) : List Nat :=
  u16Bytes p.leftMidX ++ u16Bytes p.leftMidY ++ u16Bytes p.rightMidX ++ u16Bytes p.rightMidY ++
  p.leftMag.flatMap u16Bytes ++ p.rightMag.flatMap u16Bytes ++
  u16Bytes p.leftTrigger.1 ++ u16Bytes p.leftTrigger.2 ++
  u16Bytes p.rightTrigger.1 ++ u16Bytes p.rightTrigger.2

/-- All `sizeof(caliParams)` bytes of the object. -/
def toBytes (p : CaliParams) : List Nat := fieldBytes p ++ u32Bytes p.crc

/-- The object a `memcpy` of `sizeof(caliParams)` bytes produces. -/
def ofBytes (bs : List Nat) : CaliParams :=
  let (lx, r1) := takeU16 bs
  let (ly, r2) := takeU16 r1
  let (rx, r3) := takeU16 r2
  let (ry, r4) := takeU16 r3
  let (lm, r5) := takeU16s MAG_LEN r4
  let (rm, r6) := takeU16s MAG_LEN r5
  let (lt0, r7) := takeU16 r6
  let (lt1, r8) := takeU16 r7
  let (rt0, r9) := takeU16 r8
  let (rt1, r10) := takeU16 r9
  { leftMidX := lx, leftMidY := ly, rightMidX := rx, rightMidY := ry,
    leftMag := lm, rightMag := rm,
    leftTrigger := (lt0, lt1), rightTrigger := (rt0, rt1),
    crc := takeU32 r10 }

/-! ## Parameter store -/

/-- Writes `v` to the entries `0 .. MAG_LEN - 1` of an array, one
assignment per index as the C `for` loops do. -/
def fillMag (v : Nat) (mag : List Nat) : List Nat :=
  (List.range MAG_LEN).foldl (fun m i => m.set i v) mag

/-- The function `ResetParams`. -/
def ResetParams (s : State) : State :=
  { s with caliParams :=
      { s.caliParams with
        leftMidX := 2048, leftMidY := 2048,
        leftMag := fillMag 2048 s.caliParams.leftMag,
        rightMidX := 2048, rightMidY := 2048,
        rightMag := fillMag 2048 s.caliParams.rightMag,
        leftTrigger := (0, 4096),
        rightTrigger := (0, 4096) } }

/-- The function `LoadCalibration`; `crc32` stands for `Ethernet_CRC32` of
`crc.h`, which is not among the sources. -/
def LoadCalibration (crc32 : List Nat → Nat) (s : State) : State :=
  let s1 := { s with caliParams := ofBytes s.flash }
  let crc := crc32 (fieldBytes s1.caliParams) % 2 ^ 32
  if crc ≠ s1.caliParams.crc then ResetParams s1 else s1

/-- The function `SaveCalibration`; the erase and the write of the page are
taken to succeed, as the module does. -/
def SaveCalibration (crc32 : List Nat → Nat) (s : State) : State :=
  let p := { s.caliParams with crc := crc32 (fieldBytes s.caliParams) % 2 ^ 32 }
  { s with caliParams := p, flash := toBytes p }

/-! ## Sample window -/

/-- Capacity of `middleQueue` (`CL_QUEUE_DEF_INIT(middleQueue, 20, ...)`). -/
def QUEUE_CAP : Nat := 20

/-- Modelled from the spec: `CL_QueueFull` of `cl_queue.h`, which is not among
the sources; the window is full when it holds 20 samples. -/
def CL_QueueFull (q : List MidVal) : Bool := decide (QUEUE_CAP ≤ q.length)

/-- Modelled from the spec: `CL_QueuePoll` of `cl_queue.h` with a null output
pointer; it removes the oldest sample. -/
def CL_QueuePoll (q : List MidVal) : List MidVal := q.drop 1

/-- Modelled from the spec: `CL_QueueAdd` of `cl_queue.h`; it appends a
sample as the newest one, and does nothing on a full window. -/
def CL_QueueAdd (q : List MidVal) (v : MidVal) : List MidVal :=
  if CL_QueueFull q then q else q ++ [v]

/-- Modelled from the spec: `CL_QueueClear` of `cl_queue.h`. -/
def CL_QueueClear (_q : List MidVal) : List MidVal := []

/-- The samples of a window are `uint16_t` values and there are at most 20
of them. -/
def QueueWF (q : List MidVal) : Prop :=
  q.length ≤ QUEUE_CAP ∧
  ∀ m ∈ q, m.leftX < 65536 ∧ m.leftY < 65536 ∧ m.rightX < 65536 ∧ m.rightY < 65536 ∧
    m.leftHall < 65536 ∧ m.rightHall < 65536

instance (q : List MidVal) : Decidable (QueueWF q) := by
  unfold QueueWF; infer_instance

/-! ## Transitions -/

/-- The function `SetPadLedStyle` of `led.h`, as far as the module is
concerned: it records the style. -/
def SetPadLedStyle (style : PadLedStyle) (s : State) : State := { s with led := style }

/-- The function `ToCaliNone`. -/
def ToCaliNone (s : State) : State :=
  let s1 := SetPadLedStyle .PadLedStyle_On s
  { s1 with caliStatus := .CaliSta_None }

/-- The function `ToCaliMiddle`. -/
def ToCaliMiddle (s : State) : State :=
  let s1 := SetPadLedStyle .PadLedStyle_Breath s
  let s2 := { s1 with middleQueue := CL_QueueClear s1.middleQueue }
  { s2 with caliStatus := .CaliSta_Middle }

/-- The function `ToCaliMargin`. -/
def ToCaliMargin (s : State) : State :=
  let p1 := { s.caliParams with leftMag := fillMag 0 s.caliParams.leftMag }
  let p2 := { p1 with rightMag := fillMag 0 p1.rightMag }
  let p3 := { p2 with leftTrigger := (p2.leftTrigger.1, 0) }
  let p4 := { p3 with rightTrigger := (p3.rightTrigger.1, 0) }
  let s1 := SetPadLedStyle .PadLedStyle_Blink { s with caliParams := p4 }
  { s1 with caliStatus := .CaliSta_Margin }

/-- The listener `OnBtnPairEvent`. -/
def OnBtnPairEvent (evt : ButtonEvent) (s : State) : State :=
  if evt = .ButtonEvent_LongPress then
    if s.caliStatus = .CaliSta_None then ToCaliMiddle s else s
  else s

/-- The listener `OnBtnAEvent`. -/
def OnBtnAEvent (crc32 : List Nat → Nat) (evt : ButtonEvent) (s : State) : State :=
  if evt = .ButtonEvent_Click then
    if s.caliStatus = .CaliSta_Margin then ToCaliNone (SaveCalibration crc32 s) else s
  else s

/-- The listener `OnBtnYEvent`. -/
def OnBtnYEvent (crc32 : List Nat → Nat) (evt : ButtonEvent) (s : State) : State :=
  if evt = .ButtonEvent_LongPress then
    if s.caliStatus = .CaliSta_Margin then
      ToCaliNone (SaveCalibration crc32 (ResetParams s))
    else s
  else s

/-- The function `Cali_Init`, without the registration of the listeners. -/
def Cali_Init (crc32 : List Nat → Nat) (s : State) : State :=
  LoadCalibration crc32 (SetPadLedStyle .PadLedStyle_On s)

/-! ## Center detection -/

/-- The constant `MID_MAX_DIFF`. -/
def MID_MAX_DIFF : Nat := 50

/-- Modelled from the spec: `SysTimeSpan` of `systime.h`, the time elapsed
since `last` on the 32-bit millisecond clock whose value is `now`. -/
def SysTimeSpan (now last : Nat) : Nat := (now % 2 ^ 32 + 2 ^ 32 - last % 2 ^ 32) % 2 ^ 32

/-- The sample `temp` that `MiddleProc` captures: each reading stored in a
`uint16_t` field. -/
def captureSample (inp : PollInput) : MidVal :=
  { leftX := GetAdcResult inp .AdcChan_LeftX % 65536,
    leftY := GetAdcResult inp .AdcChan_LeftY % 65536,
    rightX := GetAdcResult inp .AdcChan_RightX % 65536,
    rightY := GetAdcResult inp .AdcChan_RightY % 65536,
    leftHall := GetAdcResult inp .AdcChan_LeftHall % 65536,
    rightHall := GetAdcResult inp .AdcChan_RightHall % 65536 }

/-- The window after the capture: the oldest sample leaves a full window,
then the new one is added. -/
def captureQueue (q : List MidVal) (v : MidVal) : List MidVal :=
  CL_QueueAdd (if CL_QueueFull q then CL_QueuePoll q else q) v

/-- One round of the `CL_QUEUE_FOR_EACH` loop of `MiddleProc`: the running
minima and maxima take one sample into account. -/
def minMaxStep (acc : MidVal × MidVal) (d : MidVal) : MidVal × MidVal :=
  ({ leftX := min acc.1.leftX d.leftX, leftY := min acc.1.leftY d.leftY,
     rightX := min acc.1.rightX d.rightX, rightY := min acc.1.rightY d.rightY,
     leftHall := min acc.1.leftHall d.leftHall, rightHall := min acc.1.rightHall d.rightHall },
   { leftX := max acc.2.leftX d.leftX, leftY := max acc.2.leftY d.leftY,
     rightX := max acc.2.rightX d.rightX, rightY := max acc.2.rightY d.rightY,
     leftHall := max acc.2.leftHall d.leftHall, rightHall := max acc.2.rightHall d.rightHall })

/-- The values of `min` and `max` after the loop over the window; they start
from `memset(&min, 0xff, ...)` and `memset(&max, 0, ...)`. -/
def windowMinMax (q : List MidVal) : MidVal × MidVal :=
  q.foldl minMaxStep
    (⟨65535, 65535, 65535, 65535, 65535, 65535⟩, ⟨0, 0, 0, 0, 0, 0⟩)

/-- A `uint16_t` difference `a - b`. -/
def subU16 (a b : Nat) : Nat := (a % 65536 + 65536 - b % 65536) % 65536

/-- The value of `diff` in `MiddleProc`. -/
def windowDiff (mm : MidVal × MidVal) : MidVal :=
  { leftX := subU16 mm.2.leftX mm.1.leftX, leftY := subU16 mm.2.leftY mm.1.leftY,
    rightX := subU16 mm.2.rightX mm.1.rightX, rightY := subU16 mm.2.rightY mm.1.rightY,
    leftHall := subU16 mm.2.leftHall mm.1.leftHall,
    rightHall := subU16 mm.2.rightHall mm.1.rightHall }

/-- The test `diff.x < MID_MAX_DIFF && ...` over the six channels. -/
def settled (d : MidVal) : Bool :=
  decide (d.leftX < MID_MAX_DIFF) && decide (d.leftY < MID_MAX_DIFF) &&
  decide (d.rightX < MID_MAX_DIFF) && decide (d.rightY < MID_MAX_DIFF) &&
  decide (d.leftHall < MID_MAX_DIFF) && decide (d.rightHall < MID_MAX_DIFF)

/-- The function `MiddleProc`. -/
def MiddleProc (inp : PollInput) (s : State) : State :=
  if 100 ≤ SysTimeSpan inp.now s.lastTime then
    let s1 := { s with lastTime := inp.now % 2 ^ 32 }
    let temp := captureSample inp
    let s2 := { s1 with middleQueue := captureQueue s1.middleQueue temp }
    if CL_QueueFull s2.middleQueue then
      let mm := windowMinMax s2.middleQueue
      let diff := windowDiff mm
      if settled diff then
        let p := { s2.caliParams with
          leftMidX := (mm.1.leftX + mm.2.leftX) / 2 % 65536,
          leftMidY := (mm.1.leftY + mm.2.leftY) / 2 % 65536,
          rightMidX := (mm.1.rightX + mm.2.rightX) / 2 % 65536,
          rightMidY := (mm.1.rightY + mm.2.rightY) / 2 % 65536,
          leftTrigger := ((mm.1.leftHall + mm.2.leftHall) / 2 % 65536, s2.caliParams.leftTrigger.2),
          rightTrigger :=
            ((mm.1.rightHall + mm.2.rightHall) / 2 % 65536, s2.caliParams.rightTrigger.2) }
        ToCaliMargin { s2 with caliParams := p }
      else s2
    else s2
  else s

/-! ## Margin collection -/

/-- Modelled from the spec: the type `Vector2` of `mathex.h`, two `float`
components, here real numbers. -/
structure Vector2 where
  x : ℝ
  y : ℝ

/-- Modelled from the spec: `Vector2_SqrMagnitude` of `mathex.h`, the squared
length of the vector. -/
noncomputable def Vector2_SqrMagnitude (v : Vector2) : ℝ := v.x * v.x + v.y * v.y

/-- Modelled from the spec: `Vector2_Magnitude` of `mathex.h`, the length of
the vector. -/
noncomputable def Vector2_Magnitude (v : Vector2) : ℝ := Real.sqrt (v.x * v.x + v.y * v.y)

/-- Modelled from the spec: the macro `CL_CLAMP`, which is not among the
sources: the value brought into the interval from `lo` to `hi`. -/
noncomputable def CL_CLAMP (v lo hi : ℝ) : ℝ := if v < lo then lo else if v > hi then hi else v

/-- Modelled from the spec: the macro `FLOAT_NEAR` of `mathex.h`: the two
values differ by less than `eps`. -/
def FLOAT_NEAR (a b eps : ℝ) : Prop := |a - b| < eps

noncomputable instance (a b eps : ℝ) : Decidable (FLOAT_NEAR a b eps) := by
  unfold FLOAT_NEAR; infer_instance

/-- The C function `roundf`: the nearest integer, halves away from zero. -/
noncomputable def roundf (r : ℝ) : Int := if 0 ≤ r then ⌊r + 1 / 2⌋ else ⌈r - 1 / 2⌉

/-- The function `GetRadian` without rounding errors, for a vector that is
not zero; for the zero vector the C quotient is 0 / 0, see `GetRadianF`. -/
noncomputable def GetRadian (v : Vector2) : ℝ :=
  let cos := CL_CLAMP (v.y / Vector2_Magnitude v) (-1) 1
  let rad := Real.arccos cos
  if v.x < 0 then Real.pi * 2 - rad else rad

/-- A product of two `int` values, with the wrap of 32-bit two's-complement
arithmetic. -/
def mulInt32 (a b : Int) : Int := (a * b + 2 ^ 31) % 2 ^ 32 - 2 ^ 31

/-- The vector `*stick` after the subtraction of the center of its side. -/
noncomputable def centered (stick : Vector2) (left : Bool) (p : CaliParams) : Vector2 :=
  if left then ⟨stick.x - p.leftMidX, stick.y - p.leftMidY⟩
  else ⟨stick.x - p.rightMidX, stick.y - p.rightMidY⟩

/-- The array `mags` points to. -/
def selectMag (left : Bool) (p : CaliParams) : List Nat :=
  if left then p.leftMag else p.rightMag

/-- The assignment `mags[pos] = v`. -/
def storeMag (left : Bool) (p : CaliParams) (pos : Nat) (v : Nat) : CaliParams :=
  if left then { p with leftMag := p.leftMag.set pos v }
  else { p with rightMag := p.rightMag.set pos v }

/-- The value of `rad` after `rad /= (M_PI * 2 / len)`: the fractional
sector index of a vector. -/
noncomputable def sectorIndex (v : Vector2) : ℝ := GetRadian v / (Real.pi * 2 / (MAG_LEN : ℝ))

/-- The function `StickMarginProc` without rounding errors, as a function of
the parameters; the change it makes to `*stick` is not used by its caller.
With the rounding of `float` it is `StickMarginProcF`. -/
noncomputable def StickMarginProc (stick : Vector2) (left : Bool) (p : CaliParams) :
    CaliParams :=
  let v := centered stick left p
  let mags := selectMag left p
  let sqrMag := Vector2_SqrMagnitude v
  if sqrMag > 90000 then
    let rad := sectorIndex v
    let pos : Int := roundf rad
    if FLOAT_NEAR rad pos (1 / 10) then
      let pos1 : Int := Int.tmod pos MAG_LEN
      let m : Int := (mags.getD pos1.toNat 0 : Nat)
      if sqrMag > (mulInt32 m m : ℝ) then
        storeMag left p pos1.toNat (⌊Real.sqrt sqrMag⌋₊ % 65536)
      else p
    else p
  else p

/-- The value of `allFound` after the loop over the two arrays. -/
def allMagsFound (p : CaliParams) : Bool :=
  (List.range MAG_LEN).all fun i => !(p.leftMag.getD i 0 == 0 || p.rightMag.getD i 0 == 0)

/-- The function `MarginProc`. -/
noncomputable def MarginProc (inp : PollInput) (s : State) : State :=
  let leftStick : Vector2 :=
    ⟨(GetAdcResult inp .AdcChan_LeftX : ℝ), (GetAdcResult inp .AdcChan_LeftY : ℝ)⟩
  let p1 := StickMarginProc leftStick true s.caliParams
  let rightStick : Vector2 :=
    ⟨(GetAdcResult inp .AdcChan_RightX : ℝ), (GetAdcResult inp .AdcChan_RightY : ℝ)⟩
  let p2 := StickMarginProc rightStick false p1
  let p3 := { p2 with leftTrigger :=
    (p2.leftTrigger.1, max p2.leftTrigger.2 (GetAdcResult inp .AdcChan_LeftHall) % 65536) }
  let p4 := { p3 with rightTrigger :=
    (p3.rightTrigger.1, max p3.rightTrigger.2 (GetAdcResult inp .AdcChan_RightHall) % 65536) }
  let allFound := allMagsFound p4
  let allFound := if p4.leftTrigger.2 < p4.leftTrigger.1 + 500 then false else allFound
  let allFound := if p4.rightTrigger.2 < p4.rightTrigger.1 + 500 then false else allFound
  let s1 := { s with caliParams := p4 }
  if allFound then SetPadLedStyle .PadLedStyle_Breath s1 else s1

/-- The function `Cali_Process`. -/
noncomputable def Cali_Process (inp : PollInput) (s : State) : State :=
  match s.caliStatus with
  | .CaliSta_None => s
  | .CaliSta_Middle => MiddleProc inp s
  | .CaliSta_Margin => MarginProc inp s

/-! ## Stick correction -/

/-- The value of `caliMags[i % len]`, converted to `float`; `i` is an `int`
and `%` is the C remainder. -/
noncomputable def magAt (caliMags : List Nat) (i : Int) : ℝ :=
  ((caliMags.getD (Int.tmod i (MAG_LEN : Nat)).toNat 0 : Nat) : ℝ)

/-- The value of `mag` in `StickCorrect` as a function of the fractional
sector index `rad`: the entry of the sector when `floorf(rad)` and
`ceilf(rad)` coincide, else the interpolation between the two entries. -/
noncomputable def interpMag (caliMags : List Nat) (rad : ℝ) : ℝ :=
  let before : Int := ⌊rad⌋
  let next : Int := ⌈rad⌉
  if before = next then magAt caliMags before
  else (rad - before) * magAt caliMags next + (next - rad) * magAt caliMags before

/-- The vector `*stick` after the two divisions by `mag` in `StickCorrect`,
without rounding errors and for a radius `mag` that is not 0; the division by
a radius 0 is in `normalizedF`. -/
noncomputable def normalized (stick : Vector2) (left : Bool) (p : CaliParams) : Vector2 :=
  let v := centered stick left p
  let mag := interpMag (selectMag left p) (sectorIndex v)
  ⟨v.x / mag, v.y / mag⟩

/-- The function `StickCorrect`: the state of the module, which it does not
write, and the value it leaves in `*stick`, without rounding errors, for a
stick off the center and a radius that is not 0; with the rounding, the
infinities and the NaN of `float` it is `StickCorrectF`. -/
noncomputable def StickCorrect (stick : Vector2) (left : Bool) (s : State) : Vector2 × State :=
  let n := normalized stick left s.caliParams
  if n.x * n.x + n.y * n.y < 7 / 1000 then (⟨0, 0⟩, s)
  else
    (⟨CL_CLAMP (n.x * 33000) (-32767) 32767, CL_CLAMP (n.y * 33000) (-32767) 32767⟩, s)

/-- The sector `pos` of `StickMarginProc` for an angle `a`: `roundf` of the
angle divided by `M_PI * 2 / len`, then `pos %= len`. -/
noncomputable def sectorOf (a : ℝ) : Int :=
  Int.tmod (roundf (a / (Real.pi * 2 / (MAG_LEN : ℝ)))) (MAG_LEN : Nat)

/-! ## Runs of the module -/

/-- The static initial values of the module at power-on (`caliParams = {0}`,
`caliStatus = CaliSta_None`, an empty `middleQueue`, `lastTime = 0`), with the
flash page and the LED as they are found. -/
def powerOn (flash : List Nat) (led : PadLedStyle) : State :=
  { caliParams :=
      { leftMidX := 0, leftMidY := 0, rightMidX := 0, rightMidY := 0,
        leftMag := List.replicate 60 0, rightMag := List.replicate 60 0,
        leftTrigger := (0, 0), rightTrigger := (0, 0), crc := 0 },
    caliStatus := .CaliSta_None, middleQueue := [], lastTime := 0, flash := flash, led := led }

/-- What the rest of the firmware can do with the module after `Cali_Init`:
call `Cali_Process`, deliver an event of one of the three buttons, or call
`StickCorrect`. -/
inductive Action where
  | poll (inp : PollInput)
  | btnPair (evt : ButtonEvent)
  | btnA (evt : ButtonEvent)
  | btnY (evt : ButtonEvent)
  | correct (stick : Vector2) (left : Bool)

/-- The state after one action. -/
noncomputable def act (crc32 : List Nat → Nat) (a : Action) (s : State) : State :=
  match a with
  | .poll inp => Cali_Process inp s
  | .btnPair evt => OnBtnPairEvent evt s
  | .btnA evt => OnBtnAEvent crc32 evt s
  | .btnY evt => OnBtnYEvent crc32 evt s
  | .correct stick left => (StickCorrect stick left s).2

/-- The states the module can be in: those `Cali_Init` leaves at power-on,
and those an action leads to from such a state. -/
inductive Reachable (crc32 : List Nat → Nat) : State → Prop where
  | init (flash : List Nat) (led : PadLedStyle) :
      Reachable crc32 (Cali_Init crc32 (powerOn flash led))
  | step (a : Action) (s : State) : Reachable crc32 s → Reachable crc32 (act crc32 a s)

/-- The state after a sequence of calls of `Cali_Process`, one per input. -/
noncomputable def runPolls (inps : List PollInput) (s : State) : State :=
  inps.foldl (fun st inp => Cali_Process inp st) s

/-! ## Window statistics, stated independently of the loop -/

/-- The smallest value of a channel over the samples of a window. -/
def chanMin (f : MidVal → Nat) (q : List MidVal) : Nat := ((q.map f).min?).getD 0

/-- The largest value of a channel over the samples of a window. -/
def chanMax (f : MidVal → Nat) (q : List MidVal) : Nat := ((q.map f).max?).getD 0

/-- The max-minus-min spread of a channel over the samples of a window. -/
def spread (f : MidVal → Nat) (q : List MidVal) : Nat := chanMax f q - chanMin f q

/-- The window `MiddleProc` examines when it captures the readings of `inp`
in state `s`. -/
def windowAfter (inp : PollInput) (s : State) : List MidVal :=
  captureQueue s.middleQueue (captureSample inp)

/-- All six channels of a window have a spread below 50. -/
def allSpreadsBelow (q : List MidVal) : Prop :=
  spread MidVal.leftX q < 50 ∧ spread MidVal.leftY q < 50 ∧
  spread MidVal.rightX q < 50 ∧ spread MidVal.rightY q < 50 ∧
  spread MidVal.leftHall q < 50 ∧ spread MidVal.rightHall q < 50

instance (q : List MidVal) : Decidable (allSpreadsBelow q) := by
  unfold allSpreadsBelow; infer_instance

/-! ## Concrete inputs and derived records -/

/-- A stand-in for the checksum function, used where a statement is evaluated
at a concrete input: the sum of the bytes. -/
def sumCrc (bs : List Nat) : Nat := bs.sum

/-- A well-formed state used to evaluate statements: the parameters are the
defaults, the status is `st`, the window is `q`, the flash page is empty. -/
def sampleState (st : CaliStatus) (q : List MidVal) : State :=
  { caliParams :=
      { leftMidX := 2048, leftMidY := 2048, rightMidX := 2048, rightMidY := 2048,
        leftMag := List.replicate 60 2048, rightMag := List.replicate 60 2048,
        leftTrigger := (0, 4096), rightTrigger := (0, 4096), crc := 0 },
    caliStatus := st, middleQueue := q, lastTime := 0, flash := [],
    led := .PadLedStyle_On }

/-- The parameters `MiddleProc` holds just before it calls `ToCaliMargin`:
the centers and the trigger minima are the midpoints of the window. -/
def settledParams (p : CaliParams) (q : List MidVal) : CaliParams :=
  { p with
    leftMidX := (chanMin MidVal.leftX q + chanMax MidVal.leftX q) / 2,
    leftMidY := (chanMin MidVal.leftY q + chanMax MidVal.leftY q) / 2,
    rightMidX := (chanMin MidVal.rightX q + chanMax MidVal.rightX q) / 2,
    rightMidY := (chanMin MidVal.rightY q + chanMax MidVal.rightY q) / 2,
    leftTrigger := ((chanMin MidVal.leftHall q + chanMax MidVal.leftHall q) / 2, p.leftTrigger.2),
    rightTrigger :=
      ((chanMin MidVal.rightHall q + chanMax MidVal.rightHall q) / 2, p.rightTrigger.2) }

/-- A window of 19 samples in which the left X channel alternates between
2000 and 2040 and the other channels are steady. -/
def steadyWindow : List MidVal :=
  (List.range 19).map fun i => ⟨if i % 2 = 0 then 2000 else 2040, 2048, 2050, 2047, 10, 12⟩

/-- A window of 19 samples whose left X channel holds 2000 in every sample. -/
def flatWindow : List MidVal :=
  (List.range 19).map fun _ => ⟨2000, 2048, 2050, 2047, 10, 12⟩

/-- A state whose flash page holds a saved record of the default parameters
in which the first byte was overwritten afterwards. -/
def corruptState : State :=
  { sampleState .CaliSta_None [] with
    flash := (SaveCalibration sumCrc (sampleState .CaliSta_None [])).flash.set 0 1 }

/-- The readings of a poll at time 100 with the left X channel at `lx` and
the other channels steady. -/
def steadyInput (lx : Nat) : PollInput :=
  { leftX := lx, leftY := 2049, rightX := 2051, rightY := 2046, leftHall := 11, rightHall := 13,
    now := 100 }

/-- The default parameters `ResetParams` writes, with the checksum field
`c`. -/
def defaultParams (c : Nat) : CaliParams :=
  { leftMidX := 2048, leftMidY := 2048, rightMidX := 2048, rightMidY := 2048,
    leftMag := List.replicate 60 2048, rightMag := List.replicate 60 2048,
    leftTrigger := (0, 4096), rightTrigger := (0, 4096), crc := c }

/-- A state in status `CaliSta_Margin` as `MiddleProc` leaves it: centers
and trigger minima measured, radius tables and trigger maxima at 0. -/
def marginState : State :=
  { caliParams :=
      { leftMidX := 2020, leftMidY := 2048, rightMidX := 2050, rightMidY := 2046,
        leftMag := List.replicate 60 0, rightMag := List.replicate 60 0,
        leftTrigger := (10, 0), rightTrigger := (12, 0), crc := 0 },
    caliStatus := .CaliSta_Margin, middleQueue := [], lastTime := 100, flash := [],
    led := .PadLedStyle_Blink }

/-! ## The sector update rule, in the words of the specification -/

/-- The center-relative squared magnitude of a raw stick sample. -/
noncomputable def marginSqr (stick : Vector2) (left : Bool) (p : CaliParams) : ℝ :=
  Vector2_SqrMagnitude (centered stick left p)

/-- The fractional sector index of a raw stick sample: the angle of the
center-relative vector divided by 2π/60. -/
noncomputable def marginIndex (stick : Vector2) (left : Bool) (p : CaliParams) : ℝ :=
  sectorIndex (centered stick left p)

/-- The sector of a raw stick sample: the integer nearest to the fractional
sector index, modulo 60. -/
noncomputable def marginSector (stick : Vector2) (left : Bool) (p : CaliParams) : Nat :=
  (round (marginIndex stick left p)).toNat % 60

/-- The three conditions of the update rule: the squared magnitude exceeds
90000, the fractional sector index is within 0.1 of its nearest integer, and
the squared magnitude exceeds the square of the entry of that sector. -/
def marginCond (stick : Vector2) (left : Bool) (p : CaliParams) : Prop :=
  marginSqr stick left p > 90000 ∧
  |marginIndex stick left p - round (marginIndex stick left p)| < 1 / 10 ∧
  marginSqr stick left p > (((selectMag left p).getD (marginSector stick left p) 0 : Nat) : ℝ) ^ 2

/-- Parameters in which sector 0 of the left stick already holds 400. -/
def nearParams : CaliParams :=
  { leftMidX := 2048, leftMidY := 2048, rightMidX := 2048, rightMidY := 2048,
    leftMag := 400 :: List.replicate 59 0, rightMag := List.replicate 60 0,
    leftTrigger := (10, 0), rightTrigger := (12, 0), crc := 0 }

/-- A raw left-stick sample one unit right of and 400 units above the
center 2048, 2048. -/
noncomputable def nearStick : Vector2 := ⟨2049, 2448⟩

/-- A raw left-stick sample 500 units above the center 2048, 2048. -/
noncomputable def upStick : Vector2 := ⟨2048, 2548⟩

/-! ## The margin poll, in the words of the specification -/

/-- The parameters at the end of a `MarginProc` poll: the two stick updates,
then the two trigger maxima. -/
noncomputable def marginParams (inp : PollInput) (p : CaliParams) : CaliParams :=
  let p2 := StickMarginProc ⟨(inp.rightX : ℝ), (inp.rightY : ℝ)⟩ false
    (StickMarginProc ⟨(inp.leftX : ℝ), (inp.leftY : ℝ)⟩ true p)
  { p2 with
    leftTrigger := (p2.leftTrigger.1, max p2.leftTrigger.2 inp.leftHall % 65536),
    rightTrigger := (p2.rightTrigger.1, max p2.rightTrigger.2 inp.rightHall % 65536) }

/-- The completeness criterion: all 60 left and all 60 right radius entries
are non-zero and each trigger maximum is at least its minimum plus 500. -/
def complete (p : CaliParams) : Prop :=
  (∀ i, i < 60 → p.leftMag.getD i 0 ≠ 0) ∧ (∀ i, i < 60 → p.rightMag.getD i 0 ≠ 0) ∧
  p.leftTrigger.1 + 500 ≤ p.leftTrigger.2 ∧ p.rightTrigger.1 + 500 ≤ p.rightTrigger.2

/-- A state in status `CaliSta_Margin` right after settling with both
trigger midpoints at 0. -/
def zeroTriggerState : State :=
  { marginState with
    caliParams := { marginState.caliParams with leftTrigger := (0, 0), rightTrigger := (0, 0) } }

/-- Three polls in which both hall readings rise from 100 over 300 to 600. -/
def risingInputs : List PollInput :=
  [{ steadyInput 2048 with leftHall := 100, rightHall := 100 },
   { steadyInput 2048 with leftHall := 300, rightHall := 300 },
   { steadyInput 2048 with leftHall := 600, rightHall := 600 }]

instance (p : CaliParams) : Decidable (complete p) := by
  unfold complete; infer_instance

/-! ## Concrete inputs of the stick correction -/

/-- Parameters with both centers at 2048, 2048 and every radius entry of both
tables at `r`. -/
def uniformParams (r : Nat) : CaliParams :=
  { leftMidX := 2048, leftMidY := 2048, rightMidX := 2048, rightMidY := 2048,
    leftMag := List.replicate 60 r, rightMag := List.replicate 60 r,
    leftTrigger := (0, 4096), rightTrigger := (0, 4096), crc := 0 }

/-- A raw stick sample `dx` units right of the center 2048, 2048. -/
noncomputable def rightStick (dx : ℝ) : Vector2 := ⟨2048 + dx, 2048⟩

/-- The center of a side: `leftMidX`, `leftMidY` or `rightMidX`,
`rightMidY`. -/
def selectMid (left : Bool) (p : CaliParams) : Nat × Nat :=
  if left then (p.leftMidX, p.leftMidY) else (p.rightMidX, p.rightMidY)

/-- A full window: 20 samples whose left X channel counts from 0 to 19. -/
def fullWindow : List MidVal :=
  (List.range 20).map fun i => ⟨i, 2048, 2050, 2047, 10, 12⟩

/-! ## Runs with 12-bit readings -/

/-- The six readings of a poll are 12-bit ADC samples. -/
def adc12 (inp : PollInput) : Prop :=
  inp.leftX ≤ 4095 ∧ inp.leftY ≤ 4095 ∧ inp.rightX ≤ 4095 ∧ inp.rightY ≤ 4095 ∧
  inp.leftHall ≤ 4095 ∧ inp.rightHall ≤ 4095

instance (inp : PollInput) : Decidable (adc12 inp) := by
  unfold adc12; infer_instance

/-- An action whose readings, if it is a poll, are 12-bit ADC samples. -/
def actionAdc12 : Action → Prop
  | .poll inp => adc12 inp
  | _ => True

instance (a : Action) : Decidable (actionAdc12 a) := by
  cases a <;> unfold actionAdc12 <;> infer_instance

/-- The states the module can be in when every reading is a 12-bit ADC
sample. -/
inductive Reachable12 (crc32 : List Nat → Nat) : State → Prop where
  | init (flash : List Nat) (led : PadLedStyle) :
      Reachable12 crc32 (Cali_Init crc32 (powerOn flash led))
  | step (a : Action) (s : State) :
      Reachable12 crc32 s → actionAdc12 a → Reachable12 crc32 (act crc32 a s)

/-- The state after a sequence of actions. -/
noncomputable def runActions (crc32 : List Nat → Nat) (acts : List Action) (s : State) : State :=
  acts.foldl (fun st a => act crc32 a st) s

/-- What holds in every state reached with 12-bit readings: the parameters
are well formed, the window holds at most 20 samples of 12-bit readings, and
in status `CaliSta_Margin` the four centers are 12-bit values and no radius
entry exceeds 5791, the largest length of a vector of two 12-bit differences. -/
def MarginInv (s : State) : Prop :=
  ParamsWF s.caliParams ∧ s.middleQueue.length ≤ 20 ∧
  (∀ m ∈ s.middleQueue, m.leftX ≤ 4095 ∧ m.leftY ≤ 4095 ∧ m.rightX ≤ 4095 ∧ m.rightY ≤ 4095 ∧
    m.leftHall ≤ 4095 ∧ m.rightHall ≤ 4095) ∧
  (s.caliStatus = .CaliSta_Margin →
    s.caliParams.leftMidX ≤ 4095 ∧ s.caliParams.leftMidY ≤ 4095 ∧
    s.caliParams.rightMidX ≤ 4095 ∧ s.caliParams.rightMidY ≤ 4095 ∧
    (∀ m ∈ s.caliParams.leftMag, m ≤ 5791) ∧ (∀ m ∈ s.caliParams.rightMag, m ≤ 5791))

instance (s : State) : Decidable (MarginInv s) := by
  unfold MarginInv; infer_instance

/-- The readings of a calibration started at power-on with an empty flash
page: 20 polls, 100 ms apart, with the sticks and the triggers at rest. -/
def restInputs : List PollInput :=
  (List.range 20).map fun i =>
    { leftX := 2040, leftY := 2049, rightX := 2051, rightY := 2046, leftHall := 11,
      rightHall := 13, now := 100 * (i + 1) }

/-- The actions of that calibration up to the settling: the long press of
the pair button, then the 20 polls. -/
def restActions : List Action :=
  Action.btnPair .ButtonEvent_LongPress :: restInputs.map Action.poll

/-- The state in which that calibration enters the margin collection. -/
noncomputable def restState : State :=
  runActions sumCrc restActions (Cali_Init sumCrc (powerOn [] .PadLedStyle_On))

/-- A poll with the left stick 500 units above its rest position. -/
def pushInput : PollInput :=
  { leftX := 2040, leftY := 2549, rightX := 2051, rightY := 2046, leftHall := 300,
    rightHall := 13, now := 2100 }

/-- A state in status `CaliSta_Margin` whose tables and trigger ranges meet
the completeness criterion. -/
def completeState : State :=
  { marginState with
    caliParams := { marginState.caliParams with
      leftMag := List.replicate 60 3000, rightMag := List.replicate 60 3000,
      leftTrigger := (10, 600), rightTrigger := (12, 600) } }

/-! ## Float arithmetic with rounding, infinities and NaN

The functions `StickMarginProc` and `StickCorrect` compute in `float` and
`double`. The definitions of this section follow the C code operation by
operation: every arithmetic operation rounds its exact result, a division by
zero gives an infinity or a NaN, and a conversion the C language leaves
undefined gives no result. The rounding itself, `acosf` and `sqrtf` belong to
the platform and are the fields of `FloatOps`. -/

/-- A value of type `float` or `double`: a real number, one of the two
infinities, or a NaN. The two zeros are one value. -/
inductive FVal where
  | fin (r : ℝ)
  | pinf
  | ninf
  | nan

/-- The order of the values that are not NaN. -/
def FVal.le : FVal → FVal → Prop
  | .fin x, .fin y => x ≤ y
  | .ninf, .fin _ => True
  | .ninf, .ninf => True
  | .ninf, .pinf => True
  | .fin _, .pinf => True
  | .pinf, .pinf => True
  | _, _ => False

/-- The C comparison `a < b` of two floating values: false when one of them
is a NaN. -/
def FVal.lt : FVal → FVal → Prop
  | .fin x, .fin y => x < y
  | .ninf, .fin _ => True
  | .ninf, .pinf => True
  | .fin _, .pinf => True
  | _, _ => False

noncomputable instance (a b : FVal) : Decidable (FVal.lt a b) := Classical.propDecidable _

/-- The arithmetic of the platform: `rnd` rounds an exact result to `float`
and `rndD` to `double` (to an infinity when the result is too large), `acosf`
and `sqrtf` are the library functions on the arguments for which they return a
number, `pi` is the constant `M_PI`. The laws are those every IEEE 754
arithmetic with a rounding to nearest meets: rounding is monotone and leaves
the integers up to 2^24 and the powers 2^n and 2^-n, n ≤ 100, as they are;
`acosf` returns a value between 0 and 4; `sqrtf` is monotone, 0 at 0 and
exact on the powers of 4; `M_PI` lies between 3 and 4. -/
structure FloatOps where
  rnd : ℝ → FVal
  rndD : ℝ → FVal
  acosf : ℝ → ℝ
  sqrtf : ℝ → ℝ
  pi : ℝ
  rnd_mono : ∀ x y : ℝ, x ≤ y → FVal.le (rnd x) (rnd y)
  rnd_int : ∀ k : Int, |k| ≤ 2 ^ 24 → rnd (k : ℝ) = .fin (k : ℝ)
  rnd_pow : ∀ n : Nat, n ≤ 100 → rnd ((1 / 2 : ℝ) ^ n) = .fin ((1 / 2 : ℝ) ^ n)
  rnd_two_pow : ∀ n : Nat, n ≤ 100 → rnd ((2 : ℝ) ^ n) = .fin ((2 : ℝ) ^ n)
  rndD_mono : ∀ x y : ℝ, x ≤ y → FVal.le (rndD x) (rndD y)
  rndD_int : ∀ k : Int, |k| ≤ 2 ^ 24 → rndD (k : ℝ) = .fin (k : ℝ)
  rndD_pow : ∀ n : Nat, n ≤ 100 → rndD ((1 / 2 : ℝ) ^ n) = .fin ((1 / 2 : ℝ) ^ n)
  acosf_range : ∀ c : ℝ, 0 ≤ acosf c ∧ acosf c ≤ 4
  sqrtf_zero : sqrtf 0 = 0
  sqrtf_mono : ∀ a b : ℝ, 0 ≤ a → a ≤ b → sqrtf a ≤ sqrtf b
  sqrtf_pow : ∀ n : Nat, n ≤ 50 → sqrtf ((4 : ℝ) ^ n) = (2 : ℝ) ^ n
  pi_range : 3 < pi ∧ pi < 4

/-- The negation of a floating value. -/
noncomputable def FVal.neg : FVal → FVal
  | .fin r => .fin (-r)
  | .pinf => .ninf
  | .ninf => .pinf
  | .nan => .nan

/-- The absolute value of a floating value (`fabs`). -/
noncomputable def FVal.abs : FVal → FVal
  | .fin r => .fin |r|
  | .pinf => .pinf
  | .ninf => .pinf
  | .nan => .nan

/-- The sum of two floating values, rounded by `r`. -/
noncomputable def addWith (r : ℝ → FVal) : FVal → FVal → FVal
  | .fin a, .fin b => r (a + b)
  | .fin _, .pinf => .pinf
  | .pinf, .fin _ => .pinf
  | .pinf, .pinf => .pinf
  | .fin _, .ninf => .ninf
  | .ninf, .fin _ => .ninf
  | .ninf, .ninf => .ninf
  | _, _ => .nan

/-- The difference of two floating values, rounded by `r`. -/
noncomputable def subWith (r : ℝ → FVal) (a b : FVal) : FVal := addWith r a (FVal.neg b)

/-- The product of two floating values, rounded by `r`. -/
noncomputable def mulWith (r : ℝ → FVal) : FVal → FVal → FVal
  | .fin a, .fin b => r (a * b)
  | .fin a, .pinf => if 0 < a then .pinf else if a < 0 then .ninf else .nan
  | .fin a, .ninf => if 0 < a then .ninf else if a < 0 then .pinf else .nan
  | .pinf, .fin b => if 0 < b then .pinf else if b < 0 then .ninf else .nan
  | .ninf, .fin b => if 0 < b then .ninf else if b < 0 then .pinf else .nan
  | .pinf, .pinf => .pinf
  | .ninf, .ninf => .pinf
  | .pinf, .ninf => .ninf
  | .ninf, .pinf => .ninf
  | _, _ => .nan

/-- The quotient of two floating values, rounded by `r`. A zero divisor is
taken as +0: the divisors of this module are a square root, a positive
constant, and sums of products of non-negative values. -/
noncomputable def divWith (r : ℝ → FVal) : FVal → FVal → FVal
  | .fin a, .fin b =>
    if b = 0 then (if 0 < a then .pinf else if a < 0 then .ninf else .nan) else r (a / b)
  | .fin _, .pinf => .fin 0
  | .fin _, .ninf => .fin 0
  | .pinf, .fin b => if 0 ≤ b then .pinf else .ninf
  | .ninf, .fin b => if 0 ≤ b then .ninf else .pinf
  | _, _ => .nan

/-- The conversion of a `double` value to `float`. -/
noncomputable def toFloat (ops : FloatOps) : FVal → FVal
  | .fin r => ops.rnd r
  | v => v

/-- The library function `sqrtf` on all floating values. -/
noncomputable def sqrtF (ops : FloatOps) : FVal → FVal
  | .fin t => if t < 0 then .nan else .fin (ops.sqrtf t)
  | .pinf => .pinf
  | _ => .nan

/-- The library function `acosf` on all floating values. -/
noncomputable def acosF (ops : FloatOps) : FVal → FVal
  | .fin c => if -1 ≤ c ∧ c ≤ 1 then .fin (ops.acosf c) else .nan
  | _ => .nan

/-- Modelled from the spec: the macro `CL_CLAMP` on floating values, as the
conditional expression `v < lo ? lo : (v > hi ? hi : v)`. -/
noncomputable def CL_CLAMPF (v lo hi : FVal) : FVal :=
  if FVal.lt v lo then lo else if FVal.lt hi v then hi else v

/-- Modelled from the spec: the macro `FLOAT_NEAR` of `mathex.h` on floating
values: the absolute value of the difference is below `eps`. -/
noncomputable def FLOAT_NEARF (ops : FloatOps) (a b eps : FVal) : Prop :=
  FVal.lt (FVal.abs (subWith ops.rnd a b)) eps

noncomputable instance (ops : FloatOps) (a b eps : FVal) : Decidable (FLOAT_NEARF ops a b eps) :=
  Classical.propDecidable _

/-- An integer is in the range of `int`. -/
def inInt (k : Int) : Prop := -2 ^ 31 ≤ k ∧ k < 2 ^ 31

instance (k : Int) : Decidable (inInt k) := by
  unfold inInt; infer_instance

/-- The assignment `int i = floorf(a)`: undefined for a NaN, an infinity and
a value outside the range of `int`. -/
noncomputable def floorInt : FVal → Option Int
  | .fin r => if inInt ⌊r⌋ then some ⌊r⌋ else none
  | _ => none

/-- The assignment `int i = ceilf(a)`. -/
noncomputable def ceilInt : FVal → Option Int
  | .fin r => if inInt ⌈r⌉ then some ⌈r⌉ else none
  | _ => none

/-- The assignment `int i = roundf(a)`. -/
noncomputable def roundInt : FVal → Option Int
  | .fin r => if inInt (roundf r) then some (roundf r) else none
  | _ => none

/-- The assignment of a `float` to a `uint16_t`: the value truncated toward
zero, and undefined for a NaN, an infinity and a value whose truncation is
outside 0 .. 65535. -/
noncomputable def toU16 : FVal → Option Nat
  | .fin r => if -1 < r ∧ r < 65536 then some ⌊r⌋₊ else none
  | _ => none

/-- The product of two `int` values: undefined when it leaves the range of
`int`. -/
def mulInt (a b : Int) : Option Int := if inInt (a * b) then some (a * b) else none

/-- The read `caliMags[i % len]` of a 60-entry table; `i` is an `int`, `%` is
the C remainder, and a read outside the table is undefined. -/
def tableAt (caliMags : List Nat) (i : Int) : Option Nat :=
  if 0 ≤ Int.tmod i (MAG_LEN : Nat) then caliMags[(Int.tmod i (MAG_LEN : Nat)).toNat]? else none

/-- Modelled from the spec: the type `Vector2` of `mathex.h`, with its two
`float` components as floating values. -/
structure FVec where
  x : FVal
  y : FVal

/-- The vector `*stick` after the subtraction of the center of its side, in
`float`. -/
noncomputable def centeredF (ops : FloatOps) (stick : FVec) (left : Bool) (p : CaliParams) :
    FVec :=
  if left then
    ⟨subWith ops.rnd stick.x (ops.rnd (p.leftMidX : ℝ)),
      subWith ops.rnd stick.y (ops.rnd (p.leftMidY : ℝ))⟩
  else
    ⟨subWith ops.rnd stick.x (ops.rnd (p.rightMidX : ℝ)),
      subWith ops.rnd stick.y (ops.rnd (p.rightMidY : ℝ))⟩

/-- Modelled from the spec: `Vector2_SqrMagnitude` of `mathex.h` in `float`:
`x * x + y * y`. -/
noncomputable def Vector2_SqrMagnitudeF (ops : FloatOps) (v : FVec) : FVal :=
  addWith ops.rnd (mulWith ops.rnd v.x v.x) (mulWith ops.rnd v.y v.y)

/-- Modelled from the spec: `Vector2_Magnitude` of `mathex.h` in `float`: the
square root of the squared magnitude. -/
noncomputable def Vector2_MagnitudeF (ops : FloatOps) (v : FVec) : FVal :=
  sqrtF ops (Vector2_SqrMagnitudeF ops v)

/-- The value of `M_PI * 2`, a `double` product. -/
noncomputable def twoPi (ops : FloatOps) : FVal := mulWith ops.rndD (.fin ops.pi) (.fin 2)

/-- The function `GetRadian` in `float`; the subtraction from `M_PI * 2` is
a `double` operation whose result is stored in a `float`. -/
noncomputable def GetRadianF (ops : FloatOps) (v : FVec) : FVal :=
  let cos := divWith ops.rnd v.y (Vector2_MagnitudeF ops v)
  let cos := CL_CLAMPF cos (.fin (-1)) (.fin 1)
  let rad := acosF ops cos
  if FVal.lt v.x (.fin 0) then toFloat ops (subWith ops.rndD (twoPi ops) rad) else rad

/-- The value of `rad` after `rad /= (M_PI * 2 / len)`: two `double`
divisions, the result stored in a `float`. -/
noncomputable def sectorIndexF (ops : FloatOps) (v : FVec) : FVal :=
  toFloat ops (divWith ops.rndD (GetRadianF ops v) (divWith ops.rndD (twoPi ops) (.fin 60)))

/-- The function `StickMarginProc` in `float`, as a function of the
parameters; no result where the C code has undefined behaviour. -/
noncomputable def StickMarginProcF (ops : FloatOps) (stick : FVec) (left : Bool)
    (p : CaliParams) : Option CaliParams :=
  let v := centeredF ops stick left p
  let mags := selectMag left p
  let sqrMag := Vector2_SqrMagnitudeF ops v
  if FVal.lt (.fin 90000) sqrMag then
    let rad := sectorIndexF ops v
    (roundInt rad).bind fun pos =>
      if FLOAT_NEARF ops rad (ops.rnd (pos : ℝ)) (ops.rnd (1 / 10)) then
        (tableAt mags pos).bind fun m =>
          (mulInt (m : Int) (m : Int)).bind fun mm =>
            if FVal.lt (ops.rnd (mm : ℝ)) sqrMag then
              (toU16 (sqrtF ops sqrMag)).bind fun val =>
                some (storeMag left p (Int.tmod pos (MAG_LEN : Nat)).toNat val)
            else some p
      else some p
  else some p

/-- The value of `mag` in `StickCorrect`, in `float`, as a function of the
fractional sector index `rad`. -/
noncomputable def interpMagF (ops : FloatOps) (caliMags : List Nat) (rad : FVal) :
    Option FVal :=
  match floorInt rad, ceilInt rad with
  | some before, some next =>
    if before = next then
      match tableAt caliMags before with
      | some m => some (ops.rnd (m : ℝ))
      | none => none
    else
      match tableAt caliMags next, tableAt caliMags before with
      | some mn, some mb =>
        some (addWith ops.rnd
          (mulWith ops.rnd (subWith ops.rnd rad (ops.rnd (before : ℝ))) (ops.rnd (mn : ℝ)))
          (mulWith ops.rnd (subWith ops.rnd (ops.rnd (next : ℝ)) rad) (ops.rnd (mb : ℝ))))
      | _, _ => none
  | _, _ => none

/-- The vector `*stick` after the two divisions by `mag` in `StickCorrect`,
in `float`. -/
noncomputable def normalizedF (ops : FloatOps) (stick : FVec) (left : Bool) (p : CaliParams) :
    Option FVec :=
  let v := centeredF ops stick left p
  match interpMagF ops (selectMag left p) (sectorIndexF ops v) with
  | some mag => some ⟨divWith ops.rnd v.x mag, divWith ops.rnd v.y mag⟩
  | none => none

/-- The value of `stick->x * stick->x + stick->y * stick->y` in `float`. -/
noncomputable def normSqrF (ops : FloatOps) (n : FVec) : FVal :=
  addWith ops.rnd (mulWith ops.rnd n.x n.x) (mulWith ops.rnd n.y n.y)

/-- The scaling and the clamp of one axis: `CL_CLAMP(a * 33000.0f,
-32767.0f, 32767.0f)`. -/
noncomputable def scaleClamp (ops : FloatOps) (a : FVal) : FVal :=
  CL_CLAMPF (mulWith ops.rnd a (.fin 33000)) (.fin (-32767)) (.fin 32767)

/-- The function `StickCorrect` in `float`: the value it leaves in `*stick`,
none where the C code has undefined behaviour, and the state of the module,
which it does not write. -/
noncomputable def StickCorrectF (ops : FloatOps) (stick : FVec) (left : Bool) (s : State) :
    Option FVec × State :=
  match normalizedF ops stick left s.caliParams with
  | none => (none, s)
  | some n =>
    if FVal.lt (normSqrF ops n) (ops.rnd (7 / 1000)) then (some ⟨.fin 0, .fin 0⟩, s)
    else (some ⟨scaleClamp ops n.x, scaleClamp ops n.y⟩, s)

/-- The arithmetic without rounding errors: every exact result is
representable, `acosf` and `sqrtf` are the mathematical functions. -/
noncomputable def idealOps : FloatOps where
  rnd := FVal.fin
  rndD := FVal.fin
  acosf := Real.arccos
  sqrtf := Real.sqrt
  pi := Real.pi
  rnd_mono := fun _ _ h => h
  rnd_int := fun _ _ => rfl
  rnd_pow := fun _ _ => rfl
  rnd_two_pow := fun _ _ => rfl
  rndD_mono := fun _ _ h => h
  rndD_int := fun _ _ => rfl
  rndD_pow := fun _ _ => rfl
  acosf_range := fun c => ⟨Real.arccos_nonneg c, le_trans (Real.arccos_le_pi c) Real.pi_le_four⟩
  sqrtf_zero := Real.sqrt_zero
  sqrtf_mono := fun _ _ _ h => Real.sqrt_le_sqrt h
  sqrtf_pow := fun n _ => by
    have h : (4 : ℝ) ^ n = ((2 : ℝ) ^ n) ^ 2 := by
      rw [← pow_mul, mul_comm, pow_mul]
      norm_num
    rw [h, Real.sqrt_sq (by positivity)]
  pi_range := ⟨Real.pi_gt_three, Real.pi_lt_d2.trans (by norm_num)⟩

/-- A raw stick sample with the components `x` and `y`. -/
noncomputable def rawStick (x y : ℝ) : FVec := ⟨.fin x, .fin y⟩

/-! ## The sector update rule on the values the code computes -/

/-- The center-relative squared magnitude of a raw stick sample, as
`StickMarginProc` computes it. -/
noncomputable def marginSqrF (ops : FloatOps) (stick : FVec) (left : Bool) (p : CaliParams) :
    FVal :=
  Vector2_SqrMagnitudeF ops (centeredF ops stick left p)

/-- The fractional sector index of a raw stick sample, as `StickMarginProc`
computes it. -/
noncomputable def marginIndexF (ops : FloatOps) (stick : FVec) (left : Bool) (p : CaliParams) :
    FVal :=
  sectorIndexF ops (centeredF ops stick left p)

/-- The conditions of the update rule on the values the code computes, with
the nearest integer `pos` of the fractional sector index and the value `val`
that is stored: the squared magnitude exceeds 90000, the fractional sector
index differs from `pos` by less than `0.1f`, the squared magnitude exceeds the
square of the entry of sector `pos % 60`, and `val` is `sqrtf` of the squared
magnitude truncated to a `uint16_t`. -/
def marginWriteF (ops : FloatOps) (stick : FVec) (left : Bool) (p : CaliParams) (pos : Int)
    (val : Nat) : Prop :=
  FVal.lt (.fin 90000) (marginSqrF ops stick left p) ∧
  roundInt (marginIndexF ops stick left p) = some pos ∧
  FLOAT_NEARF ops (marginIndexF ops stick left p) (ops.rnd (pos : ℝ)) (ops.rnd (1 / 10)) ∧
  ∃ m : Nat, tableAt (selectMag left p) pos = some m ∧ m ≤ 46340 ∧
    FVal.lt (ops.rnd (((m : Int) * (m : Int) : Int) : ℝ)) (marginSqrF ops stick left p) ∧
    toU16 (sqrtF ops (marginSqrF ops stick left p)) = some val

/-! ## The persisted layout round-trips -/

theorem takeU16_u16Bytes (v : Nat) (rest : List Nat) (h : v < 65536) :
    takeU16 (u16Bytes v ++ rest) = (v, rest) := by
  simp only [u16Bytes, List.cons_append, List.nil_append, takeU16, Prod.mk.injEq, and_true]
  omega

theorem takeU16s_flatMap (l : List Nat) (rest : List Nat) (h : ∀ v ∈ l, v < 65536) :
    takeU16s l.length (l.flatMap u16Bytes ++ rest) = (l, rest) := by
  induction l with
  | nil => simp [takeU16s]
  | cons a t ih =>
    have ha : a < 65536 := h a (List.mem_cons_self _ _)
    have ht : ∀ v ∈ t, v < 65536 := fun v hv => h v (List.mem_cons_of_mem _ hv)
    simp only [List.length_cons, List.flatMap_cons, List.append_assoc, takeU16s,
      takeU16_u16Bytes a _ ha, ih ht]

theorem takeU16s_length (n : Nat) (bs : List Nat) : (takeU16s n bs).1.length = n := by
  induction n generalizing bs with
  | zero => simp [takeU16s]
  | succ k ih => simp [takeU16s, ih]

theorem takeU32_u32Bytes (c : Nat) (h : c < 2 ^ 32) : takeU32 (u32Bytes c) = c := by
  simp only [takeU32, u32Bytes, takeU16]
  omega

theorem ofBytes_toBytes (p : CaliParams) (h : ParamsWF p) : ofBytes (toBytes p) = p := by
  obtain ⟨h1, h2, h3, h4, h5, h6, h7, h8, h9, h10, h11, h12, h13⟩ := h
  have e5 := takeU16s_flatMap p.leftMag
  have e7 := takeU16s_flatMap p.rightMag
  rw [h5] at e5
  rw [h7] at e7
  simp only [ofBytes, toBytes, fieldBytes, List.append_assoc, takeU16_u16Bytes _ _ h1,
    takeU16_u16Bytes _ _ h2, takeU16_u16Bytes _ _ h3, takeU16_u16Bytes _ _ h4,
    e5 _ h6, e7 _ h8, takeU16_u16Bytes _ _ h9, takeU16_u16Bytes _ _ h10,
    takeU16_u16Bytes _ _ h11, takeU16_u16Bytes _ _ h12, takeU32_u32Bytes _ h13]

theorem ofBytes_leftMag_length (bs : List Nat) : (ofBytes bs).leftMag.length = MAG_LEN := by
  simp only [ofBytes, takeU16s_length]

theorem ofBytes_rightMag_length (bs : List Nat) : (ofBytes bs).rightMag.length = MAG_LEN := by
  simp only [ofBytes, takeU16s_length]

/-! ## Filling an array -/

theorem foldl_set_range (v : Nat) (k : Nat) (mag : List Nat) (h : k ≤ mag.length) :
    (List.range k).foldl (fun m i => m.set i v) mag = List.replicate k v ++ mag.drop k := by
  induction k with
  | zero => simp
  | succ n ih =>
    have hn : n < mag.length := by omega
    rw [List.range_succ, List.foldl_append, ih (by omega)]
    simp only [List.foldl_cons, List.foldl_nil]
    apply List.ext_getElem
    · simp; omega
    · intro i h1 h2
      simp only [List.getElem_set, List.getElem_append, List.length_replicate,
        List.getElem_replicate, List.getElem_drop]
      by_cases hi : n = i
      · subst hi; simp
      · simp only [hi, if_false]
        by_cases h3 : i < n
        · simp [h3, show i < n + 1 by omega]
        · simp only [h3, dite_false, show ¬ i < n + 1 by omega]
          congr 1; omega

theorem fillMag_eq (v : Nat) (mag : List Nat) (h : mag.length = MAG_LEN) :
    fillMag v mag = List.replicate MAG_LEN v := by
  unfold fillMag
  have h60 : mag.length = 60 := h
  rw [foldl_set_range v MAG_LEN mag (by rw [h])]
  simp [List.drop_of_length_le (by rw [h] : mag.length ≤ MAG_LEN)]

/-! ## Save and load -/

theorem save_wf (crc32 : List Nat → Nat) (s : State) (h : ParamsWF s.caliParams) :
    ParamsWF (SaveCalibration crc32 s).caliParams := by
  obtain ⟨h1, h2, h3, h4, h5, h6, h7, h8, h9, h10, h11, h12, _⟩ := h
  exact ⟨h1, h2, h3, h4, h5, h6, h7, h8, h9, h10, h11, h12, Nat.mod_lt _ (by norm_num)⟩

theorem save_fieldBytes (crc32 : List Nat → Nat) (s : State) :
    fieldBytes (SaveCalibration crc32 s).caliParams = fieldBytes s.caliParams := rfl

theorem load_eq (crc32 : List Nat → Nat) (s : State) :
    LoadCalibration crc32 s =
      if crc32 (fieldBytes (ofBytes s.flash)) % 2 ^ 32 ≠ (ofBytes s.flash).crc then
        ResetParams { s with caliParams := ofBytes s.flash }
      else { s with caliParams := ofBytes s.flash } := by
  unfold LoadCalibration
  dsimp only

theorem ResetParams_leftMag (s : State) :
    (ResetParams s).caliParams.leftMag = fillMag 2048 s.caliParams.leftMag := by
  unfold ResetParams
  dsimp only

theorem ResetParams_rightMag (s : State) :
    (ResetParams s).caliParams.rightMag = fillMag 2048 s.caliParams.rightMag := by
  unfold ResetParams
  dsimp only

theorem save_decodes (crc32 : List Nat → Nat) (s : State) (h : ParamsWF s.caliParams) :
    ofBytes (SaveCalibration crc32 s).flash =
      { s.caliParams with crc := crc32 (fieldBytes s.caliParams) % 2 ^ 32 } := by
  have hflash : (SaveCalibration crc32 s).flash = toBytes (SaveCalibration crc32 s).caliParams :=
    rfl
  rw [hflash, ofBytes_toBytes _ (save_wf crc32 s h)]
  rfl

/-- C1: for every in-memory parameter set, `SaveCalibration` sets `crc` to the
checksum of the bytes before the `crc` field and writes the record;
`LoadCalibration` on the result reads the record back, finds the stored and
the recomputed checksum equal, does not reset, and leaves every field of the
parameters (and the rest of the state) as it was right after the save. -/
theorem C1_save_then_load_identity (crc32 : List Nat → Nat) (s : State)
    (h : ParamsWF s.caliParams) :
    (SaveCalibration crc32 s).caliParams.crc = crc32 (fieldBytes s.caliParams) % 2 ^ 32 ∧
    (SaveCalibration crc32 s).flash = toBytes (SaveCalibration crc32 s).caliParams ∧
    ofBytes (SaveCalibration crc32 s).flash = (SaveCalibration crc32 s).caliParams ∧
    crc32 (fieldBytes (ofBytes (SaveCalibration crc32 s).flash)) % 2 ^ 32 =
      (ofBytes (SaveCalibration crc32 s).flash).crc ∧
    LoadCalibration crc32 (SaveCalibration crc32 s) = SaveCalibration crc32 s := by
  have hwf := save_wf crc32 s h
  have hflash : (SaveCalibration crc32 s).flash = toBytes (SaveCalibration crc32 s).caliParams :=
    rfl
  have hof : ofBytes (SaveCalibration crc32 s).flash = (SaveCalibration crc32 s).caliParams := by
    rw [hflash]; exact ofBytes_toBytes _ hwf
  have hcrc : crc32 (fieldBytes (ofBytes (SaveCalibration crc32 s).flash)) % 2 ^ 32 =
      (ofBytes (SaveCalibration crc32 s).flash).crc := by
    rw [hof, save_fieldBytes]; rfl
  refine ⟨rfl, hflash, hof, hcrc, ?_⟩
  rw [load_eq, if_neg (not_not_intro hcrc), hof]

/-- C1 at a concrete input: the default parameters survive a save followed by
a load. -/
theorem C1_save_then_load_identity_witness :
    ParamsWF (sampleState .CaliSta_Margin []).caliParams ∧
    LoadCalibration sumCrc (SaveCalibration sumCrc (sampleState .CaliSta_Margin [])) =
      SaveCalibration sumCrc (sampleState .CaliSta_Margin []) :=
  ⟨by decide, (C1_save_then_load_identity sumCrc (sampleState .CaliSta_Margin [])
    (by decide)).2.2.2.2⟩

/-- C2: for every stored record whose `crc` field differs from the checksum
recomputed over the fields before it, `LoadCalibration` leaves the in-memory
parameters at the defaults: the four centers are 2048, the 60 left and the 60
right radius entries are 2048, both trigger ranges are [0, 4096]. -/
theorem C2_load_corrupt_gives_defaults (crc32 : List Nat → Nat) (s : State)
    (h : crc32 (fieldBytes (ofBytes s.flash)) % 2 ^ 32 ≠ (ofBytes s.flash).crc) :
    (LoadCalibration crc32 s).caliParams.leftMidX = 2048 ∧
    (LoadCalibration crc32 s).caliParams.leftMidY = 2048 ∧
    (LoadCalibration crc32 s).caliParams.rightMidX = 2048 ∧
    (LoadCalibration crc32 s).caliParams.rightMidY = 2048 ∧
    (LoadCalibration crc32 s).caliParams.leftMag = List.replicate 60 2048 ∧
    (LoadCalibration crc32 s).caliParams.rightMag = List.replicate 60 2048 ∧
    (LoadCalibration crc32 s).caliParams.leftTrigger = (0, 4096) ∧
    (LoadCalibration crc32 s).caliParams.rightTrigger = (0, 4096) := by
  rw [load_eq, if_pos h]
  refine ⟨rfl, rfl, rfl, rfl, ?_, ?_, rfl, rfl⟩
  · rw [ResetParams_leftMag]
    exact fillMag_eq 2048 (ofBytes s.flash).leftMag (ofBytes_leftMag_length s.flash)
  · rw [ResetParams_rightMag]
    exact fillMag_eq 2048 (ofBytes s.flash).rightMag (ofBytes_rightMag_length s.flash)

/-- C2 at a concrete input: a saved record with one byte overwritten is
replaced by the defaults. -/
theorem C2_load_corrupt_gives_defaults_witness :
    sumCrc (fieldBytes (ofBytes corruptState.flash)) % 2 ^ 32 ≠ (ofBytes corruptState.flash).crc ∧
    (LoadCalibration sumCrc corruptState).caliParams.leftMidX = 2048 :=
  ⟨by decide, (C2_load_corrupt_gives_defaults sumCrc corruptState (by decide)).1⟩

/-! ## The loop of `MiddleProc` computes the window statistics -/

theorem foldl_minMaxStep (q : List MidVal) (acc : MidVal × MidVal) :
    q.foldl minMaxStep acc =
      (⟨(q.map MidVal.leftX).foldl min acc.1.leftX, (q.map MidVal.leftY).foldl min acc.1.leftY,
        (q.map MidVal.rightX).foldl min acc.1.rightX, (q.map MidVal.rightY).foldl min acc.1.rightY,
        (q.map MidVal.leftHall).foldl min acc.1.leftHall,
        (q.map MidVal.rightHall).foldl min acc.1.rightHall⟩,
       ⟨(q.map MidVal.leftX).foldl max acc.2.leftX, (q.map MidVal.leftY).foldl max acc.2.leftY,
        (q.map MidVal.rightX).foldl max acc.2.rightX, (q.map MidVal.rightY).foldl max acc.2.rightY,
        (q.map MidVal.leftHall).foldl max acc.2.leftHall,
        (q.map MidVal.rightHall).foldl max acc.2.rightHall⟩) := by
  induction q generalizing acc with
  | nil => rfl
  | cons d t ih => rw [List.foldl_cons, ih]; rfl

theorem foldl_min_init (f : MidVal → Nat) (q : List MidVal) (hne : q ≠ [])
    (hb : ∀ m ∈ q, f m < 65536) : (q.map f).foldl min 65535 = chanMin f q := by
  cases q with
  | nil => exact absurd rfl hne
  | cons d t =>
    have hd : f d < 65536 := hb d (List.mem_cons_self _ _)
    have : min 65535 (f d) = f d := by omega
    simp only [chanMin, List.map_cons, List.foldl_cons, this, List.min?_cons', Option.getD_some]

theorem foldl_max_init (f : MidVal → Nat) (q : List MidVal) (hne : q ≠ []) :
    (q.map f).foldl max 0 = chanMax f q := by
  cases q with
  | nil => exact absurd rfl hne
  | cons d t =>
    have : max 0 (f d) = f d := by omega
    simp only [chanMax, List.map_cons, List.foldl_cons, this, List.max?_cons', Option.getD_some]

theorem chanMin_le_chanMax (f : MidVal → Nat) (q : List MidVal) : chanMin f q ≤ chanMax f q := by
  cases q with
  | nil => simp [chanMin, chanMax]
  | cons d t =>
    obtain ⟨a, ha⟩ : ∃ a, ((d :: t).map f).min? = some a := by
      simp [List.min?_cons']
    obtain ⟨b, hb⟩ : ∃ b, ((d :: t).map f).max? = some b := by
      simp [List.max?_cons']
    have h1 := List.min?_eq_some_iff'.mp ha
    have h2 := List.max?_eq_some_iff'.mp hb
    simp only [chanMin, chanMax, ha, hb, Option.getD_some]
    exact h2.2 a h1.1

theorem chanMax_lt (f : MidVal → Nat) (q : List MidVal) (hb : ∀ m ∈ q, f m < 65536) :
    chanMax f q < 65536 := by
  cases q with
  | nil => simp [chanMax]
  | cons d t =>
    obtain ⟨b, hb2⟩ : ∃ b, ((d :: t).map f).max? = some b := by
      simp [List.max?_cons']
    have h2 := (List.max?_eq_some_iff'.mp hb2).1
    simp only [chanMax, hb2, Option.getD_some]
    obtain ⟨m, hm, rfl⟩ := List.mem_map.mp h2
    exact hb m hm

theorem subU16_eq (a b : Nat) (hab : b ≤ a) (ha : a < 65536) : subU16 a b = a - b := by
  unfold subU16; omega

theorem windowMinMax_eq (q : List MidVal) (hne : q ≠ []) (hq : QueueWF q) :
    windowMinMax q =
      (⟨chanMin MidVal.leftX q, chanMin MidVal.leftY q, chanMin MidVal.rightX q,
        chanMin MidVal.rightY q, chanMin MidVal.leftHall q, chanMin MidVal.rightHall q⟩,
       ⟨chanMax MidVal.leftX q, chanMax MidVal.leftY q, chanMax MidVal.rightX q,
        chanMax MidVal.rightY q, chanMax MidVal.leftHall q, chanMax MidVal.rightHall q⟩) := by
  unfold windowMinMax
  rw [foldl_minMaxStep]
  simp only [foldl_max_init _ q hne,
    foldl_min_init MidVal.leftX q hne (fun m hm => (hq.2 m hm).1),
    foldl_min_init MidVal.leftY q hne (fun m hm => (hq.2 m hm).2.1),
    foldl_min_init MidVal.rightX q hne (fun m hm => (hq.2 m hm).2.2.1),
    foldl_min_init MidVal.rightY q hne (fun m hm => (hq.2 m hm).2.2.2.1),
    foldl_min_init MidVal.leftHall q hne (fun m hm => (hq.2 m hm).2.2.2.2.1),
    foldl_min_init MidVal.rightHall q hne (fun m hm => (hq.2 m hm).2.2.2.2.2)]

theorem subU16_chan (f : MidVal → Nat) (q : List MidVal) (hb : ∀ m ∈ q, f m < 65536) :
    subU16 (chanMax f q) (chanMin f q) = spread f q :=
  subU16_eq _ _ (chanMin_le_chanMax f q) (chanMax_lt f q hb)

theorem settled_iff (q : List MidVal) (hne : q ≠ []) (hq : QueueWF q) :
    settled (windowDiff (windowMinMax q)) = true ↔ allSpreadsBelow q := by
  rw [windowMinMax_eq q hne hq]
  simp only [settled, windowDiff, MID_MAX_DIFF, Bool.and_eq_true, decide_eq_true_eq,
    subU16_chan MidVal.leftX q (fun m hm => (hq.2 m hm).1),
    subU16_chan MidVal.leftY q (fun m hm => (hq.2 m hm).2.1),
    subU16_chan MidVal.rightX q (fun m hm => (hq.2 m hm).2.2.1),
    subU16_chan MidVal.rightY q (fun m hm => (hq.2 m hm).2.2.2.1),
    subU16_chan MidVal.leftHall q (fun m hm => (hq.2 m hm).2.2.2.2.1),
    subU16_chan MidVal.rightHall q (fun m hm => (hq.2 m hm).2.2.2.2.2),
    allSpreadsBelow, and_assoc]

theorem captureSample_wf (inp : PollInput) :
    (captureSample inp).leftX < 65536 ∧ (captureSample inp).leftY < 65536 ∧
    (captureSample inp).rightX < 65536 ∧ (captureSample inp).rightY < 65536 ∧
    (captureSample inp).leftHall < 65536 ∧ (captureSample inp).rightHall < 65536 := by
  simp only [captureSample]
  refine ⟨?_, ?_, ?_, ?_, ?_, ?_⟩ <;> exact Nat.mod_lt _ (by norm_num)

theorem captureQueue_wf (q : List MidVal) (inp : PollInput) (hq : QueueWF q) :
    QueueWF (captureQueue q (captureSample inp)) := by
  unfold QueueWF at *
  obtain ⟨hlen, hall⟩ := hq
  unfold captureQueue CL_QueueAdd CL_QueuePoll CL_QueueFull
  unfold QUEUE_CAP at *
  by_cases h20 : 20 ≤ q.length
  · have hd : ¬ 20 ≤ (List.drop 1 q).length := by rw [List.length_drop]; omega
    simp only [h20, decide_True, if_true, hd, decide_False, Bool.false_eq_true, if_false]
    refine ⟨by rw [List.length_append, List.length_drop, List.length_singleton]; omega, ?_⟩
    intro m hm
    rcases List.mem_append.mp hm with h | h
    · exact hall m (List.mem_of_mem_drop h)
    · rw [List.mem_singleton] at h; subst h; exact captureSample_wf inp
  · simp only [h20, decide_False, Bool.false_eq_true, if_false]
    refine ⟨by rw [List.length_append, List.length_singleton]; omega, ?_⟩
    intro m hm
    rcases List.mem_append.mp hm with h | h
    · exact hall m h
    · rw [List.mem_singleton] at h; subst h; exact captureSample_wf inp

theorem captureQueue_ne_nil (q : List MidVal) (v : MidVal) (hq : QueueWF q) :
    captureQueue q v ≠ [] := by
  unfold QueueWF at hq
  obtain ⟨hlen, _⟩ := hq
  unfold captureQueue CL_QueueAdd CL_QueuePoll CL_QueueFull
  unfold QUEUE_CAP at *
  by_cases h20 : 20 ≤ q.length
  · have hd : ¬ 20 ≤ (List.drop 1 q).length := by rw [List.length_drop]; omega
    simp only [h20, decide_True, if_true, hd, decide_False, Bool.false_eq_true, if_false]
    simp
  · simp only [h20, decide_False, Bool.false_eq_true, if_false]
    simp

/-! ## Center detection -/

theorem mid_mod (f : MidVal → Nat) (q : List MidVal) (hb : ∀ m ∈ q, f m < 65536) :
    (chanMin f q + chanMax f q) / 2 % 65536 = (chanMin f q + chanMax f q) / 2 := by
  have h1 := chanMin_le_chanMax f q
  have h2 := chanMax_lt f q hb
  omega

theorem MiddleProc_settled (inp : PollInput) (s : State) (hq : QueueWF s.middleQueue)
    (hgate : 100 ≤ SysTimeSpan inp.now s.lastTime)
    (hfull : (windowAfter inp s).length = 20)
    (hsp : allSpreadsBelow (windowAfter inp s)) :
    MiddleProc inp s =
      ToCaliMargin { s with
        lastTime := inp.now % 2 ^ 32,
        middleQueue := windowAfter inp s,
        caliParams := settledParams s.caliParams (windowAfter inp s) } := by
  have hwf := captureQueue_wf s.middleQueue inp hq
  have hne := captureQueue_ne_nil s.middleQueue (captureSample inp) hq
  have hfullB : CL_QueueFull (captureQueue s.middleQueue (captureSample inp)) = true := by
    unfold windowAfter at hfull
    simp [CL_QueueFull, QUEUE_CAP, hfull]
  have hset := (settled_iff _ hne hwf).mpr hsp
  unfold MiddleProc
  rw [if_pos hgate]
  dsimp only
  rw [if_pos hfullB, if_pos hset, windowMinMax_eq _ hne hwf]
  dsimp only
  rw [mid_mod MidVal.leftX _ (fun m hm => (hwf.2 m hm).1),
    mid_mod MidVal.leftY _ (fun m hm => (hwf.2 m hm).2.1),
    mid_mod MidVal.rightX _ (fun m hm => (hwf.2 m hm).2.2.1),
    mid_mod MidVal.rightY _ (fun m hm => (hwf.2 m hm).2.2.2.1),
    mid_mod MidVal.leftHall _ (fun m hm => (hwf.2 m hm).2.2.2.2.1),
    mid_mod MidVal.rightHall _ (fun m hm => (hwf.2 m hm).2.2.2.2.2)]
  rfl

theorem MiddleProc_not_settled (inp : PollInput) (s : State) (hq : QueueWF s.middleQueue)
    (h : SysTimeSpan inp.now s.lastTime < 100 ∨ (windowAfter inp s).length < 20 ∨
      ¬ allSpreadsBelow (windowAfter inp s)) :
    (MiddleProc inp s).caliStatus = s.caliStatus ∧
    (MiddleProc inp s).caliParams = s.caliParams := by
  have hwf := captureQueue_wf s.middleQueue inp hq
  have hne := captureQueue_ne_nil s.middleQueue (captureSample inp) hq
  unfold MiddleProc
  by_cases hgate : 100 ≤ SysTimeSpan inp.now s.lastTime
  · rw [if_pos hgate]
    dsimp only
    by_cases hfullB : CL_QueueFull (captureQueue s.middleQueue (captureSample inp)) = true
    · rw [if_pos hfullB]
      have hnset : ¬ settled (windowDiff (windowMinMax
          (captureQueue s.middleQueue (captureSample inp)))) = true := by
        rw [settled_iff _ hne hwf]
        rcases h with h | h | h
        · omega
        · exfalso
          unfold windowAfter at h
          simp only [CL_QueueFull, QUEUE_CAP, decide_eq_true_eq] at hfullB
          omega
        · exact h
      rw [if_neg hnset]
      exact ⟨rfl, rfl⟩
    · rw [if_neg hfullB]
      exact ⟨rfl, rfl⟩
  · rw [if_neg hgate]
    exact ⟨rfl, rfl⟩

theorem ToCaliMargin_leftMag (s : State) :
    (ToCaliMargin s).caliParams.leftMag = fillMag 0 s.caliParams.leftMag := by
  unfold ToCaliMargin
  dsimp only [SetPadLedStyle]

theorem ToCaliMargin_rightMag (s : State) :
    (ToCaliMargin s).caliParams.rightMag = fillMag 0 s.caliParams.rightMag := by
  unfold ToCaliMargin
  dsimp only [SetPadLedStyle]

/-- C3: for every capture of `MiddleProc` after which the window holds 20
samples whose spread is below 50 on each of the six channels, the status
becomes `CaliSta_Margin` and each of the four centers is (min + max) / 2 of
its channel over the 20 samples. -/
theorem C3_center_detection (inp : PollInput) (s : State) (hq : QueueWF s.middleQueue)
    (hgate : 100 ≤ SysTimeSpan inp.now s.lastTime)
    (hfull : (windowAfter inp s).length = 20)
    (hsp : allSpreadsBelow (windowAfter inp s)) :
    (MiddleProc inp s).caliStatus = .CaliSta_Margin ∧
    (MiddleProc inp s).caliParams.leftMidX =
      (chanMin MidVal.leftX (windowAfter inp s) + chanMax MidVal.leftX (windowAfter inp s)) / 2 ∧
    (MiddleProc inp s).caliParams.leftMidY =
      (chanMin MidVal.leftY (windowAfter inp s) + chanMax MidVal.leftY (windowAfter inp s)) / 2 ∧
    (MiddleProc inp s).caliParams.rightMidX =
      (chanMin MidVal.rightX (windowAfter inp s) + chanMax MidVal.rightX (windowAfter inp s)) / 2 ∧
    (MiddleProc inp s).caliParams.rightMidY =
      (chanMin MidVal.rightY (windowAfter inp s) + chanMax MidVal.rightY (windowAfter inp s)) / 2 := by
  rw [MiddleProc_settled inp s hq hgate hfull hsp]
  exact ⟨rfl, rfl, rfl, rfl, rfl⟩

/-- C3 at a concrete input: a left X channel oscillating between 2000 and
2040 gives the center 2020. -/
theorem C3_center_detection_witness :
    QueueWF (sampleState .CaliSta_Middle steadyWindow).middleQueue ∧
    100 ≤ SysTimeSpan (steadyInput 2040).now (sampleState .CaliSta_Middle steadyWindow).lastTime ∧
    (windowAfter (steadyInput 2040) (sampleState .CaliSta_Middle steadyWindow)).length = 20 ∧
    allSpreadsBelow (windowAfter (steadyInput 2040) (sampleState .CaliSta_Middle steadyWindow)) ∧
    (MiddleProc (steadyInput 2040) (sampleState .CaliSta_Middle steadyWindow)).caliStatus =
      .CaliSta_Margin ∧
    (MiddleProc (steadyInput 2040) (sampleState .CaliSta_Middle steadyWindow)).caliParams.leftMidX =
      2020 :=
  ⟨by decide, by decide, by decide, by decide,
    (C3_center_detection (steadyInput 2040) (sampleState .CaliSta_Middle steadyWindow)
      (by decide) (by decide) (by decide) (by decide)).1,
    (C3_center_detection (steadyInput 2040) (sampleState .CaliSta_Middle steadyWindow)
      (by decide) (by decide) (by decide) (by decide)).2.1.trans (by decide)⟩

/-- C4: whenever `MiddleProc` settles (full window, all six spreads below 50),
the state it leaves has all 60 left and all 60 right radius entries at 0,
`leftTrigger[1]` and `rightTrigger[1]` at 0, and `leftTrigger[0]`,
`rightTrigger[0]` at (min + max) / 2 of the left and right hall channels over
the 20 samples of the window. -/
theorem C4_settling_effects (inp : PollInput) (s : State) (hp : ParamsWF s.caliParams)
    (hq : QueueWF s.middleQueue)
    (hgate : 100 ≤ SysTimeSpan inp.now s.lastTime)
    (hfull : (windowAfter inp s).length = 20)
    (hsp : allSpreadsBelow (windowAfter inp s)) :
    (MiddleProc inp s).caliStatus = .CaliSta_Margin ∧
    (MiddleProc inp s).caliParams.leftMag = List.replicate 60 0 ∧
    (MiddleProc inp s).caliParams.rightMag = List.replicate 60 0 ∧
    (MiddleProc inp s).caliParams.leftTrigger =
      ((chanMin MidVal.leftHall (windowAfter inp s) +
        chanMax MidVal.leftHall (windowAfter inp s)) / 2, 0) ∧
    (MiddleProc inp s).caliParams.rightTrigger =
      ((chanMin MidVal.rightHall (windowAfter inp s) +
        chanMax MidVal.rightHall (windowAfter inp s)) / 2, 0) := by
  rw [MiddleProc_settled inp s hq hgate hfull hsp]
  refine ⟨rfl, ?_, ?_, rfl, rfl⟩
  · rw [ToCaliMargin_leftMag]
    dsimp only [settledParams]
    rw [fillMag_eq 0 s.caliParams.leftMag hp.2.2.2.2.1, MAG_LEN]
  · rw [ToCaliMargin_rightMag]
    dsimp only [settledParams]
    rw [fillMag_eq 0 s.caliParams.rightMag hp.2.2.2.2.2.2.1, MAG_LEN]

/-- C4 at a concrete input: the trigger ranges after settling on hall
readings 10..11 and 12..13. -/
theorem C4_settling_effects_witness :
    ParamsWF (sampleState .CaliSta_Middle steadyWindow).caliParams ∧
    QueueWF (sampleState .CaliSta_Middle steadyWindow).middleQueue ∧
    100 ≤ SysTimeSpan (steadyInput 2040).now (sampleState .CaliSta_Middle steadyWindow).lastTime ∧
    (windowAfter (steadyInput 2040) (sampleState .CaliSta_Middle steadyWindow)).length = 20 ∧
    allSpreadsBelow (windowAfter (steadyInput 2040) (sampleState .CaliSta_Middle steadyWindow)) ∧
    (MiddleProc (steadyInput 2040) (sampleState .CaliSta_Middle steadyWindow)).caliParams.leftMag =
      List.replicate 60 0 ∧
    (MiddleProc (steadyInput 2040)
      (sampleState .CaliSta_Middle steadyWindow)).caliParams.leftTrigger = (10, 0) :=
  ⟨by decide, by decide, by decide, by decide, by decide,
    (C4_settling_effects (steadyInput 2040) (sampleState .CaliSta_Middle steadyWindow)
      (by decide) (by decide) (by decide) (by decide) (by decide)).2.1,
    (C4_settling_effects (steadyInput 2040) (sampleState .CaliSta_Middle steadyWindow)
      (by decide) (by decide) (by decide) (by decide) (by decide)).2.2.2.1.trans (by decide)⟩

/-- C5: for every poll in status `CaliSta_Middle` in which no capture happens,
or after the capture the window holds fewer than 20 samples, or at least one of
the six channels has a spread of 50 or more, the status stays `CaliSta_Middle`
and the calibration parameters are unchanged. -/
theorem C5_no_settling_no_change (inp : PollInput) (s : State)
    (hst : s.caliStatus = .CaliSta_Middle) (hq : QueueWF s.middleQueue)
    (h : SysTimeSpan inp.now s.lastTime < 100 ∨ (windowAfter inp s).length < 20 ∨
      50 ≤ spread MidVal.leftX (windowAfter inp s) ∨
      50 ≤ spread MidVal.leftY (windowAfter inp s) ∨
      50 ≤ spread MidVal.rightX (windowAfter inp s) ∨
      50 ≤ spread MidVal.rightY (windowAfter inp s) ∨
      50 ≤ spread MidVal.leftHall (windowAfter inp s) ∨
      50 ≤ spread MidVal.rightHall (windowAfter inp s)) :
    (Cali_Process inp s).caliStatus = .CaliSta_Middle ∧
    (Cali_Process inp s).caliParams = s.caliParams := by
  have h2 : SysTimeSpan inp.now s.lastTime < 100 ∨ (windowAfter inp s).length < 20 ∨
      ¬ allSpreadsBelow (windowAfter inp s) := by
    rcases h with h | h | h
    · exact Or.inl h
    · exact Or.inr (Or.inl h)
    · refine Or.inr (Or.inr ?_)
      unfold allSpreadsBelow
      omega
  have hm := MiddleProc_not_settled inp s hq h2
  have hcp : Cali_Process inp s = MiddleProc inp s := by
    unfold Cali_Process
    rw [hst]
  rw [hcp, hm.1, hm.2]
  exact ⟨hst, rfl⟩

/-- C5 at a concrete input: a left X spread of exactly 50 (2000 in 19
samples, then 2050) does not settle. -/
theorem C5_no_settling_no_change_witness :
    (sampleState .CaliSta_Middle flatWindow).caliStatus = .CaliSta_Middle ∧
    QueueWF (sampleState .CaliSta_Middle flatWindow).middleQueue ∧
    100 ≤ SysTimeSpan (steadyInput 2050).now (sampleState .CaliSta_Middle flatWindow).lastTime ∧
    (windowAfter (steadyInput 2050) (sampleState .CaliSta_Middle flatWindow)).length = 20 ∧
    spread MidVal.leftX (windowAfter (steadyInput 2050)
      (sampleState .CaliSta_Middle flatWindow)) = 50 ∧
    (Cali_Process (steadyInput 2050) (sampleState .CaliSta_Middle flatWindow)).caliStatus =
      .CaliSta_Middle ∧
    (Cali_Process (steadyInput 2050) (sampleState .CaliSta_Middle flatWindow)).caliParams =
      (sampleState .CaliSta_Middle flatWindow).caliParams :=
  ⟨rfl, by decide, by decide, by decide, by decide,
    C5_no_settling_no_change (steadyInput 2050) (sampleState .CaliSta_Middle flatWindow)
      rfl (by decide) (Or.inr (Or.inr (Or.inl (by decide))))⟩

/-! ## Button events -/

/-- C6: a long press of the pair button in status `CaliSta_None` sets the
status to `CaliSta_Middle` and empties the window, leaving the parameters
unchanged; the same event in another status, and any other event of the pair
button, leaves the whole state (status, window, parameters) unchanged. -/
theorem C6_pair_long_press_enters (evt : ButtonEvent) (s : State) :
    (evt = .ButtonEvent_LongPress ∧ s.caliStatus = .CaliSta_None →
      (OnBtnPairEvent evt s).caliStatus = .CaliSta_Middle ∧
      (OnBtnPairEvent evt s).middleQueue = [] ∧
      (OnBtnPairEvent evt s).caliParams = s.caliParams) ∧
    (¬ (evt = .ButtonEvent_LongPress ∧ s.caliStatus = .CaliSta_None) →
      OnBtnPairEvent evt s = s) := by
  constructor
  · rintro ⟨he, hs⟩
    unfold OnBtnPairEvent
    rw [if_pos he, if_pos hs]
    exact ⟨rfl, rfl, rfl⟩
  · intro h
    unfold OnBtnPairEvent
    by_cases he : evt = .ButtonEvent_LongPress
    · rw [if_pos he, if_neg (fun hs => h ⟨he, hs⟩)]
    · rw [if_neg he]

/-- C6 at concrete inputs: the long press in `CaliSta_None` enters
`CaliSta_Middle` with an empty window, and is ignored in `CaliSta_Margin`. -/
theorem C6_pair_long_press_enters_witness :
    (OnBtnPairEvent .ButtonEvent_LongPress (sampleState .CaliSta_None steadyWindow)).caliStatus =
      .CaliSta_Middle ∧
    (OnBtnPairEvent .ButtonEvent_LongPress (sampleState .CaliSta_None steadyWindow)).middleQueue =
      [] ∧
    OnBtnPairEvent .ButtonEvent_LongPress (sampleState .CaliSta_Margin steadyWindow) =
      sampleState .CaliSta_Margin steadyWindow :=
  ⟨((C6_pair_long_press_enters .ButtonEvent_LongPress
      (sampleState .CaliSta_None steadyWindow)).1 ⟨rfl, rfl⟩).1,
    ((C6_pair_long_press_enters .ButtonEvent_LongPress
      (sampleState .CaliSta_None steadyWindow)).1 ⟨rfl, rfl⟩).2.1,
    (C6_pair_long_press_enters .ButtonEvent_LongPress
      (sampleState .CaliSta_Margin steadyWindow)).2 (by decide)⟩

/-- C7: a click of button A in status `CaliSta_Margin` writes to the flash
record the bytes of the current centers, radius tables and trigger ranges
followed by the checksum recomputed over them (on a well-formed parameter set
the record decodes to exactly those fields and that checksum), leaves those
in-memory fields unchanged and sets the status to `CaliSta_None`; a click in
another status, and any other event of button A, leaves the whole state
(status, in-memory parameters, flash record) unchanged. -/
theorem C7_confirm_click_saves (crc32 : List Nat → Nat) (evt : ButtonEvent) (s : State) :
    (evt = .ButtonEvent_Click ∧ s.caliStatus = .CaliSta_Margin →
      (OnBtnAEvent crc32 evt s).flash =
        fieldBytes s.caliParams ++ u32Bytes (crc32 (fieldBytes s.caliParams) % 2 ^ 32) ∧
      (ParamsWF s.caliParams → ofBytes (OnBtnAEvent crc32 evt s).flash =
        { s.caliParams with crc := crc32 (fieldBytes s.caliParams) % 2 ^ 32 }) ∧
      (OnBtnAEvent crc32 evt s).caliParams =
        { s.caliParams with crc := crc32 (fieldBytes s.caliParams) % 2 ^ 32 } ∧
      (OnBtnAEvent crc32 evt s).caliStatus = .CaliSta_None) ∧
    (¬ (evt = .ButtonEvent_Click ∧ s.caliStatus = .CaliSta_Margin) →
      OnBtnAEvent crc32 evt s = s) := by
  constructor
  · rintro ⟨he, hs⟩
    have hr : OnBtnAEvent crc32 evt s = ToCaliNone (SaveCalibration crc32 s) := by
      unfold OnBtnAEvent
      rw [if_pos he, if_pos hs]
    rw [hr]
    refine ⟨rfl, ?_, rfl, rfl⟩
    intro hp
    exact save_decodes crc32 s hp
  · intro h
    unfold OnBtnAEvent
    by_cases he : evt = .ButtonEvent_Click
    · rw [if_pos he, if_neg (fun hs => h ⟨he, hs⟩)]
    · rw [if_neg he]

/-- C7 at concrete inputs: the click in `CaliSta_Margin` ends the calibration
and the record decodes to the saved fields; the click in `CaliSta_Middle` is
ignored. -/
theorem C7_confirm_click_saves_witness :
    (OnBtnAEvent sumCrc .ButtonEvent_Click (sampleState .CaliSta_Margin [])).caliStatus =
      .CaliSta_None ∧
    ofBytes (OnBtnAEvent sumCrc .ButtonEvent_Click (sampleState .CaliSta_Margin [])).flash =
      { (sampleState .CaliSta_Margin []).caliParams with
        crc := sumCrc (fieldBytes (sampleState .CaliSta_Margin []).caliParams) % 2 ^ 32 } ∧
    OnBtnAEvent sumCrc .ButtonEvent_Click (sampleState .CaliSta_Middle []) =
      sampleState .CaliSta_Middle [] :=
  ⟨((C7_confirm_click_saves sumCrc .ButtonEvent_Click
      (sampleState .CaliSta_Margin [])).1 ⟨rfl, rfl⟩).2.2.2,
    ((C7_confirm_click_saves sumCrc .ButtonEvent_Click
      (sampleState .CaliSta_Margin [])).1 ⟨rfl, rfl⟩).2.1 (by decide),
    (C7_confirm_click_saves sumCrc .ButtonEvent_Click
      (sampleState .CaliSta_Middle [])).2 (by decide)⟩

theorem ResetParams_params (s : State) (hp : ParamsWF s.caliParams) :
    (ResetParams s).caliParams = defaultParams s.caliParams.crc := by
  have hl := fillMag_eq 2048 s.caliParams.leftMag hp.2.2.2.2.1
  have hr := fillMag_eq 2048 s.caliParams.rightMag hp.2.2.2.2.2.2.1
  unfold ResetParams defaultParams
  dsimp only
  rw [hl, hr, MAG_LEN]

theorem defaultParams_wf (c : Nat) (hc : c < 2 ^ 32) : ParamsWF (defaultParams c) := by
  unfold ParamsWF defaultParams MAG_LEN
  simp only [List.length_replicate, List.mem_replicate, true_and]
  refine ⟨by norm_num, by norm_num, by norm_num, by norm_num, ?_, ?_, by norm_num, by norm_num,
    by norm_num, by norm_num, hc⟩
  · rintro v ⟨_, rfl⟩; norm_num
  · rintro v ⟨_, rfl⟩; norm_num

/-- C8: a long press of button Y in status `CaliSta_Margin` sets every
in-memory parameter to its default (centers 2048, all 120 radius entries 2048,
trigger ranges [0, 4096]), writes a flash record that holds these parameters
with a checksum that matches them, so that a later `LoadCalibration` of that
record accepts it and yields them, and sets the status to `CaliSta_None`; the
same event in another status, and any other event of button Y, leaves the
whole state (status, in-memory parameters, flash record) unchanged. -/
theorem C8_reset_long_press (crc32 : List Nat → Nat) (evt : ButtonEvent) (s : State)
    (hp : ParamsWF s.caliParams) :
    (evt = .ButtonEvent_LongPress ∧ s.caliStatus = .CaliSta_Margin →
      (OnBtnYEvent crc32 evt s).caliParams =
        defaultParams (crc32 (fieldBytes (defaultParams 0)) % 2 ^ 32) ∧
      (OnBtnYEvent crc32 evt s).flash = toBytes (OnBtnYEvent crc32 evt s).caliParams ∧
      ofBytes (OnBtnYEvent crc32 evt s).flash = (OnBtnYEvent crc32 evt s).caliParams ∧
      (∀ t : State, t.flash = (OnBtnYEvent crc32 evt s).flash →
        (LoadCalibration crc32 t).caliParams = (OnBtnYEvent crc32 evt s).caliParams) ∧
      (OnBtnYEvent crc32 evt s).caliStatus = .CaliSta_None) ∧
    (¬ (evt = .ButtonEvent_LongPress ∧ s.caliStatus = .CaliSta_Margin) →
      OnBtnYEvent crc32 evt s = s) := by
  constructor
  · rintro ⟨he, hs⟩
    have hr : OnBtnYEvent crc32 evt s = ToCaliNone (SaveCalibration crc32 (ResetParams s)) := by
      unfold OnBtnYEvent
      rw [if_pos he, if_pos hs]
    have hreset := ResetParams_params s hp
    have hwf : ParamsWF (ResetParams s).caliParams := by
      rw [hreset]; exact defaultParams_wf _ hp.2.2.2.2.2.2.2.2.2.2.2.2
    have hpar : (ToCaliNone (SaveCalibration crc32 (ResetParams s))).caliParams =
        defaultParams (crc32 (fieldBytes (defaultParams 0)) % 2 ^ 32) := by
      show ({ (ResetParams s).caliParams with
        crc := crc32 (fieldBytes (ResetParams s).caliParams) % 2 ^ 32 } : CaliParams) = _
      rw [hreset]
      rfl
    have hdec : ofBytes (ToCaliNone (SaveCalibration crc32 (ResetParams s))).flash =
        (ToCaliNone (SaveCalibration crc32 (ResetParams s))).caliParams :=
      save_decodes crc32 (ResetParams s) hwf
    rw [hr]
    refine ⟨hpar, rfl, hdec, ?_, rfl⟩
    intro t ht
    rw [load_eq, ht, hdec, hpar]
    have hc : crc32 (fieldBytes (defaultParams (crc32 (fieldBytes (defaultParams 0)) % 2 ^ 32)))
        % 2 ^ 32 = (defaultParams (crc32 (fieldBytes (defaultParams 0)) % 2 ^ 32)).crc := rfl
    rw [if_neg (not_not_intro hc)]
  · intro h
    unfold OnBtnYEvent
    by_cases he : evt = .ButtonEvent_LongPress
    · rw [if_pos he, if_neg (fun hs => h ⟨he, hs⟩)]
    · rw [if_neg he]

/-- C8 at a concrete input: the long press in `CaliSta_Margin`, on tables
that the calibration zeroed, restores the defaults and ends the calibration. -/
theorem C8_reset_long_press_witness :
    ParamsWF marginState.caliParams ∧
    (OnBtnYEvent sumCrc .ButtonEvent_LongPress marginState).caliParams =
      defaultParams (sumCrc (fieldBytes (defaultParams 0)) % 2 ^ 32) ∧
    (OnBtnYEvent sumCrc .ButtonEvent_LongPress marginState).caliStatus = .CaliSta_None :=
  ⟨by decide,
    ((C8_reset_long_press sumCrc .ButtonEvent_LongPress marginState
      (by decide)).1 ⟨rfl, rfl⟩).1,
    ((C8_reset_long_press sumCrc .ButtonEvent_LongPress marginState
      (by decide)).1 ⟨rfl, rfl⟩).2.2.2.2⟩

/-! ## The periodic entry point -/

theorem MarginProc_status (inp : PollInput) (s : State) :
    (MarginProc inp s).caliStatus = s.caliStatus := by
  unfold MarginProc
  dsimp only
  split_ifs <;> rfl

theorem MiddleProc_status (inp : PollInput) (s : State) :
    (MiddleProc inp s).caliStatus = s.caliStatus ∨
    (MiddleProc inp s).caliStatus = .CaliSta_Margin := by
  unfold MiddleProc
  dsimp only
  split_ifs
  · exact Or.inr rfl
  · exact Or.inl rfl
  · exact Or.inl rfl
  · exact Or.inl rfl

/-- C9: for every state and every input, after `Cali_Process` the status is
unchanged, or it was `CaliSta_Middle` and is now `CaliSta_Margin`; a poll in
`CaliSta_Margin` leaves the status `CaliSta_Margin` whatever it finds, and a
poll in `CaliSta_None` leaves the whole state unchanged. -/
theorem C9_process_never_exits_nor_starts (inp : PollInput) (s : State) :
    ((Cali_Process inp s).caliStatus = s.caliStatus ∨
      (s.caliStatus = .CaliSta_Middle ∧ (Cali_Process inp s).caliStatus = .CaliSta_Margin)) ∧
    (s.caliStatus = .CaliSta_Margin → (Cali_Process inp s).caliStatus = .CaliSta_Margin) ∧
    (s.caliStatus = .CaliSta_None → Cali_Process inp s = s) := by
  refine ⟨?_, ?_, ?_⟩
  · cases hst : s.caliStatus with
    | CaliSta_None =>
      left
      unfold Cali_Process
      rw [hst]
      exact hst
    | CaliSta_Middle =>
      have hcp : Cali_Process inp s = MiddleProc inp s := by
        unfold Cali_Process
        rw [hst]
      rw [hcp]
      rcases MiddleProc_status inp s with h | h
      · left; rw [h, hst]
      · right; exact ⟨rfl, h⟩
    | CaliSta_Margin =>
      left
      have hcp : Cali_Process inp s = MarginProc inp s := by
        unfold Cali_Process
        rw [hst]
      rw [hcp, MarginProc_status, hst]
  · intro hst
    have hcp : Cali_Process inp s = MarginProc inp s := by
      unfold Cali_Process
      rw [hst]
    rw [hcp, MarginProc_status, hst]
  · intro hst
    unfold Cali_Process
    rw [hst]

/-- C9 at concrete inputs: a poll in `CaliSta_Margin` stays there and a poll
in `CaliSta_None` changes nothing. -/
theorem C9_process_never_exits_nor_starts_witness :
    (Cali_Process (steadyInput 2040) marginState).caliStatus = .CaliSta_Margin ∧
    Cali_Process (steadyInput 2040) (sampleState .CaliSta_None steadyWindow) =
      sampleState .CaliSta_None steadyWindow :=
  ⟨(C9_process_never_exits_nor_starts (steadyInput 2040) marginState).2.1 rfl,
    (C9_process_never_exits_nor_starts (steadyInput 2040)
      (sampleState .CaliSta_None steadyWindow)).2.2 rfl⟩

/-! ## Margin collection -/

theorem GetRadian_nonneg (v : Vector2) : 0 ≤ GetRadian v := by
  unfold GetRadian
  dsimp only
  split_ifs
  · have := Real.arccos_le_pi (CL_CLAMP (v.y / Vector2_Magnitude v) (-1) 1)
    have := Real.pi_pos
    linarith
  · exact Real.arccos_nonneg _

theorem sectorIndex_nonneg (v : Vector2) : 0 ≤ sectorIndex v := by
  unfold sectorIndex MAG_LEN
  apply div_nonneg (GetRadian_nonneg v)
  have := Real.pi_pos
  positivity

theorem roundf_eq_round (r : ℝ) (h : 0 ≤ r) : roundf r = round r := by
  unfold roundf
  rw [if_pos h, round_eq]

theorem round_nonneg_of_nonneg (r : ℝ) (h : 0 ≤ r) : 0 ≤ round r := by
  rw [round_eq]
  apply Int.floor_nonneg.mpr
  linarith

theorem tmod_toNat (k : Int) (h : 0 ≤ k) : (Int.tmod k (MAG_LEN : Nat)).toNat = k.toNat % 60 := by
  unfold MAG_LEN
  rw [Int.tmod_eq_emod h (by norm_num)]
  omega

theorem mulInt32_small (m : Nat) (h : m ≤ 46340) :
    mulInt32 (m : Int) (m : Int) = ((m * m : Nat) : Int) := by
  unfold mulInt32
  have h2 : m * m ≤ 46340 * 46340 := Nat.mul_le_mul h h
  have h3 : (m : Int) * (m : Int) = ((m * m : Nat) : Int) := by push_cast; rfl
  rw [h3]
  generalize m * m = x at *
  omega

theorem getD_le_of_forall (l : List Nat) (i b : Nat) (h : ∀ m ∈ l, m ≤ b) : l.getD i 0 ≤ b := by
  by_cases hi : i < l.length
  · rw [List.getD_eq_getElem l 0 hi]
    exact h _ (List.getElem_mem hi)
  · rw [List.getD_eq_default l 0 (by omega)]
    exact Nat.zero_le b

theorem floor_sqrt_mod (x : ℝ) (h : x < 65536 ^ 2) : ⌊Real.sqrt x⌋₊ % 65536 = ⌊Real.sqrt x⌋₊ := by
  apply Nat.mod_eq_of_lt
  rw [Nat.floor_lt (Real.sqrt_nonneg x)]
  rw [Real.sqrt_lt' (by norm_num)]
  exact_mod_cast h

theorem StickMarginProc_eq (stick : Vector2) (left : Bool) (p : CaliParams) :
    StickMarginProc stick left p =
      if marginSqr stick left p > 90000 then
        if FLOAT_NEAR (marginIndex stick left p) (roundf (marginIndex stick left p)) (1 / 10) then
          if marginSqr stick left p >
              ((mulInt32
                (((selectMag left p).getD
                  (Int.tmod (roundf (marginIndex stick left p)) (MAG_LEN : Nat)).toNat 0 : Nat) : Int)
                (((selectMag left p).getD
                  (Int.tmod (roundf (marginIndex stick left p)) (MAG_LEN : Nat)).toNat 0 : Nat) : Int)
                : Int) : ℝ) then
            storeMag left p (Int.tmod (roundf (marginIndex stick left p)) (MAG_LEN : Nat)).toNat
              (⌊Real.sqrt (marginSqr stick left p)⌋₊ % 65536)
          else p
        else p
      else p := by
  unfold StickMarginProc marginSqr marginIndex
  rfl

theorem StickMarginProc_rule (stick : Vector2) (left : Bool) (p : CaliParams)
    (hent : ∀ m ∈ selectMag left p, m ≤ 46340)
    (hfit : marginSqr stick left p < 65536 ^ 2) :
    (marginCond stick left p →
      StickMarginProc stick left p =
        storeMag left p (marginSector stick left p) ⌊Real.sqrt (marginSqr stick left p)⌋₊) ∧
    (¬ marginCond stick left p → StickMarginProc stick left p = p) := by
  have hidx : 0 ≤ marginIndex stick left p := sectorIndex_nonneg _
  have hr : roundf (marginIndex stick left p) = round (marginIndex stick left p) :=
    roundf_eq_round _ hidx
  have hk : 0 ≤ round (marginIndex stick left p) := round_nonneg_of_nonneg _ hidx
  have hpos : (Int.tmod (round (marginIndex stick left p)) (MAG_LEN : Nat)).toNat =
      marginSector stick left p := tmod_toNat _ hk
  have hm : (selectMag left p).getD (marginSector stick left p) 0 ≤ 46340 :=
    getD_le_of_forall _ _ _ hent
  have hmul : ((mulInt32 (((selectMag left p).getD (marginSector stick left p) 0 : Nat) : Int)
      (((selectMag left p).getD (marginSector stick left p) 0 : Nat) : Int) : Int) : ℝ) =
      (((selectMag left p).getD (marginSector stick left p) 0 : Nat) : ℝ) ^ 2 := by
    rw [mulInt32_small _ hm]
    push_cast
    ring
  have hfl := floor_sqrt_mod _ hfit
  rw [StickMarginProc_eq, hr, hpos, hmul, hfl]
  unfold marginCond FLOAT_NEAR
  constructor
  · rintro ⟨h1, h2, h3⟩
    rw [if_pos h1, if_pos h2, if_pos h3]
  · intro h
    by_cases h1 : marginSqr stick left p > 90000
    · rw [if_pos h1]
      by_cases h2 : |marginIndex stick left p - round (marginIndex stick left p)| < 1 / 10
      · rw [if_pos h2, if_neg (fun h3 => h ⟨h1, h2, h3⟩)]
      · rw [if_neg h2]
    · rw [if_neg h1]

theorem nearStick_sqr : marginSqr nearStick true nearParams = 160001 := by
  unfold marginSqr Vector2_SqrMagnitude centered nearStick nearParams
  norm_num

theorem nearStick_index :
    0 ≤ marginIndex nearStick true nearParams ∧ marginIndex nearStick true nearParams < 1 / 10 := by
  have hpi := Real.pi_pos
  refine ⟨sectorIndex_nonneg _, ?_⟩
  have hs : (0 : ℝ) < Real.sqrt 160001 := Real.sqrt_pos.mpr (by norm_num)
  have hs2 : Real.sqrt 160001 ^ 2 = 160001 := Real.sq_sqrt (by norm_num)
  have hs400 : (400 : ℝ) < Real.sqrt 160001 := by
    rw [Real.lt_sqrt (by norm_num)]; norm_num
  have hc0 : (0 : ℝ) ≤ 400 / Real.sqrt 160001 := by positivity
  have hc1 : (400 : ℝ) / Real.sqrt 160001 < 1 := by
    rw [div_lt_one hs]; exact hs400
  have hclamp : CL_CLAMP (400 / Real.sqrt 160001) (-1) 1 = 400 / Real.sqrt 160001 := by
    unfold CL_CLAMP
    rw [if_neg (by linarith), if_neg (by linarith)]
  have hrad : GetRadian (centered nearStick true nearParams) =
      Real.arccos (400 / Real.sqrt 160001) := by
    unfold GetRadian Vector2_Magnitude centered nearStick nearParams
    norm_num
    rw [hclamp]
  have hle : Real.arccos (400 / Real.sqrt 160001) ≤ Real.pi / 2 :=
    Real.arccos_le_pi_div_two.mpr hc0
  have hsin := Real.mul_le_sin (Real.arccos_nonneg (400 / Real.sqrt 160001)) hle
  rw [Real.sin_arccos] at hsin
  have hone : (1 : ℝ) - (400 / Real.sqrt 160001) ^ 2 = 1 / 160001 := by
    rw [div_pow, hs2]; norm_num
  have hsq : Real.sqrt (1 - (400 / Real.sqrt 160001) ^ 2) ≤ 1 / 400 := by
    rw [hone, Real.sqrt_le_iff]
    constructor <;> norm_num
  have hacos : Real.arccos (400 / Real.sqrt 160001) ≤ Real.pi / 800 := by
    have h1 : 2 / Real.pi * Real.arccos (400 / Real.sqrt 160001) ≤ 1 / 400 := le_trans hsin hsq
    have h2 : Real.arccos (400 / Real.sqrt 160001) =
        Real.pi / 2 * (2 / Real.pi * Real.arccos (400 / Real.sqrt 160001)) := by
      field_simp
      ring
    rw [h2]
    calc Real.pi / 2 * (2 / Real.pi * Real.arccos (400 / Real.sqrt 160001))
        ≤ Real.pi / 2 * (1 / 400) := by
          apply mul_le_mul_of_nonneg_left h1; positivity
      _ = Real.pi / 800 := by ring
  unfold marginIndex sectorIndex MAG_LEN
  rw [hrad, div_lt_iff₀ (by positivity)]
  push_cast
  calc Real.arccos (400 / Real.sqrt 160001) ≤ Real.pi / 800 := hacos
    _ < 1 / 10 * (Real.pi * 2 / 60) := by
      have : 1 / 10 * (Real.pi * 2 / 60) = Real.pi / 300 := by ring
      rw [this]
      apply div_lt_div_of_pos_left hpi (by norm_num) (by norm_num)

theorem round_eq_zero_of_small (r : ℝ) (h0 : 0 ≤ r) (h1 : r < 1 / 10) : round r = 0 := by
  rw [round_eq, Int.floor_eq_iff]
  constructor <;> norm_num <;> linarith

theorem floor_sqrt_160001 : ⌊Real.sqrt 160001⌋₊ = 400 := by
  rw [Nat.floor_eq_iff (Real.sqrt_nonneg _)]
  constructor
  · rw [Real.le_sqrt' (by norm_num)]; norm_num
  · rw [Real.sqrt_lt' (by norm_num)]; norm_num

theorem selectMag_storeMag (left : Bool) (p : CaliParams) (i v : Nat) :
    selectMag left (storeMag left p i v) = (selectMag left p).set i v := by
  cases left <;> rfl

theorem selectMag_storeMag_other (left : Bool) (p : CaliParams) (i v : Nat) :
    selectMag (!left) (storeMag left p i v) = selectMag (!left) p := by
  cases left <;> rfl

theorem set_ne_iff (l : List Nat) (i v : Nat) (hi : i < l.length) :
    l.set i v ≠ l ↔ v ≠ l.getD i 0 := by
  rw [List.getD_eq_getElem l 0 hi]
  constructor
  · intro h hv
    apply h
    subst hv
    apply List.ext_getElem (by simp)
    intro j h1 h2
    rw [List.getElem_set]
    split_ifs with hij
    · subst hij; rfl
    · rfl
  · intro h heq
    apply h
    have h1 : (l.set i v)[i]? = some v := List.getElem?_set_self hi
    rw [heq, List.getElem?_eq_getElem hi] at h1
    exact (Option.some.inj h1).symm

theorem upStick_sqr : marginSqr upStick true nearParams = 250000 := by
  unfold marginSqr Vector2_SqrMagnitude centered upStick nearParams
  norm_num

theorem upStick_index : marginIndex upStick true nearParams = 0 := by
  have hs : Real.sqrt (500 * 500) = 500 := Real.sqrt_mul_self (by norm_num)
  have hclamp : CL_CLAMP 1 (-1) 1 = 1 := by
    unfold CL_CLAMP
    rw [if_neg (by norm_num), if_neg (by norm_num)]
  unfold marginIndex sectorIndex GetRadian Vector2_Magnitude centered upStick nearParams
  norm_num
  left
  rw [show (250000 : ℝ) = 500 * 500 by norm_num, hs]
  norm_num
  rw [hclamp]

theorem floor_sqrt_250000 : ⌊Real.sqrt 250000⌋₊ = 500 := by
  rw [show (250000 : ℝ) = 500 * 500 by norm_num, Real.sqrt_mul_self (by norm_num)]
  exact Nat.floor_natCast 500

/-! ## Trigger travel and completeness -/

theorem storeMag_triggers (left : Bool) (p : CaliParams) (i v : Nat) :
    (storeMag left p i v).leftTrigger = p.leftTrigger ∧
    (storeMag left p i v).rightTrigger = p.rightTrigger := by
  cases left <;> exact ⟨rfl, rfl⟩

theorem StickMarginProc_triggers (stick : Vector2) (left : Bool) (p : CaliParams) :
    (StickMarginProc stick left p).leftTrigger = p.leftTrigger ∧
    (StickMarginProc stick left p).rightTrigger = p.rightTrigger := by
  rw [StickMarginProc_eq]
  split_ifs
  · exact storeMag_triggers _ _ _ _
  · exact ⟨rfl, rfl⟩
  · exact ⟨rfl, rfl⟩
  · exact ⟨rfl, rfl⟩

theorem storeMag_wf (left : Bool) (p : CaliParams) (i v : Nat) (hp : ParamsWF p)
    (hv : v < 65536) : ParamsWF (storeMag left p i v) := by
  obtain ⟨h1, h2, h3, h4, h5, h6, h7, h8, h9, h10, h11, h12, h13⟩ := hp
  have hset : ∀ l : List Nat, (∀ m ∈ l, m < 65536) → ∀ m ∈ l.set i v, m < 65536 := by
    intro l hl m hm
    rcases List.mem_or_eq_of_mem_set hm with h | h
    · exact hl m h
    · rw [h]; exact hv
  cases left
  · have hlen : (p.rightMag.set i v).length = MAG_LEN := by rw [List.length_set]; exact h7
    exact ⟨h1, h2, h3, h4, h5, h6, hlen, hset _ h8, h9, h10, h11, h12, h13⟩
  · have hlen : (p.leftMag.set i v).length = MAG_LEN := by rw [List.length_set]; exact h5
    exact ⟨h1, h2, h3, h4, hlen, hset _ h6, h7, h8, h9, h10, h11, h12, h13⟩

theorem StickMarginProc_wf (stick : Vector2) (left : Bool) (p : CaliParams) (hp : ParamsWF p) :
    ParamsWF (StickMarginProc stick left p) := by
  rw [StickMarginProc_eq]
  split_ifs
  · exact storeMag_wf _ _ _ _ hp (Nat.mod_lt _ (by norm_num))
  · exact hp
  · exact hp
  · exact hp

theorem MarginProc_params (inp : PollInput) (s : State) :
    (MarginProc inp s).caliParams = marginParams inp s.caliParams := by
  unfold MarginProc
  dsimp only
  split_ifs <;> rfl

theorem marginParams_triggers (inp : PollInput) (p : CaliParams) :
    (marginParams inp p).leftTrigger = (p.leftTrigger.1, max p.leftTrigger.2 inp.leftHall % 65536) ∧
    (marginParams inp p).rightTrigger =
      (p.rightTrigger.1, max p.rightTrigger.2 inp.rightHall % 65536) := by
  have h1 := StickMarginProc_triggers ⟨(inp.leftX : ℝ), (inp.leftY : ℝ)⟩ true p
  have h2 := StickMarginProc_triggers ⟨(inp.rightX : ℝ), (inp.rightY : ℝ)⟩ false
    (StickMarginProc ⟨(inp.leftX : ℝ), (inp.leftY : ℝ)⟩ true p)
  unfold marginParams
  dsimp only
  rw [h2.1, h2.2, h1.1, h1.2]
  exact ⟨rfl, rfl⟩

theorem marginParams_wf (inp : PollInput) (p : CaliParams) (hp : ParamsWF p) :
    ParamsWF (marginParams inp p) := by
  have h2 := StickMarginProc_wf ⟨(inp.rightX : ℝ), (inp.rightY : ℝ)⟩ false _
    (StickMarginProc_wf ⟨(inp.leftX : ℝ), (inp.leftY : ℝ)⟩ true p hp)
  obtain ⟨h1, h2, h3, h4, h5, h6, h7, h8, h9, h10, h11, h12, h13⟩ := h2
  exact ⟨h1, h2, h3, h4, h5, h6, h7, h8, h9, Nat.mod_lt _ (by norm_num), h11,
    Nat.mod_lt _ (by norm_num), h13⟩

theorem allMagsFound_iff (p : CaliParams) :
    allMagsFound p = true ↔
      (∀ i, i < 60 → p.leftMag.getD i 0 ≠ 0) ∧ (∀ i, i < 60 → p.rightMag.getD i 0 ≠ 0) := by
  unfold allMagsFound MAG_LEN
  simp only [List.all_eq_true, List.mem_range, Bool.not_eq_true', Bool.or_eq_false_iff,
    beq_eq_false_iff_ne, ne_eq]
  exact ⟨fun h => ⟨fun i hi => (h i hi).1, fun i hi => (h i hi).2⟩,
    fun h i hi => ⟨h.1 i hi, h.2 i hi⟩⟩

theorem MarginProc_led (inp : PollInput) (s : State) :
    (complete (marginParams inp s.caliParams) → (MarginProc inp s).led = .PadLedStyle_Breath) ∧
    (¬ complete (marginParams inp s.caliParams) → (MarginProc inp s).led = s.led) := by
  have hall := allMagsFound_iff (marginParams inp s.caliParams)
  have hunf : MarginProc inp s =
      if (if (marginParams inp s.caliParams).rightTrigger.2 <
            (marginParams inp s.caliParams).rightTrigger.1 + 500 then false
          else if (marginParams inp s.caliParams).leftTrigger.2 <
            (marginParams inp s.caliParams).leftTrigger.1 + 500 then false
          else allMagsFound (marginParams inp s.caliParams)) = true then
        SetPadLedStyle .PadLedStyle_Breath { s with caliParams := marginParams inp s.caliParams }
      else { s with caliParams := marginParams inp s.caliParams } := by
    unfold MarginProc marginParams
    rfl
  rw [hunf]
  unfold complete
  constructor
  · rintro ⟨hl, hr, htl, htr⟩
    rw [if_neg (not_lt.mpr htr), if_neg (not_lt.mpr htl), hall.mpr ⟨hl, hr⟩, if_pos rfl]
    rfl
  · intro hn
    by_cases htr : (marginParams inp s.caliParams).rightTrigger.2 <
        (marginParams inp s.caliParams).rightTrigger.1 + 500
    · rw [if_pos htr, if_neg (by decide)]
    · rw [if_neg htr]
      by_cases htl : (marginParams inp s.caliParams).leftTrigger.2 <
          (marginParams inp s.caliParams).leftTrigger.1 + 500
      · rw [if_pos htl, if_neg (by decide)]
      · rw [if_neg htl]
        have hnf : ¬ allMagsFound (marginParams inp s.caliParams) = true := by
          intro hf
          have := hall.mp hf
          exact hn ⟨this.1, this.2, by omega, by omega⟩
        rw [if_neg hnf]

theorem Cali_Process_margin (inp : PollInput) (s : State) (hst : s.caliStatus = .CaliSta_Margin) :
    Cali_Process inp s = MarginProc inp s := by
  unfold Cali_Process
  rw [hst]

theorem max_mod_u16 (a b : Nat) (ha : a < 65536) (hb : b < 65536) : max a b % 65536 = max a b := by
  apply Nat.mod_eq_of_lt
  exact max_lt ha hb

theorem runPolls_margin (inps : List PollInput) (s : State)
    (hst : s.caliStatus = .CaliSta_Margin) (hp : ParamsWF s.caliParams)
    (hin : ∀ inp ∈ inps, inp.leftHall < 65536 ∧ inp.rightHall < 65536) :
    (runPolls inps s).caliStatus = .CaliSta_Margin ∧
    ParamsWF (runPolls inps s).caliParams ∧
    (runPolls inps s).caliParams.leftTrigger =
      (s.caliParams.leftTrigger.1,
        (inps.map PollInput.leftHall).foldl max s.caliParams.leftTrigger.2) ∧
    (runPolls inps s).caliParams.rightTrigger =
      (s.caliParams.rightTrigger.1,
        (inps.map PollInput.rightHall).foldl max s.caliParams.rightTrigger.2) := by
  induction inps generalizing s with
  | nil => exact ⟨hst, hp, rfl, rfl⟩
  | cons inp rest ih =>
    have hinp := hin inp (List.mem_cons_self _ _)
    have hrest : ∀ i ∈ rest, i.leftHall < 65536 ∧ i.rightHall < 65536 :=
      fun i hi => hin i (List.mem_cons_of_mem _ hi)
    have hstep : runPolls (inp :: rest) s = runPolls rest (MarginProc inp s) := by
      unfold runPolls
      rw [List.foldl_cons, Cali_Process_margin inp s hst]
    have hst1 : (MarginProc inp s).caliStatus = .CaliSta_Margin := by
      rw [MarginProc_status, hst]
    have hp1 : ParamsWF (MarginProc inp s).caliParams := by
      rw [MarginProc_params]; exact marginParams_wf inp _ hp
    have ht := marginParams_triggers inp s.caliParams
    obtain ⟨r1, r2, r3, r4⟩ := ih (MarginProc inp s) hst1 hp1 hrest
    rw [hstep]
    refine ⟨r1, r2, ?_, ?_⟩
    · rw [r3, MarginProc_params, ht.1,
        max_mod_u16 _ _ hp.2.2.2.2.2.2.2.2.2.1 hinp.1]
      rfl
    · rw [r4, MarginProc_params, ht.2,
        max_mod_u16 _ _ hp.2.2.2.2.2.2.2.2.2.2.2.1 hinp.2]
      rfl

/-- C11: each poll in status `CaliSta_Margin` sets `leftTrigger[1]` to the
maximum of its previous value and the left hall reading, `rightTrigger[1]`
likewise, and leaves `leftTrigger[0]` and `rightTrigger[0]` unchanged; hence
after any sequence of such polls each trigger range is its minimum followed
by the maximum of the starting value (0 right after settling) and all the
readings, and a click of button A then persists exactly these ranges. -/
theorem C11_trigger_running_max (crc32 : List Nat → Nat) (inps : List PollInput) (s : State)
    (hst : s.caliStatus = .CaliSta_Margin) (hp : ParamsWF s.caliParams)
    (hin : ∀ inp ∈ inps, inp.leftHall < 65536 ∧ inp.rightHall < 65536) :
    (∀ inp : PollInput, inp.leftHall < 65536 → inp.rightHall < 65536 →
      (Cali_Process inp s).caliParams.leftTrigger =
        (s.caliParams.leftTrigger.1, max s.caliParams.leftTrigger.2 inp.leftHall) ∧
      (Cali_Process inp s).caliParams.rightTrigger =
        (s.caliParams.rightTrigger.1, max s.caliParams.rightTrigger.2 inp.rightHall)) ∧
    (runPolls inps s).caliStatus = .CaliSta_Margin ∧
    (runPolls inps s).caliParams.leftTrigger =
      (s.caliParams.leftTrigger.1,
        (inps.map PollInput.leftHall).foldl max s.caliParams.leftTrigger.2) ∧
    (runPolls inps s).caliParams.rightTrigger =
      (s.caliParams.rightTrigger.1,
        (inps.map PollInput.rightHall).foldl max s.caliParams.rightTrigger.2) ∧
    (ofBytes (OnBtnAEvent crc32 .ButtonEvent_Click (runPolls inps s)).flash).leftTrigger =
      (runPolls inps s).caliParams.leftTrigger ∧
    (ofBytes (OnBtnAEvent crc32 .ButtonEvent_Click (runPolls inps s)).flash).rightTrigger =
      (runPolls inps s).caliParams.rightTrigger := by
  obtain ⟨r1, r2, r3, r4⟩ := runPolls_margin inps s hst hp hin
  have hclick : OnBtnAEvent crc32 .ButtonEvent_Click (runPolls inps s) =
      ToCaliNone (SaveCalibration crc32 (runPolls inps s)) := by
    unfold OnBtnAEvent
    rw [if_pos rfl, if_pos r1]
  have hdec : ofBytes (ToCaliNone (SaveCalibration crc32 (runPolls inps s))).flash =
      { (runPolls inps s).caliParams with
        crc := crc32 (fieldBytes (runPolls inps s).caliParams) % 2 ^ 32 } :=
    save_decodes crc32 (runPolls inps s) r2
  refine ⟨?_, r1, r3, r4, ?_, ?_⟩
  · intro inp hl hr
    have ht := marginParams_triggers inp s.caliParams
    rw [Cali_Process_margin inp s hst, MarginProc_params, ht.1, ht.2,
      max_mod_u16 _ _ hp.2.2.2.2.2.2.2.2.2.1 hl,
      max_mod_u16 _ _ hp.2.2.2.2.2.2.2.2.2.2.2.1 hr]
    exact ⟨rfl, rfl⟩
  · rw [hclick, hdec]
  · rw [hclick, hdec]

/-- C11 at a concrete input: after settling with trigger midpoints 0, hall
readings rising over 100 and 300 to 600 leave both trigger ranges at
[0, 600], and the confirm persists [0, 600]. -/
theorem C11_trigger_running_max_witness :
    zeroTriggerState.caliStatus = .CaliSta_Margin ∧ ParamsWF zeroTriggerState.caliParams ∧
    (∀ inp ∈ risingInputs, inp.leftHall < 65536 ∧ inp.rightHall < 65536) ∧
    (runPolls risingInputs zeroTriggerState).caliParams.leftTrigger = (0, 600) ∧
    (ofBytes (OnBtnAEvent sumCrc .ButtonEvent_Click
      (runPolls risingInputs zeroTriggerState)).flash).leftTrigger = (0, 600) :=
  ⟨rfl, by decide, by decide,
    (C11_trigger_running_max sumCrc risingInputs zeroTriggerState rfl (by decide)
      (by decide)).2.2.1.trans (by decide),
    ((C11_trigger_running_max sumCrc risingInputs zeroTriggerState rfl (by decide)
      (by decide)).2.2.2.2.1).trans
      ((C11_trigger_running_max sumCrc risingInputs zeroTriggerState rfl (by decide)
        (by decide)).2.2.1.trans (by decide))⟩

/-- C12: at the end of a poll `MarginProc` sets the LED style to breathing
if and only if, after the updates of this poll, all 60 left and all 60 right
radius entries are non-zero and each trigger maximum is at least its minimum
plus 500; otherwise it leaves the LED style as it was. -/
theorem C12_completeness_criterion (inp : PollInput) (s : State) :
    (complete (MarginProc inp s).caliParams →
      (MarginProc inp s).led = .PadLedStyle_Breath) ∧
    (¬ complete (MarginProc inp s).caliParams → (MarginProc inp s).led = s.led) := by
  rw [MarginProc_params]
  exact MarginProc_led inp s

theorem StickMarginProc_small (stick : Vector2) (left : Bool) (p : CaliParams)
    (h : marginSqr stick left p ≤ 90000) : StickMarginProc stick left p = p := by
  rw [StickMarginProc_eq, if_neg (not_lt.mpr h)]

theorem steadyInput_marginParams :
    marginParams (steadyInput 2040) (sampleState .CaliSta_Margin []).caliParams =
      { (sampleState .CaliSta_Margin []).caliParams with
        leftTrigger := (0, 4096), rightTrigger := (0, 4096) } := by
  have h1 : StickMarginProc ⟨((steadyInput 2040).leftX : ℝ), ((steadyInput 2040).leftY : ℝ)⟩ true
      (sampleState .CaliSta_Margin []).caliParams = (sampleState .CaliSta_Margin []).caliParams := by
    apply StickMarginProc_small
    unfold marginSqr Vector2_SqrMagnitude centered steadyInput sampleState
    norm_num
  have h2 : StickMarginProc ⟨((steadyInput 2040).rightX : ℝ), ((steadyInput 2040).rightY : ℝ)⟩
      false (sampleState .CaliSta_Margin []).caliParams =
      (sampleState .CaliSta_Margin []).caliParams := by
    apply StickMarginProc_small
    unfold marginSqr Vector2_SqrMagnitude centered steadyInput sampleState
    norm_num
  unfold marginParams
  dsimp only
  rw [h1, h2]
  rfl

/-- C12 at concrete inputs: right after settling the trigger maxima are
below the minima plus 500 and the LED style stays blinking; on tables without
a zero entry and trigger ranges [0, 4096] the poll sets it to breathing. -/
theorem C12_completeness_criterion_witness :
    (MarginProc (steadyInput 2040) marginState).led = .PadLedStyle_Blink ∧
    (MarginProc (steadyInput 2040) (sampleState .CaliSta_Margin [])).led =
      .PadLedStyle_Breath := by
  constructor
  · apply (C12_completeness_criterion (steadyInput 2040) marginState).2
    rw [MarginProc_params]
    intro hc
    have ht := (marginParams_triggers (steadyInput 2040) marginState.caliParams).1
    have h3 := hc.2.2.1
    rw [ht] at h3
    revert h3
    decide
  · apply (C12_completeness_criterion (steadyInput 2040) (sampleState .CaliSta_Margin [])).1
    rw [MarginProc_params, steadyInput_marginParams]
    decide

/-! ## The angle on the horizontal axis -/

theorem interpMag_int (caliMags : List Nat) (k : Int) :
    interpMag caliMags (k : ℝ) = magAt caliMags k := by
  unfold interpMag
  dsimp only
  rw [Int.floor_intCast, Int.ceil_intCast, if_pos rfl]

/-! ## The interpolated radius -/

theorem interpMag_between (caliMags : List Nat) (k : Int) (r : ℝ) (h1 : (k : ℝ) ≤ r)
    (h2 : r ≤ (k : ℝ) + 1) :
    interpMag caliMags r =
      (r - k) * magAt caliMags (k + 1) + ((k : ℝ) + 1 - r) * magAt caliMags k := by
  rcases eq_or_lt_of_le h1 with h | h
  · rw [← h, interpMag_int]
    ring
  · rcases eq_or_lt_of_le h2 with h' | h'
    · have hr : r = ((k + 1 : Int) : ℝ) := by rw [h']; push_cast; ring
      rw [hr, interpMag_int]
      push_cast
      ring
    · have hfl : ⌊r⌋ = k := by
        rw [Int.floor_eq_iff]
        exact ⟨h1, h'⟩
      have hcl : ⌈r⌉ = k + 1 := by
        rw [Int.ceil_eq_iff]
        push_cast
        constructor <;> linarith
      unfold interpMag
      dsimp only
      rw [hfl, hcl, if_neg (by omega)]
      push_cast
      ring

theorem interpMag_continuousOn_piece (caliMags : List Nat) (k : Int) :
    ContinuousOn (interpMag caliMags) (Set.Icc (k : ℝ) ((k : ℝ) + 1)) := by
  have haff : ContinuousOn
      (fun r : ℝ => (r - k) * magAt caliMags (k + 1) + ((k : ℝ) + 1 - r) * magAt caliMags k)
      (Set.Icc (k : ℝ) ((k : ℝ) + 1)) := by
    apply Continuous.continuousOn
    continuity
  exact haff.congr (fun r hr => interpMag_between caliMags k r hr.1 hr.2)

theorem interpMag_continuous (caliMags : List Nat) : Continuous (interpMag caliMags) := by
  rw [continuous_iff_continuousAt]
  intro r
  by_cases hr : r = (⌊r⌋ : ℝ)
  · rw [continuousAt_iff_continuous_left_right]
    constructor
    · have hp := interpMag_continuousOn_piece caliMags (⌊r⌋ - 1)
      have hmem : r ∈ Set.Icc (((⌊r⌋ - 1 : Int) : ℝ)) ((((⌊r⌋ - 1 : Int)) : ℝ) + 1) := by
        push_cast
        constructor <;> linarith
      have hw := hp r hmem
      have hend : (((⌊r⌋ - 1 : Int)) : ℝ) + 1 = r := by push_cast; linarith
      rw [hend] at hw
      exact (continuousWithinAt_Icc_iff_Iic (by push_cast; linarith)).mp hw
    · have hp := interpMag_continuousOn_piece caliMags ⌊r⌋
      have hmem : r ∈ Set.Icc ((⌊r⌋ : ℝ)) ((⌊r⌋ : ℝ) + 1) := by
        constructor <;> linarith
      have hw := hp r hmem
      rw [← hr] at hw
      exact (continuousWithinAt_Icc_iff_Ici (by linarith)).mp hw
  · have hlo : (⌊r⌋ : ℝ) < r := lt_of_le_of_ne (Int.floor_le r) (Ne.symm hr)
    have hhi : r < (⌊r⌋ : ℝ) + 1 := Int.lt_floor_add_one r
    exact (interpMag_continuousOn_piece caliMags ⌊r⌋).continuousAt (Icc_mem_nhds hlo hhi)

theorem magAt_nat (caliMags : List Nat) (k : Nat) :
    magAt caliMags (k : Int) = ((caliMags.getD (k % 60) 0 : Nat) : ℝ) := by
  unfold magAt MAG_LEN
  rw [Int.tmod_eq_emod (by omega) (by norm_num)]
  have : ((k : Int) % ((60 : Nat) : Int)).toNat = k % 60 := by omega
  rw [this]

theorem interpMag_nat (caliMags : List Nat) (k : Nat) :
    interpMag caliMags (k : ℝ) = ((caliMags.getD (k % 60) 0 : Nat) : ℝ) := by
  have h := interpMag_int caliMags (k : Int)
  rw [magAt_nat] at h
  exact_mod_cast h

/-- C15: for every radius table the radius `StickCorrect` divides by, as a
function of the fractional sector index, is continuous on [0, 60]: at every
integer index k it is the entry at k mod 60, it tends to that entry as the
index approaches k from below and from above, and the indices 60 and 0 both
give entry 0; hence a vector component divided by it has no jump at a sector
boundary where the radius is not zero. -/
theorem C15_interpolation_continuity (caliMags : List Nat) :
    (∀ k : Nat, k ≤ 60 →
      interpMag caliMags (k : ℝ) = ((caliMags.getD (k % 60) 0 : Nat) : ℝ)) ∧
    ContinuousOn (interpMag caliMags) (Set.Icc 0 60) ∧
    (∀ k : Nat, 1 ≤ k → k ≤ 60 →
      Filter.Tendsto (interpMag caliMags) (nhdsWithin (k : ℝ) (Set.Iio (k : ℝ)))
        (nhds ((caliMags.getD (k % 60) 0 : Nat) : ℝ))) ∧
    (∀ k : Nat, k ≤ 59 →
      Filter.Tendsto (interpMag caliMags) (nhdsWithin (k : ℝ) (Set.Ioi (k : ℝ)))
        (nhds ((caliMags.getD (k % 60) 0 : Nat) : ℝ))) ∧
    interpMag caliMags 60 = ((caliMags.getD 0 0 : Nat) : ℝ) ∧
    interpMag caliMags 0 = ((caliMags.getD 0 0 : Nat) : ℝ) ∧
    (∀ c : ℝ, ContinuousOn (fun r => c / interpMag caliMags r)
      (Set.Icc 0 60 ∩ {r | interpMag caliMags r ≠ 0})) := by
  have hcont := interpMag_continuous caliMags
  have hlim : ∀ (k : Nat) (S : Set ℝ),
      Filter.Tendsto (interpMag caliMags) (nhdsWithin (k : ℝ) S)
        (nhds ((caliMags.getD (k % 60) 0 : Nat) : ℝ)) := by
    intro k S
    have h := (hcont.tendsto (k : ℝ))
    rw [interpMag_nat] at h
    exact tendsto_nhdsWithin_of_tendsto_nhds h
  refine ⟨fun k _ => interpMag_nat caliMags k, hcont.continuousOn,
    fun k _ _ => hlim k _, fun k _ => hlim k _, ?_, ?_, ?_⟩
  · have h := interpMag_nat caliMags 60
    rw [Nat.cast_ofNat] at h
    exact h
  · have h := interpMag_nat caliMags 0
    rw [Nat.cast_zero] at h
    exact h
  · intro c
    apply ContinuousOn.div continuousOn_const (hcont.continuousOn)
    intro r hr
    exact hr.2

/-! ## Sectors and angles -/

theorem sectorOf_GetRadian (v : Vector2) :
    sectorOf (GetRadian v) = Int.tmod (roundf (sectorIndex v)) (MAG_LEN : Nat) := rfl

theorem sectorOf_of_nonneg (a : ℝ) (h0 : 0 ≤ a) :
    sectorOf a = round (a / (Real.pi * 2 / 60)) % 60 ∧ 0 ≤ round (a / (Real.pi * 2 / 60)) := by
  have hpi := Real.pi_pos
  have hu : 0 ≤ a / (Real.pi * 2 / 60) := div_nonneg h0 (by positivity)
  have hk := round_nonneg_of_nonneg _ hu
  refine ⟨?_, hk⟩
  unfold sectorOf MAG_LEN
  push_cast
  rw [roundf_eq_round _ hu, Int.tmod_eq_emod hk (by norm_num)]

/-- C16: with the sector of an angle computed as in `StickMarginProc`
(`roundf` of the angle divided by 2π/60, then the remainder modulo 60), the
angles 0 and 2π both have sector 0, and for every angle a with 0 ≤ a and
a + 2π/60 ≤ 2π the sector of a + 2π/60 is the sector of a plus 1 modulo 60,
which is a different sector. -/
theorem C16_sector_mapping (a : ℝ) (h0 : 0 ≤ a)
    (_h1 : a + Real.pi * 2 / 60 ≤ Real.pi * 2) :
    sectorOf 0 = 0 ∧ sectorOf (Real.pi * 2) = 0 ∧
    sectorOf (a + Real.pi * 2 / 60) = (sectorOf a + 1) % 60 ∧
    sectorOf (a + Real.pi * 2 / 60) ≠ sectorOf a ∧
    0 ≤ sectorOf a ∧ sectorOf a < 60 := by
  have hpi := Real.pi_pos
  have hw : (0 : ℝ) < Real.pi * 2 / 60 := by positivity
  obtain ⟨hs, hk⟩ := sectorOf_of_nonneg a h0
  obtain ⟨hs1, _⟩ := sectorOf_of_nonneg (a + Real.pi * 2 / 60) (by linarith)
  have hadd : (a + Real.pi * 2 / 60) / (Real.pi * 2 / 60) = a / (Real.pi * 2 / 60) + 1 := by
    field_simp
  rw [hadd, round_add_one] at hs1
  obtain ⟨hz, _⟩ := sectorOf_of_nonneg 0 (le_refl 0)
  obtain ⟨h2pi, _⟩ := sectorOf_of_nonneg (Real.pi * 2) (by positivity)
  have h60 : Real.pi * 2 / (Real.pi * 2 / 60) = ((60 : Int) : ℝ) := by
    push_cast
    field_simp
  rw [zero_div, round_zero] at hz
  rw [h60, round_intCast] at h2pi
  refine ⟨by rw [hz]; rfl, by rw [h2pi]; rfl, ?_, ?_, ?_, ?_⟩
  · rw [hs1, hs]
    omega
  · rw [hs1, hs]
    omega
  · rw [hs]
    omega
  · rw [hs]
    omega

/-- C16 at a concrete input: the angles 0 and 2π/60 have the sectors 0 and 1. -/
theorem C16_sector_mapping_witness :
    (0 : ℝ) ≤ 0 ∧ (0 : ℝ) + Real.pi * 2 / 60 ≤ Real.pi * 2 ∧
    sectorOf 0 = 0 ∧ sectorOf (0 + Real.pi * 2 / 60) = 1 := by
  have hpi := Real.pi_pos
  have h1 : (0 : ℝ) + Real.pi * 2 / 60 ≤ Real.pi * 2 := by linarith
  have h := C16_sector_mapping 0 (le_refl 0) h1
  refine ⟨le_refl 0, h1, h.1, ?_⟩
  rw [h.2.2.1, h.1]
  rfl

theorem magnitude_pos (v : Vector2) (hv : v.x ≠ 0 ∨ v.y ≠ 0) : 0 < Vector2_Magnitude v := by
  unfold Vector2_Magnitude
  apply Real.sqrt_pos.mpr
  rcases hv with h | h
  · have := mul_self_pos.mpr h
    have := mul_self_nonneg v.y
    linarith
  · have := mul_self_pos.mpr h
    have := mul_self_nonneg v.x
    linarith

theorem magnitude_sq (v : Vector2) :
    Vector2_Magnitude v ^ 2 = v.x * v.x + v.y * v.y := by
  unfold Vector2_Magnitude
  apply Real.sq_sqrt
  have := mul_self_nonneg v.x
  have := mul_self_nonneg v.y
  linarith

theorem cos_ratio_bounds (v : Vector2) (hv : v.x ≠ 0 ∨ v.y ≠ 0) :
    -1 ≤ v.y / Vector2_Magnitude v ∧ v.y / Vector2_Magnitude v ≤ 1 := by
  have hm := magnitude_pos v hv
  have hsq := magnitude_sq v
  have hx2 := mul_self_nonneg v.x
  have habs := abs_le_of_sq_le_sq'
    (show v.y ^ 2 ≤ Vector2_Magnitude v ^ 2 by rw [hsq]; nlinarith) hm.le
  constructor
  · rw [le_div_iff₀ hm]; linarith [habs.1]
  · rw [div_le_one hm]; exact habs.2

theorem clamp_ratio (v : Vector2) (hv : v.x ≠ 0 ∨ v.y ≠ 0) :
    CL_CLAMP (v.y / Vector2_Magnitude v) (-1) 1 = v.y / Vector2_Magnitude v := by
  obtain ⟨h1, h2⟩ := cos_ratio_bounds v hv
  unfold CL_CLAMP
  rw [if_neg (not_lt.mpr h1), if_neg (not_lt.mpr h2)]

theorem magnitude_mul_sin_arccos (v : Vector2) (hv : v.x ≠ 0 ∨ v.y ≠ 0) :
    Vector2_Magnitude v * Real.sin (Real.arccos (v.y / Vector2_Magnitude v)) = |v.x| := by
  have hm := magnitude_pos v hv
  have hsq := magnitude_sq v
  have h1 : 1 - (v.y / Vector2_Magnitude v) ^ 2 = (v.x / Vector2_Magnitude v) ^ 2 := by
    field_simp
    rw [hsq]
    ring
  rw [Real.sin_arccos, h1, Real.sqrt_sq_eq_abs, abs_div, abs_of_pos hm]
  field_simp

/-- C17: for every non-zero vector `GetRadian` returns an angle t in
[0, 2π], equal to acos(clamp(y / |v|, -1, 1)) when x ≥ 0 and to 2π minus that
when x < 0 (the clamp leaving y / |v| as it is), so that t is in [0, π] for
x ≥ 0 and in [π, 2π] for x < 0, and x = |v| sin t, y = |v| cos t: the angle is
measured from the positive Y axis. -/
theorem C17_angle_computation (v : Vector2) (hv : v.x ≠ 0 ∨ v.y ≠ 0) :
    0 ≤ GetRadian v ∧ GetRadian v ≤ Real.pi * 2 ∧
    CL_CLAMP (v.y / Vector2_Magnitude v) (-1) 1 = v.y / Vector2_Magnitude v ∧
    (0 ≤ v.x → GetRadian v = Real.arccos (CL_CLAMP (v.y / Vector2_Magnitude v) (-1) 1)) ∧
    (v.x < 0 →
      GetRadian v = Real.pi * 2 - Real.arccos (CL_CLAMP (v.y / Vector2_Magnitude v) (-1) 1)) ∧
    (0 ≤ v.x → GetRadian v ≤ Real.pi) ∧
    (v.x < 0 → Real.pi ≤ GetRadian v) ∧
    v.x = Vector2_Magnitude v * Real.sin (GetRadian v) ∧
    v.y = Vector2_Magnitude v * Real.cos (GetRadian v) := by
  have hpi := Real.pi_pos
  have hm := magnitude_pos v hv
  have hcl := clamp_ratio v hv
  obtain ⟨hb1, hb2⟩ := cos_ratio_bounds v hv
  have ha0 := Real.arccos_nonneg (v.y / Vector2_Magnitude v)
  have ha1 := Real.arccos_le_pi (v.y / Vector2_Magnitude v)
  have hsin := magnitude_mul_sin_arccos v hv
  have hcos : Vector2_Magnitude v * Real.cos (Real.arccos (v.y / Vector2_Magnitude v)) = v.y := by
    rw [Real.cos_arccos hb1 hb2]
    field_simp
  have hpos : 0 ≤ v.x → GetRadian v = Real.arccos (v.y / Vector2_Magnitude v) := by
    intro hx
    unfold GetRadian
    dsimp only
    rw [if_neg (not_lt.mpr hx), hcl]
  have hneg : v.x < 0 → GetRadian v = Real.pi * 2 - Real.arccos (v.y / Vector2_Magnitude v) := by
    intro hx
    unfold GetRadian
    dsimp only
    rw [if_pos hx, hcl]
  refine ⟨GetRadian_nonneg v, ?_, hcl, ?_, ?_, ?_, ?_, ?_, ?_⟩
  · rcases lt_or_le v.x 0 with hx | hx
    · rw [hneg hx]; linarith
    · rw [hpos hx]; linarith
  · intro hx; rw [hcl]; exact hpos hx
  · intro hx; rw [hcl]; exact hneg hx
  · intro hx; rw [hpos hx]; exact ha1
  · intro hx; rw [hneg hx]; linarith
  · rcases lt_or_le v.x 0 with hx | hx
    · rw [hneg hx, mul_comm Real.pi 2, Real.sin_two_pi_sub, mul_neg, hsin, abs_of_neg hx]
      ring
    · rw [hpos hx, hsin, abs_of_nonneg hx]
  · rcases lt_or_le v.x 0 with hx | hx
    · rw [hneg hx, mul_comm Real.pi 2, Real.cos_two_pi_sub, hcos]
    · rw [hpos hx, hcos]

/-- C17 at a concrete input: the vector (-1, 0) has the angle 3π/2. -/
theorem C17_angle_computation_witness :
    ((⟨-1, 0⟩ : Vector2).x ≠ 0 ∨ (⟨-1, 0⟩ : Vector2).y ≠ 0) ∧
    GetRadian ⟨-1, 0⟩ = Real.pi * 2 - Real.pi / 2 ∧
    Real.pi ≤ GetRadian ⟨-1, 0⟩ := by
  have hv : (⟨-1, 0⟩ : Vector2).x ≠ 0 ∨ (⟨-1, 0⟩ : Vector2).y ≠ 0 := Or.inl (by norm_num)
  have h := C17_angle_computation ⟨-1, 0⟩ hv
  have hx : (⟨-1, 0⟩ : Vector2).x < 0 := by norm_num
  refine ⟨hv, ?_, h.2.2.2.2.2.2.1 hx⟩
  rw [h.2.2.2.2.1 hx, h.2.2.1]
  norm_num

/-! ## Frame properties -/

theorem MiddleProc_flash (inp : PollInput) (s : State) : (MiddleProc inp s).flash = s.flash := by
  unfold MiddleProc
  dsimp only
  split_ifs <;> rfl

theorem MarginProc_flash (inp : PollInput) (s : State) : (MarginProc inp s).flash = s.flash := by
  unfold MarginProc
  dsimp only
  split_ifs <;> rfl

theorem Cali_Process_flash (inp : PollInput) (s : State) :
    (Cali_Process inp s).flash = s.flash := by
  unfold Cali_Process
  cases s.caliStatus
  · rfl
  · exact MiddleProc_flash inp s
  · exact MarginProc_flash inp s

theorem OnBtnPairEvent_flash (evt : ButtonEvent) (s : State) :
    (OnBtnPairEvent evt s).flash = s.flash := by
  unfold OnBtnPairEvent
  split_ifs <;> rfl

theorem StickCorrect_state (stick : Vector2) (left : Bool) (s : State) :
    (StickCorrect stick left s).2 = s := by
  unfold StickCorrect
  dsimp only
  split_ifs <;> rfl

theorem OnBtnAEvent_other (crc32 : List Nat → Nat) (evt : ButtonEvent) (s : State)
    (h : ¬ (evt = .ButtonEvent_Click ∧ s.caliStatus = .CaliSta_Margin)) :
    OnBtnAEvent crc32 evt s = s := by
  unfold OnBtnAEvent
  by_cases he : evt = .ButtonEvent_Click
  · rw [if_pos he, if_neg (fun hs => h ⟨he, hs⟩)]
  · rw [if_neg he]

theorem OnBtnYEvent_other (crc32 : List Nat → Nat) (evt : ButtonEvent) (s : State)
    (h : ¬ (evt = .ButtonEvent_LongPress ∧ s.caliStatus = .CaliSta_Margin)) :
    OnBtnYEvent crc32 evt s = s := by
  unfold OnBtnYEvent
  by_cases he : evt = .ButtonEvent_LongPress
  · rw [if_pos he, if_neg (fun hs => h ⟨he, hs⟩)]
  · rw [if_neg he]

/-- C18: for every state and input, `Cali_Process` (in each of the three
statuses), an event of the pair button and `StickCorrect` leave the flash
record unchanged, and so do an event of button A other than a click in
`CaliSta_Margin` and an event of button Y other than a long press in
`CaliSta_Margin`; an action that changes the record is therefore one of these
two. -/
theorem C18_record_written_only_by_confirm_and_reset (crc32 : List Nat → Nat) (s : State) :
    (∀ inp : PollInput, (Cali_Process inp s).flash = s.flash) ∧
    (∀ evt : ButtonEvent, (OnBtnPairEvent evt s).flash = s.flash) ∧
    (∀ (stick : Vector2) (left : Bool), (StickCorrect stick left s).2.flash = s.flash) ∧
    (∀ evt : ButtonEvent, ¬ (evt = .ButtonEvent_Click ∧ s.caliStatus = .CaliSta_Margin) →
      (OnBtnAEvent crc32 evt s).flash = s.flash) ∧
    (∀ evt : ButtonEvent, ¬ (evt = .ButtonEvent_LongPress ∧ s.caliStatus = .CaliSta_Margin) →
      (OnBtnYEvent crc32 evt s).flash = s.flash) ∧
    (∀ a : Action, (act crc32 a s).flash ≠ s.flash →
      s.caliStatus = .CaliSta_Margin ∧
      ((∃ evt, a = .btnA evt ∧ evt = .ButtonEvent_Click) ∨
        (∃ evt, a = .btnY evt ∧ evt = .ButtonEvent_LongPress))) := by
  refine ⟨fun inp => Cali_Process_flash inp s, fun evt => OnBtnPairEvent_flash evt s,
    fun stick left => by rw [StickCorrect_state], ?_, ?_, ?_⟩
  · intro evt h
    rw [OnBtnAEvent_other crc32 evt s h]
  · intro evt h
    rw [OnBtnYEvent_other crc32 evt s h]
  · intro a hne
    cases a with
    | poll inp => exact absurd (Cali_Process_flash inp s) hne
    | btnPair evt => exact absurd (OnBtnPairEvent_flash evt s) hne
    | btnA evt =>
      by_cases h : evt = .ButtonEvent_Click ∧ s.caliStatus = .CaliSta_Margin
      · exact ⟨h.2, Or.inl ⟨evt, rfl, h.1⟩⟩
      · exact absurd (by show (OnBtnAEvent crc32 evt s).flash = s.flash
                         rw [OnBtnAEvent_other crc32 evt s h]) hne
    | btnY evt =>
      by_cases h : evt = .ButtonEvent_LongPress ∧ s.caliStatus = .CaliSta_Margin
      · exact ⟨h.2, Or.inr ⟨evt, rfl, h.1⟩⟩
      · exact absurd (by show (OnBtnYEvent crc32 evt s).flash = s.flash
                         rw [OnBtnYEvent_other crc32 evt s h]) hne
    | correct stick left =>
      exact absurd (by show (StickCorrect stick left s).2.flash = s.flash
                       rw [StickCorrect_state]) hne

/-- C18 at a concrete input: the click of button A in `CaliSta_Margin`
does change the flash record, and the status then is `CaliSta_Margin`. -/
theorem C18_record_written_only_by_confirm_and_reset_witness :
    (act sumCrc (.btnA .ButtonEvent_Click) marginState).flash ≠ marginState.flash ∧
    marginState.caliStatus = .CaliSta_Margin :=
  ⟨by decide,
    ((C18_record_written_only_by_confirm_and_reset sumCrc marginState).2.2.2.2.2
      (.btnA .ButtonEvent_Click) (by decide)).1⟩

/-! ## The sample window stays bounded -/

theorem captureQueue_full (q : List MidVal) (v : MidVal) (h : q.length = 20) :
    captureQueue q v = q.drop 1 ++ [v] := by
  unfold captureQueue CL_QueueAdd CL_QueuePoll CL_QueueFull QUEUE_CAP
  have h1 : (20 ≤ q.length) := by omega
  have h2 : ¬ 20 ≤ (List.drop 1 q).length := by rw [List.length_drop]; omega
  simp only [h1, decide_True, if_true, h2, decide_False, Bool.false_eq_true, if_false]

theorem captureQueue_not_full (q : List MidVal) (v : MidVal) (h : q.length < 20) :
    captureQueue q v = q ++ [v] := by
  unfold captureQueue CL_QueueAdd CL_QueuePoll CL_QueueFull QUEUE_CAP
  have h1 : ¬ (20 ≤ q.length) := by omega
  simp only [h1, decide_False, Bool.false_eq_true, if_false]

theorem captureQueue_length_le (q : List MidVal) (v : MidVal) (h : q.length ≤ 20) :
    (captureQueue q v).length ≤ 20 := by
  rcases Nat.lt_or_ge q.length 20 with hlt | hge
  · rw [captureQueue_not_full q v hlt, List.length_append, List.length_singleton]
    omega
  · rw [captureQueue_full q v (by omega), List.length_append, List.length_drop,
      List.length_singleton]
    omega

theorem MiddleProc_queue (inp : PollInput) (s : State) :
    (MiddleProc inp s).middleQueue =
      if 100 ≤ SysTimeSpan inp.now s.lastTime then captureQueue s.middleQueue (captureSample inp)
      else s.middleQueue := by
  unfold MiddleProc
  dsimp only
  split_ifs <;> rfl

theorem MarginProc_queue (inp : PollInput) (s : State) :
    (MarginProc inp s).middleQueue = s.middleQueue := by
  unfold MarginProc
  dsimp only
  split_ifs <;> rfl

theorem act_queue_length_le (crc32 : List Nat → Nat) (a : Action) (s : State)
    (h : s.middleQueue.length ≤ 20) : (act crc32 a s).middleQueue.length ≤ 20 := by
  cases a with
  | poll inp =>
    show (Cali_Process inp s).middleQueue.length ≤ 20
    unfold Cali_Process
    cases s.caliStatus
    · exact h
    · show (MiddleProc inp s).middleQueue.length ≤ 20
      rw [MiddleProc_queue]
      split_ifs
      · exact captureQueue_length_le _ _ h
      · exact h
    · show (MarginProc inp s).middleQueue.length ≤ 20
      rw [MarginProc_queue]
      exact h
  | btnPair evt =>
    show (OnBtnPairEvent evt s).middleQueue.length ≤ 20
    unfold OnBtnPairEvent
    split_ifs
    · exact Nat.zero_le 20
    · exact h
    · exact h
  | btnA evt =>
    show (OnBtnAEvent crc32 evt s).middleQueue.length ≤ 20
    unfold OnBtnAEvent
    split_ifs
    · exact h
    · exact h
    · exact h
  | btnY evt =>
    show (OnBtnYEvent crc32 evt s).middleQueue.length ≤ 20
    unfold OnBtnYEvent
    split_ifs
    · exact h
    · exact h
    · exact h
  | correct stick left =>
    show (StickCorrect stick left s).2.middleQueue.length ≤ 20
    rw [StickCorrect_state]
    exact h

theorem Cali_Init_queue (crc32 : List Nat → Nat) (s : State) :
    (Cali_Init crc32 s).middleQueue = s.middleQueue := by
  unfold Cali_Init
  rw [load_eq]
  split_ifs <;> rfl

/-- C20: in every state the module can reach the window holds at most 20
samples; a capture of `MiddleProc` on a window of 20 samples removes the oldest
one and then appends the new one, so that the window afterwards is the 19
newest samples followed by the new sample, and a capture on a window of fewer
than 20 samples only appends. -/
theorem C20_bounded_window (crc32 : List Nat → Nat) :
    (∀ s : State, Reachable crc32 s → s.middleQueue.length ≤ 20) ∧
    (∀ (inp : PollInput) (s : State), 100 ≤ SysTimeSpan inp.now s.lastTime →
      (s.middleQueue.length = 20 →
        (MiddleProc inp s).middleQueue = s.middleQueue.drop 1 ++ [captureSample inp]) ∧
      (s.middleQueue.length < 20 →
        (MiddleProc inp s).middleQueue = s.middleQueue ++ [captureSample inp])) ∧
    (∀ (inp : PollInput) (s : State), ¬ 100 ≤ SysTimeSpan inp.now s.lastTime →
      (MiddleProc inp s).middleQueue = s.middleQueue) := by
  refine ⟨?_, ?_, ?_⟩
  · intro s hs
    induction hs with
    | init flash led =>
      rw [Cali_Init_queue]
      exact Nat.zero_le 20
    | step a s _ ih => exact act_queue_length_le crc32 a s ih
  · intro inp s hgate
    rw [MiddleProc_queue, if_pos hgate]
    exact ⟨fun h => captureQueue_full _ _ h, fun h => captureQueue_not_full _ _ h⟩
  · intro inp s hgate
    rw [MiddleProc_queue, if_neg hgate]

/-- C20 at a concrete input: a capture on the full window 0..19 leaves the 20
samples 1..19 followed by the new sample. -/
theorem C20_bounded_window_witness :
    100 ≤ SysTimeSpan (steadyInput 2040).now (sampleState .CaliSta_Middle fullWindow).lastTime ∧
    (sampleState .CaliSta_Middle fullWindow).middleQueue.length = 20 ∧
    (MiddleProc (steadyInput 2040) (sampleState .CaliSta_Middle fullWindow)).middleQueue =
      fullWindow.drop 1 ++ [captureSample (steadyInput 2040)] ∧
    (MiddleProc (steadyInput 2040)
      (sampleState .CaliSta_Middle fullWindow)).middleQueue.length = 20 :=
  ⟨by decide, by decide,
    ((C20_bounded_window sumCrc).2.1 (steadyInput 2040) (sampleState .CaliSta_Middle fullWindow)
      (by decide)).1 (by decide),
    by decide⟩

/-! ## Radius and indices of the stick correction -/

theorem GetRadian_le_two_pi (v : Vector2) : GetRadian v ≤ Real.pi * 2 := by
  have hpi := Real.pi_pos
  have h0 := Real.arccos_nonneg (CL_CLAMP (v.y / Vector2_Magnitude v) (-1) 1)
  have h1 := Real.arccos_le_pi (CL_CLAMP (v.y / Vector2_Magnitude v) (-1) 1)
  unfold GetRadian
  dsimp only
  split_ifs <;> linarith

theorem sectorIndex_le (v : Vector2) : sectorIndex v ≤ 60 := by
  have hpi := Real.pi_pos
  unfold sectorIndex MAG_LEN
  rw [div_le_iff₀ (by positivity)]
  have := GetRadian_le_two_pi v
  push_cast
  linarith

theorem tmod_range (k : Int) (h : 0 ≤ k) :
    0 ≤ Int.tmod k ((MAG_LEN : Nat) : Int) ∧ Int.tmod k ((MAG_LEN : Nat) : Int) < 60 ∧
    (Int.tmod k ((MAG_LEN : Nat) : Int)).toNat < 60 := by
  unfold MAG_LEN
  rw [Int.tmod_eq_emod h (by norm_num)]
  omega

theorem magAt_pos (caliMags : List Nat) (k : Int) (hk : 0 ≤ k)
    (hnz : ∀ i, i < 60 → caliMags.getD i 0 ≠ 0) : 1 ≤ magAt caliMags k := by
  unfold magAt
  have h := hnz _ (tmod_range k hk).2.2
  have h1 : 1 ≤ caliMags.getD (Int.tmod k ((MAG_LEN : Nat) : Int)).toNat 0 := Nat.one_le_iff_ne_zero.mpr h
  exact_mod_cast h1

theorem ceil_eq_floor_add_one (r : ℝ) (h : ⌊r⌋ ≠ ⌈r⌉) : ⌈r⌉ = ⌊r⌋ + 1 := by
  have h1 := Int.floor_le_ceil r
  have h2 := Int.ceil_le_floor_add_one r
  omega

theorem interpMag_convex (caliMags : List Nat) (r : ℝ) (h : ⌊r⌋ ≠ ⌈r⌉) :
    interpMag caliMags r =
      (r - ⌊r⌋) * magAt caliMags ⌈r⌉ + (1 - (r - ⌊r⌋)) * magAt caliMags ⌊r⌋ := by
  have hc := ceil_eq_floor_add_one r h
  unfold interpMag
  dsimp only
  rw [if_neg h, hc]
  push_cast
  ring

theorem convex_between (w a b : ℝ) (h0 : 0 ≤ w) (h1 : w ≤ 1) :
    min b a ≤ w * a + (1 - w) * b ∧ w * a + (1 - w) * b ≤ max b a := by
  rcases le_total a b with hab | hab
  · rw [min_eq_right hab, max_eq_left hab]
    constructor <;> nlinarith
  · rw [min_eq_left hab, max_eq_right hab]
    constructor <;> nlinarith

/-- C23: for every side whose 60 radius entries are all non-zero and every
input whose center-relative vector is non-zero, the radius `StickCorrect`
divides by is strictly positive, and it is at least the smaller and at most
the larger of the entries of the two bracketing sectors: where the floor and
the ceiling of the fractional sector index differ, the two interpolation
weights are non-negative and sum to 1. -/
theorem C23_radius_positive (stick : Vector2) (left : Bool) (p : CaliParams)
    (_hv : (centered stick left p).x ≠ 0 ∨ (centered stick left p).y ≠ 0)
    (hnz : ∀ i, i < 60 → (selectMag left p).getD i 0 ≠ 0) :
    0 < interpMag (selectMag left p) (sectorIndex (centered stick left p)) ∧
    min (magAt (selectMag left p) ⌊sectorIndex (centered stick left p)⌋)
        (magAt (selectMag left p) ⌈sectorIndex (centered stick left p)⌉) ≤
      interpMag (selectMag left p) (sectorIndex (centered stick left p)) ∧
    interpMag (selectMag left p) (sectorIndex (centered stick left p)) ≤
      max (magAt (selectMag left p) ⌊sectorIndex (centered stick left p)⌋)
        (magAt (selectMag left p) ⌈sectorIndex (centered stick left p)⌉) ∧
    1 ≤ magAt (selectMag left p) ⌊sectorIndex (centered stick left p)⌋ ∧
    1 ≤ magAt (selectMag left p) ⌈sectorIndex (centered stick left p)⌉ ∧
    (⌊sectorIndex (centered stick left p)⌋ ≠ ⌈sectorIndex (centered stick left p)⌉ →
      0 ≤ sectorIndex (centered stick left p) - ⌊sectorIndex (centered stick left p)⌋ ∧
      0 ≤ (⌈sectorIndex (centered stick left p)⌉ : ℝ) - sectorIndex (centered stick left p) ∧
      (sectorIndex (centered stick left p) - ⌊sectorIndex (centered stick left p)⌋) +
        ((⌈sectorIndex (centered stick left p)⌉ : ℝ) - sectorIndex (centered stick left p)) = 1) := by
  generalize hr : sectorIndex (centered stick left p) = r
  have hr0 : 0 ≤ r := by rw [← hr]; exact sectorIndex_nonneg _
  have hfl : 0 ≤ ⌊r⌋ := Int.floor_nonneg.mpr hr0
  have hcl : 0 ≤ ⌈r⌉ := Int.ceil_nonneg hr0
  have hb := magAt_pos (selectMag left p) ⌊r⌋ hfl hnz
  have hn := magAt_pos (selectMag left p) ⌈r⌉ hcl hnz
  have hw0 : 0 ≤ r - ⌊r⌋ := sub_nonneg.mpr (Int.floor_le r)
  have hw1 : r - ⌊r⌋ ≤ 1 := by
    have := Int.lt_floor_add_one r
    linarith
  have hbetween : min (magAt (selectMag left p) ⌊r⌋) (magAt (selectMag left p) ⌈r⌉) ≤
      interpMag (selectMag left p) r ∧
      interpMag (selectMag left p) r ≤
        max (magAt (selectMag left p) ⌊r⌋) (magAt (selectMag left p) ⌈r⌉) := by
    by_cases h : ⌊r⌋ = ⌈r⌉
    · have he : interpMag (selectMag left p) r = magAt (selectMag left p) ⌊r⌋ := by
        unfold interpMag
        dsimp only
        rw [if_pos h]
      rw [he, ← h]
      exact ⟨min_le_left _ _, le_max_left _ _⟩
    · rw [interpMag_convex _ r h]
      exact convex_between _ _ _ hw0 hw1
  refine ⟨?_, hbetween.1, hbetween.2, hb, hn, ?_⟩
  · have hmin : 1 ≤ min (magAt (selectMag left p) ⌊r⌋) (magAt (selectMag left p) ⌈r⌉) :=
      le_min hb hn
    linarith [hbetween.1]
  · intro h
    have hc := ceil_eq_floor_add_one r h
    refine ⟨hw0, sub_nonneg.mpr (Int.le_ceil r), ?_⟩
    rw [hc]
    push_cast
    ring

/-- C23 at a concrete input: with every radius entry at 1000 the radius for
a stick 84 units right of the center is positive. -/
theorem C23_radius_positive_witness :
    ((centered (rightStick 84) true (uniformParams 1000)).x ≠ 0 ∨
      (centered (rightStick 84) true (uniformParams 1000)).y ≠ 0) ∧
    (∀ i, i < 60 → (selectMag true (uniformParams 1000)).getD i 0 ≠ 0) ∧
    0 < interpMag (selectMag true (uniformParams 1000))
      (sectorIndex (centered (rightStick 84) true (uniformParams 1000))) := by
  have hv : (centered (rightStick 84) true (uniformParams 1000)).x ≠ 0 ∨
      (centered (rightStick 84) true (uniformParams 1000)).y ≠ 0 := by
    left
    unfold centered rightStick uniformParams
    norm_num
  have hnz : ∀ i, i < 60 → (selectMag true (uniformParams 1000)).getD i 0 ≠ 0 := by decide
  exact ⟨hv, hnz, (C23_radius_positive (rightStick 84) true (uniformParams 1000) hv hnz).1⟩

/-- C24: for every non-zero center-relative vector the fractional sector
index lies in [0, 60], and the table indices `StickCorrect` uses (the floor and
the ceiling of the index, each modulo 60) and the index `StickMarginProc` uses
(`roundf` of the index modulo 60) all lie in 0..59, below the length of a
60-entry radius table. -/
theorem C24_indices_in_range (stick : Vector2) (left : Bool) (p : CaliParams)
    (_hv : (centered stick left p).x ≠ 0 ∨ (centered stick left p).y ≠ 0)
    (hp : ParamsWF p) :
    0 ≤ sectorIndex (centered stick left p) ∧ sectorIndex (centered stick left p) ≤ 60 ∧
    (0 ≤ Int.tmod ⌊sectorIndex (centered stick left p)⌋ ((MAG_LEN : Nat) : Int) ∧
      Int.tmod ⌊sectorIndex (centered stick left p)⌋ ((MAG_LEN : Nat) : Int) < 60 ∧
      (Int.tmod ⌊sectorIndex (centered stick left p)⌋ ((MAG_LEN : Nat) : Int)).toNat <
        (selectMag left p).length) ∧
    (0 ≤ Int.tmod ⌈sectorIndex (centered stick left p)⌉ ((MAG_LEN : Nat) : Int) ∧
      Int.tmod ⌈sectorIndex (centered stick left p)⌉ ((MAG_LEN : Nat) : Int) < 60 ∧
      (Int.tmod ⌈sectorIndex (centered stick left p)⌉ ((MAG_LEN : Nat) : Int)).toNat <
        (selectMag left p).length) ∧
    (0 ≤ Int.tmod (roundf (sectorIndex (centered stick left p))) ((MAG_LEN : Nat) : Int) ∧
      Int.tmod (roundf (sectorIndex (centered stick left p))) ((MAG_LEN : Nat) : Int) < 60 ∧
      (Int.tmod (roundf (sectorIndex (centered stick left p))) ((MAG_LEN : Nat) : Int)).toNat <
        (selectMag left p).length) := by
  have hlen : (selectMag left p).length = 60 := by
    cases left
    · exact hp.2.2.2.2.2.2.1
    · exact hp.2.2.2.2.1
  have hr0 := sectorIndex_nonneg (centered stick left p)
  have hfl : 0 ≤ ⌊sectorIndex (centered stick left p)⌋ := Int.floor_nonneg.mpr hr0
  have hcl : 0 ≤ ⌈sectorIndex (centered stick left p)⌉ := Int.ceil_nonneg hr0
  have hro : 0 ≤ roundf (sectorIndex (centered stick left p)) := by
    rw [roundf_eq_round _ hr0]
    exact round_nonneg_of_nonneg _ hr0
  rw [hlen]
  exact ⟨hr0, sectorIndex_le _, tmod_range _ hfl, tmod_range _ hcl, tmod_range _ hro⟩

/-- C24 at a concrete input: the indices for a stick 84 units right of the
center 2048, 2048 are in range. -/
theorem C24_indices_in_range_witness :
    ((centered (rightStick 84) true (uniformParams 1000)).x ≠ 0 ∨
      (centered (rightStick 84) true (uniformParams 1000)).y ≠ 0) ∧
    ParamsWF (uniformParams 1000) ∧
    (Int.tmod ⌊sectorIndex (centered (rightStick 84) true (uniformParams 1000))⌋
      ((MAG_LEN : Nat) : Int)).toNat < (selectMag true (uniformParams 1000)).length := by
  have hv : (centered (rightStick 84) true (uniformParams 1000)).x ≠ 0 ∨
      (centered (rightStick 84) true (uniformParams 1000)).y ≠ 0 := by
    left
    unfold centered rightStick uniformParams
    norm_num
  exact ⟨hv, by decide,
    (C24_indices_in_range (rightStick 84) true (uniformParams 1000) hv (by decide)).2.2.1.2.2⟩

/-! ## Radius entries during the margin collection -/

theorem getD_set (l : List Nat) (i j v : Nat) :
    (l.set j v).getD i 0 = if i = j ∧ j < l.length then v else l.getD i 0 := by
  by_cases hij : i = j
  · subst hij
    by_cases hlt : i < l.length
    · rw [if_pos ⟨rfl, hlt⟩, List.getD_eq_getElem _ 0 (by rw [List.length_set]; exact hlt),
        List.getElem_set_self]
    · rw [if_neg (fun h => hlt h.2), List.set_eq_of_length_le (by omega)]
  · rw [if_neg (fun h => hij h.1)]
    simp only [List.getD_eq_getElem?_getD, List.getElem?_set_ne (Ne.symm hij)]

theorem le_floor_sqrt (m : Nat) (x : ℝ) (h : x > (m : ℝ) ^ 2) : m ≤ ⌊Real.sqrt x⌋₊ := by
  apply Nat.le_floor
  have hx : 0 ≤ x := le_trans (sq_nonneg _) h.le
  rw [Real.le_sqrt (Nat.cast_nonneg m) hx]
  exact h.le

theorem StickMarginProc_grow (stick : Vector2) (left : Bool) (p : CaliParams)
    (hent : ∀ m ∈ selectMag left p, m ≤ 46340)
    (hfit : marginSqr stick left p < 65536 ^ 2) (i : Nat) :
    (selectMag left p).getD i 0 ≤ (selectMag left (StickMarginProc stick left p)).getD i 0 ∧
    selectMag (!left) (StickMarginProc stick left p) = selectMag (!left) p := by
  obtain ⟨hyes, hno⟩ := StickMarginProc_rule stick left p hent hfit
  by_cases hc : marginCond stick left p
  · rw [hyes hc, selectMag_storeMag, selectMag_storeMag_other, getD_set]
    refine ⟨?_, rfl⟩
    split_ifs with h
    · rw [h.1]
      exact le_floor_sqrt _ _ hc.2.2
    · exact le_refl _
  · rw [hno hc]
    exact ⟨le_refl _, rfl⟩

theorem sq_diff_le (a m : Nat) (ha : a ≤ 4095) (hm : m ≤ 4095) :
    ((a : ℝ) - (m : ℝ)) * ((a : ℝ) - (m : ℝ)) ≤ 4095 * 4095 := by
  have h1 : (a : ℝ) ≤ 4095 := by exact_mod_cast ha
  have h2 : (m : ℝ) ≤ 4095 := by exact_mod_cast hm
  have h3 : (0 : ℝ) ≤ a := Nat.cast_nonneg a
  have h4 : (0 : ℝ) ≤ m := Nat.cast_nonneg m
  nlinarith

theorem marginSqr_le (a b : Nat) (left : Bool) (p : CaliParams) (ha : a ≤ 4095) (hb : b ≤ 4095)
    (hmid : (selectMid left p).1 ≤ 4095 ∧ (selectMid left p).2 ≤ 4095) :
    marginSqr ⟨(a : ℝ), (b : ℝ)⟩ left p ≤ 33538050 := by
  unfold marginSqr Vector2_SqrMagnitude centered
  unfold selectMid at hmid
  cases left
  · simp only [Bool.false_eq_true, if_false] at hmid ⊢
    have h1 := sq_diff_le a p.rightMidX ha hmid.1
    have h2 := sq_diff_le b p.rightMidY hb hmid.2
    linarith
  · simp only [if_true] at hmid ⊢
    have h1 := sq_diff_le a p.leftMidX ha hmid.1
    have h2 := sq_diff_le b p.leftMidY hb hmid.2
    linarith

theorem floor_sqrt_le (x : ℝ) (h : x ≤ 33538050) : ⌊Real.sqrt x⌋₊ ≤ 5791 := by
  have h1 : ⌊Real.sqrt x⌋₊ < 5792 := by
    rw [Nat.floor_lt (Real.sqrt_nonneg x), Real.sqrt_lt' (by norm_num)]
    norm_num
    linarith
  omega

theorem storeMag_mids (left : Bool) (p : CaliParams) (i v : Nat) :
    (storeMag left p i v).leftMidX = p.leftMidX ∧ (storeMag left p i v).leftMidY = p.leftMidY ∧
    (storeMag left p i v).rightMidX = p.rightMidX ∧
    (storeMag left p i v).rightMidY = p.rightMidY := by
  cases left <;> exact ⟨rfl, rfl, rfl, rfl⟩

theorem StickMarginProc_mids (stick : Vector2) (left : Bool) (p : CaliParams) :
    (StickMarginProc stick left p).leftMidX = p.leftMidX ∧
    (StickMarginProc stick left p).leftMidY = p.leftMidY ∧
    (StickMarginProc stick left p).rightMidX = p.rightMidX ∧
    (StickMarginProc stick left p).rightMidY = p.rightMidY := by
  rw [StickMarginProc_eq]
  split_ifs
  · exact storeMag_mids _ _ _ _
  · exact ⟨rfl, rfl, rfl, rfl⟩
  · exact ⟨rfl, rfl, rfl, rfl⟩
  · exact ⟨rfl, rfl, rfl, rfl⟩

theorem storeMag_bound (left : Bool) (p : CaliParams) (i v B : Nat) (hv : v ≤ B)
    (hl : ∀ m ∈ p.leftMag, m ≤ B) (hr : ∀ m ∈ p.rightMag, m ≤ B) :
    (∀ m ∈ (storeMag left p i v).leftMag, m ≤ B) ∧
    (∀ m ∈ (storeMag left p i v).rightMag, m ≤ B) := by
  have hset : ∀ l : List Nat, (∀ m ∈ l, m ≤ B) → ∀ m ∈ l.set i v, m ≤ B := by
    intro l hl m hm
    rcases List.mem_or_eq_of_mem_set hm with h | h
    · exact hl m h
    · rw [h]; exact hv
  cases left
  · exact ⟨hl, hset _ hr⟩
  · exact ⟨hset _ hl, hr⟩

theorem StickMarginProc_bound (a b : Nat) (left : Bool) (p : CaliParams) (B : Nat)
    (hB : 5791 ≤ B) (ha : a ≤ 4095) (hb : b ≤ 4095)
    (hmid : (selectMid left p).1 ≤ 4095 ∧ (selectMid left p).2 ≤ 4095)
    (hl : ∀ m ∈ p.leftMag, m ≤ B) (hr : ∀ m ∈ p.rightMag, m ≤ B) :
    (∀ m ∈ (StickMarginProc ⟨(a : ℝ), (b : ℝ)⟩ left p).leftMag, m ≤ B) ∧
    (∀ m ∈ (StickMarginProc ⟨(a : ℝ), (b : ℝ)⟩ left p).rightMag, m ≤ B) := by
  have hsq := marginSqr_le a b left p ha hb hmid
  have hv : ⌊Real.sqrt (marginSqr ⟨(a : ℝ), (b : ℝ)⟩ left p)⌋₊ % 65536 ≤ B :=
    le_trans (Nat.mod_le _ _) (le_trans (floor_sqrt_le _ hsq) hB)
  rw [StickMarginProc_eq]
  split_ifs
  · exact storeMag_bound _ _ _ _ B hv hl hr
  · exact ⟨hl, hr⟩
  · exact ⟨hl, hr⟩
  · exact ⟨hl, hr⟩

theorem StickMarginProc_grow12 (a b : Nat) (left : Bool) (p : CaliParams)
    (ha : a ≤ 4095) (hb : b ≤ 4095)
    (hmid : (selectMid left p).1 ≤ 4095 ∧ (selectMid left p).2 ≤ 4095)
    (hent : ∀ m ∈ selectMag left p, m ≤ 46340) (i : Nat) :
    (selectMag left p).getD i 0 ≤
      (selectMag left (StickMarginProc ⟨(a : ℝ), (b : ℝ)⟩ left p)).getD i 0 ∧
    selectMag (!left) (StickMarginProc ⟨(a : ℝ), (b : ℝ)⟩ left p) = selectMag (!left) p := by
  have hsq := marginSqr_le a b left p ha hb hmid
  exact StickMarginProc_grow _ left p hent (by linarith) i

theorem marginParams_margin (inp : PollInput) (p : CaliParams) (B : Nat) (hB : 5791 ≤ B)
    (hB2 : B ≤ 46340) (hin : adc12 inp)
    (hmid : p.leftMidX ≤ 4095 ∧ p.leftMidY ≤ 4095 ∧ p.rightMidX ≤ 4095 ∧ p.rightMidY ≤ 4095)
    (hl : ∀ m ∈ p.leftMag, m ≤ B) (hr : ∀ m ∈ p.rightMag, m ≤ B) :
    ((marginParams inp p).leftMidX = p.leftMidX ∧ (marginParams inp p).leftMidY = p.leftMidY ∧
      (marginParams inp p).rightMidX = p.rightMidX ∧
      (marginParams inp p).rightMidY = p.rightMidY) ∧
    (∀ m ∈ (marginParams inp p).leftMag, m ≤ B) ∧
    (∀ m ∈ (marginParams inp p).rightMag, m ≤ B) ∧
    (∀ i, p.leftMag.getD i 0 ≤ (marginParams inp p).leftMag.getD i 0) ∧
    (∀ i, p.rightMag.getD i 0 ≤ (marginParams inp p).rightMag.getD i 0) := by
  obtain ⟨i1, i2, i3, i4, _, _⟩ := hin
  obtain ⟨m1, m2, m3, m4⟩ := hmid
  have hm1 := StickMarginProc_mids ⟨(inp.leftX : ℝ), (inp.leftY : ℝ)⟩ true p
  have hb1 := StickMarginProc_bound inp.leftX inp.leftY true p B hB i1 i2 ⟨m1, m2⟩ hl hr
  have hg1 := StickMarginProc_grow12 inp.leftX inp.leftY true p i1 i2 ⟨m1, m2⟩
    (fun m hm => le_trans (hl m hm) hB2)
  have hmid2 : (selectMid false (StickMarginProc ⟨(inp.leftX : ℝ), (inp.leftY : ℝ)⟩ true p)).1
      ≤ 4095 ∧
      (selectMid false (StickMarginProc ⟨(inp.leftX : ℝ), (inp.leftY : ℝ)⟩ true p)).2 ≤ 4095 := by
    show (StickMarginProc ⟨(inp.leftX : ℝ), (inp.leftY : ℝ)⟩ true p).rightMidX ≤ 4095 ∧
      (StickMarginProc ⟨(inp.leftX : ℝ), (inp.leftY : ℝ)⟩ true p).rightMidY ≤ 4095
    rw [hm1.2.2.1, hm1.2.2.2]
    exact ⟨m3, m4⟩
  have hm2 := StickMarginProc_mids ⟨(inp.rightX : ℝ), (inp.rightY : ℝ)⟩ false
    (StickMarginProc ⟨(inp.leftX : ℝ), (inp.leftY : ℝ)⟩ true p)
  have hb2 := StickMarginProc_bound inp.rightX inp.rightY false
    (StickMarginProc ⟨(inp.leftX : ℝ), (inp.leftY : ℝ)⟩ true p) B hB i3 i4 hmid2 hb1.1 hb1.2
  have hg2 := StickMarginProc_grow12 inp.rightX inp.rightY false
    (StickMarginProc ⟨(inp.leftX : ℝ), (inp.leftY : ℝ)⟩ true p) i3 i4 hmid2
    (fun m hm => le_trans (hb1.2 m hm) hB2)
  have hleft : (marginParams inp p).leftMag =
      (StickMarginProc ⟨(inp.rightX : ℝ), (inp.rightY : ℝ)⟩ false
        (StickMarginProc ⟨(inp.leftX : ℝ), (inp.leftY : ℝ)⟩ true p)).leftMag := rfl
  have hright : (marginParams inp p).rightMag =
      (StickMarginProc ⟨(inp.rightX : ℝ), (inp.rightY : ℝ)⟩ false
        (StickMarginProc ⟨(inp.leftX : ℝ), (inp.leftY : ℝ)⟩ true p)).rightMag := rfl
  refine ⟨?_, ?_, ?_, ?_, ?_⟩
  · show (StickMarginProc ⟨(inp.rightX : ℝ), (inp.rightY : ℝ)⟩ false
        (StickMarginProc ⟨(inp.leftX : ℝ), (inp.leftY : ℝ)⟩ true p)).leftMidX = p.leftMidX ∧
      (StickMarginProc ⟨(inp.rightX : ℝ), (inp.rightY : ℝ)⟩ false
        (StickMarginProc ⟨(inp.leftX : ℝ), (inp.leftY : ℝ)⟩ true p)).leftMidY = p.leftMidY ∧
      (StickMarginProc ⟨(inp.rightX : ℝ), (inp.rightY : ℝ)⟩ false
        (StickMarginProc ⟨(inp.leftX : ℝ), (inp.leftY : ℝ)⟩ true p)).rightMidX = p.rightMidX ∧
      (StickMarginProc ⟨(inp.rightX : ℝ), (inp.rightY : ℝ)⟩ false
        (StickMarginProc ⟨(inp.leftX : ℝ), (inp.leftY : ℝ)⟩ true p)).rightMidY = p.rightMidY
    rw [hm2.1, hm2.2.1, hm2.2.2.1, hm2.2.2.2]
    exact hm1
  · rw [hleft]; exact hb2.1
  · rw [hright]; exact hb2.2
  · intro i
    rw [hleft]
    have e2 : (StickMarginProc ⟨(inp.rightX : ℝ), (inp.rightY : ℝ)⟩ false
        (StickMarginProc ⟨(inp.leftX : ℝ), (inp.leftY : ℝ)⟩ true p)).leftMag =
        (StickMarginProc ⟨(inp.leftX : ℝ), (inp.leftY : ℝ)⟩ true p).leftMag := (hg2 i).2
    rw [e2]
    exact (hg1 i).1
  · intro i
    have e1 : (StickMarginProc ⟨(inp.leftX : ℝ), (inp.leftY : ℝ)⟩ true p).rightMag =
        p.rightMag := (hg1 i).2
    rw [hright, ← e1]
    exact (hg2 i).1

/-! ## An invariant of the runs with 12-bit readings -/

theorem takeU16_lt (bs : List Nat) : (takeU16 bs).1 < 65536 := by
  match bs with
  | [] => simp [takeU16]
  | [a] =>
    simp only [takeU16]
    have := Nat.mod_lt a (by norm_num : 256 > 0)
    omega
  | a :: b :: rest =>
    simp only [takeU16]
    have := Nat.mod_lt a (by norm_num : 256 > 0)
    have := Nat.mod_lt b (by norm_num : 256 > 0)
    omega

theorem takeU16s_lt (n : Nat) (bs : List Nat) : ∀ v ∈ (takeU16s n bs).1, v < 65536 := by
  induction n generalizing bs with
  | zero => simp [takeU16s]
  | succ k ih =>
    intro v hv
    simp only [takeU16s, List.mem_cons] at hv
    rcases hv with h | h
    · rw [h]; exact takeU16_lt bs
    · exact ih _ v h

theorem takeU32_lt (bs : List Nat) : takeU32 bs < 2 ^ 32 := by
  have h1 := takeU16_lt bs
  have h2 := takeU16_lt (takeU16 bs).2
  simp only [takeU32]
  omega

theorem ofBytes_wf (bs : List Nat) : ParamsWF (ofBytes bs) := by
  unfold ParamsWF ofBytes
  dsimp only
  exact ⟨takeU16_lt _, takeU16_lt _, takeU16_lt _, takeU16_lt _, takeU16s_length _ _,
    takeU16s_lt _ _, takeU16s_length _ _, takeU16s_lt _ _, takeU16_lt _, takeU16_lt _,
    takeU16_lt _, takeU16_lt _, takeU32_lt _⟩

theorem Cali_Init_inv (crc32 : List Nat → Nat) (flash : List Nat) (led : PadLedStyle) :
    MarginInv (Cali_Init crc32 (powerOn flash led)) := by
  have hwf := ofBytes_wf flash
  have hf : (SetPadLedStyle .PadLedStyle_On (powerOn flash led)).flash = flash := rfl
  unfold Cali_Init
  rw [load_eq, hf]
  unfold MarginInv
  split_ifs
  · refine ⟨?_, Nat.zero_le _, fun m hm => absurd hm (List.not_mem_nil m), ?_⟩
    · rw [ResetParams_params _ hwf]
      exact defaultParams_wf _ hwf.2.2.2.2.2.2.2.2.2.2.2.2
    · intro h
      have h2 : CaliStatus.CaliSta_None = CaliStatus.CaliSta_Margin := h
      exact absurd h2 (by decide)
  · refine ⟨?_, Nat.zero_le _, fun m hm => absurd hm (List.not_mem_nil m), ?_⟩
    · dsimp only
      exact hwf
    · intro h
      have h2 : CaliStatus.CaliSta_None = CaliStatus.CaliSta_Margin := h
      exact absurd h2 (by decide)

theorem chanMax_le (f : MidVal → Nat) (q : List MidVal) (B : Nat) (hb : ∀ m ∈ q, f m ≤ B) :
    chanMax f q ≤ B := by
  cases q with
  | nil => simp [chanMax]
  | cons d t =>
    obtain ⟨b, hb2⟩ : ∃ b, ((d :: t).map f).max? = some b := by
      simp [List.max?_cons']
    have h2 := (List.max?_eq_some_iff'.mp hb2).1
    simp only [chanMax, hb2, Option.getD_some]
    obtain ⟨m, hm, rfl⟩ := List.mem_map.mp h2
    exact hb m hm

theorem mid_le (f : MidVal → Nat) (q : List MidVal) (hb : ∀ m ∈ q, f m ≤ 4095) :
    (chanMin f q + chanMax f q) / 2 ≤ 4095 := by
  have h1 := chanMin_le_chanMax f q
  have h2 := chanMax_le f q 4095 hb
  omega

theorem captureSample_le (inp : PollInput) (hin : adc12 inp) :
    (captureSample inp).leftX ≤ 4095 ∧ (captureSample inp).leftY ≤ 4095 ∧
    (captureSample inp).rightX ≤ 4095 ∧ (captureSample inp).rightY ≤ 4095 ∧
    (captureSample inp).leftHall ≤ 4095 ∧ (captureSample inp).rightHall ≤ 4095 := by
  obtain ⟨h1, h2, h3, h4, h5, h6⟩ := hin
  simp only [captureSample, GetAdcResult]
  exact ⟨le_trans (Nat.mod_le _ _) h1, le_trans (Nat.mod_le _ _) h2,
    le_trans (Nat.mod_le _ _) h3, le_trans (Nat.mod_le _ _) h4,
    le_trans (Nat.mod_le _ _) h5, le_trans (Nat.mod_le _ _) h6⟩

theorem captureQueue_mem (q : List MidVal) (v m : MidVal) (hm : m ∈ captureQueue q v) :
    m ∈ q ∨ m = v := by
  unfold captureQueue CL_QueueAdd CL_QueuePoll at hm
  by_cases h1 : CL_QueueFull q = true
  · rw [if_pos h1] at hm
    by_cases h2 : CL_QueueFull (List.drop 1 q) = true
    · rw [if_pos h2] at hm
      exact Or.inl (List.mem_of_mem_drop hm)
    · rw [if_neg h2] at hm
      rcases List.mem_append.mp hm with h | h
      · exact Or.inl (List.mem_of_mem_drop h)
      · exact Or.inr (List.mem_singleton.mp h)
  · rw [if_neg h1, if_neg h1] at hm
    rcases List.mem_append.mp hm with h | h
    · exact Or.inl h
    · exact Or.inr (List.mem_singleton.mp h)

theorem replicate_zero_le (n B : Nat) : ∀ m ∈ List.replicate n 0, m ≤ B := by
  intro m hm
  rw [(List.mem_replicate.mp hm).2]
  exact Nat.zero_le B

theorem MiddleProc_inv (inp : PollInput) (s : State) (hin : adc12 inp) (hinv : MarginInv s)
    (hst : s.caliStatus = .CaliSta_Middle) : MarginInv (MiddleProc inp s) := by
  obtain ⟨hp, hlen, hq, _⟩ := hinv
  have hQ : QueueWF s.middleQueue := by
    refine ⟨hlen, fun m hm => ?_⟩
    obtain ⟨a1, a2, a3, a4, a5, a6⟩ := hq m hm
    exact ⟨by omega, by omega, by omega, by omega, by omega, by omega⟩
  have hsample := captureSample_le inp hin
  have hq2 : ∀ m ∈ windowAfter inp s, m.leftX ≤ 4095 ∧ m.leftY ≤ 4095 ∧ m.rightX ≤ 4095 ∧
      m.rightY ≤ 4095 ∧ m.leftHall ≤ 4095 ∧ m.rightHall ≤ 4095 := by
    intro m hm
    rcases captureQueue_mem _ _ _ hm with h | h
    · exact hq m h
    · rw [h]; exact hsample
  have hlen2 : (windowAfter inp s).length ≤ 20 := captureQueue_length_le _ _ hlen
  by_cases hsettle : 100 ≤ SysTimeSpan inp.now s.lastTime ∧ (windowAfter inp s).length = 20 ∧
      allSpreadsBelow (windowAfter inp s)
  · rw [MiddleProc_settled inp s hQ hsettle.1 hsettle.2.1 hsettle.2.2]
    have hL := ToCaliMargin_leftMag { s with
        lastTime := inp.now % 2 ^ 32,
        middleQueue := windowAfter inp s,
        caliParams := settledParams s.caliParams (windowAfter inp s) }
    have hR := ToCaliMargin_rightMag { s with
        lastTime := inp.now % 2 ^ 32,
        middleQueue := windowAfter inp s,
        caliParams := settledParams s.caliParams (windowAfter inp s) }
    have hL2 : fillMag 0 (settledParams s.caliParams (windowAfter inp s)).leftMag =
        List.replicate MAG_LEN 0 := fillMag_eq 0 s.caliParams.leftMag hp.2.2.2.2.1
    have hR2 : fillMag 0 (settledParams s.caliParams (windowAfter inp s)).rightMag =
        List.replicate MAG_LEN 0 := fillMag_eq 0 s.caliParams.rightMag hp.2.2.2.2.2.2.1
    dsimp only at hL hR
    rw [hL2] at hL
    rw [hR2] at hR
    have m1 := mid_le MidVal.leftX _ (fun m hm => (hq2 m hm).1)
    have m2 := mid_le MidVal.leftY _ (fun m hm => (hq2 m hm).2.1)
    have m3 := mid_le MidVal.rightX _ (fun m hm => (hq2 m hm).2.2.1)
    have m4 := mid_le MidVal.rightY _ (fun m hm => (hq2 m hm).2.2.2.1)
    have m5 := mid_le MidVal.leftHall _ (fun m hm => (hq2 m hm).2.2.2.2.1)
    have m6 := mid_le MidVal.rightHall _ (fun m hm => (hq2 m hm).2.2.2.2.2)
    unfold MarginInv ParamsWF
    rw [hL, hR]
    refine ⟨⟨?_, ?_, ?_, ?_, List.length_replicate _ _, ?_, List.length_replicate _ _, ?_,
      ?_, ?_, ?_, ?_, hp.2.2.2.2.2.2.2.2.2.2.2.2⟩, hlen2, hq2, fun _ => ⟨m1, m2, m3, m4,
        replicate_zero_le _ _, replicate_zero_le _ _⟩⟩
    · exact lt_of_le_of_lt m1 (by norm_num)
    · exact lt_of_le_of_lt m2 (by norm_num)
    · exact lt_of_le_of_lt m3 (by norm_num)
    · exact lt_of_le_of_lt m4 (by norm_num)
    · intro m hm
      exact lt_of_le_of_lt (replicate_zero_le _ 0 m hm) (by norm_num)
    · intro m hm
      exact lt_of_le_of_lt (replicate_zero_le _ 0 m hm) (by norm_num)
    · exact lt_of_le_of_lt m5 (by norm_num)
    · exact Nat.zero_lt_succ _
    · exact lt_of_le_of_lt m6 (by norm_num)
    · exact Nat.zero_lt_succ _
  · have hns := MiddleProc_not_settled inp s hQ (by
      by_cases h1 : 100 ≤ SysTimeSpan inp.now s.lastTime
      · by_cases h2 : (windowAfter inp s).length = 20
        · exact Or.inr (Or.inr (fun h3 => hsettle ⟨h1, h2, h3⟩))
        · exact Or.inr (Or.inl (by omega))
      · exact Or.inl (by omega))
    unfold MarginInv
    rw [hns.1, hns.2, MiddleProc_queue]
    refine ⟨hp, ?_, ?_, fun h => ?_⟩
    · split_ifs
      · exact hlen2
      · exact hlen
    · split_ifs
      · exact hq2
      · exact hq
    · rw [hst] at h
      exact absurd h (by decide)

theorem MarginProc_inv (inp : PollInput) (s : State) (hin : adc12 inp) (hinv : MarginInv s)
    (hst : s.caliStatus = .CaliSta_Margin) : MarginInv (MarginProc inp s) := by
  obtain ⟨hp, hlen, hq, hm⟩ := hinv
  obtain ⟨m1, m2, m3, m4, hl, hr⟩ := hm hst
  obtain ⟨hmid, hl2, hr2, _, _⟩ := marginParams_margin inp s.caliParams 5791 (le_refl _)
    (by norm_num) hin ⟨m1, m2, m3, m4⟩ hl hr
  unfold MarginInv
  rw [MarginProc_params, MarginProc_queue]
  refine ⟨marginParams_wf inp _ hp, hlen, hq, fun _ => ?_⟩
  rw [hmid.1, hmid.2.1, hmid.2.2.1, hmid.2.2.2]
  exact ⟨m1, m2, m3, m4, hl2, hr2⟩

theorem act_inv (crc32 : List Nat → Nat) (a : Action) (s : State) (ha : actionAdc12 a)
    (hinv : MarginInv s) : MarginInv (act crc32 a s) := by
  cases a with
  | poll inp =>
    show MarginInv (Cali_Process inp s)
    have hin : adc12 inp := ha
    cases hst : s.caliStatus with
    | CaliSta_None =>
      have h : Cali_Process inp s = s := by unfold Cali_Process; rw [hst]
      rw [h]; exact hinv
    | CaliSta_Middle =>
      have h : Cali_Process inp s = MiddleProc inp s := by unfold Cali_Process; rw [hst]
      rw [h]; exact MiddleProc_inv inp s hin hinv hst
    | CaliSta_Margin =>
      rw [Cali_Process_margin inp s hst]
      exact MarginProc_inv inp s hin hinv hst
  | btnPair evt =>
    show MarginInv (OnBtnPairEvent evt s)
    unfold OnBtnPairEvent
    split_ifs
    · exact ⟨hinv.1, Nat.zero_le _, fun m hm => absurd hm (List.not_mem_nil m),
        fun h => absurd (show CaliStatus.CaliSta_Middle = CaliStatus.CaliSta_Margin from h)
          (by decide)⟩
    · exact hinv
    · exact hinv
  | btnA evt =>
    show MarginInv (OnBtnAEvent crc32 evt s)
    unfold OnBtnAEvent
    split_ifs
    · exact ⟨save_wf crc32 s hinv.1, hinv.2.1, hinv.2.2.1,
        fun h => absurd (show CaliStatus.CaliSta_None = CaliStatus.CaliSta_Margin from h)
          (by decide)⟩
    · exact hinv
    · exact hinv
  | btnY evt =>
    show MarginInv (OnBtnYEvent crc32 evt s)
    unfold OnBtnYEvent
    split_ifs
    · have hwf : ParamsWF (ResetParams s).caliParams := by
        rw [ResetParams_params s hinv.1]
        exact defaultParams_wf _ hinv.1.2.2.2.2.2.2.2.2.2.2.2.2
      exact ⟨save_wf crc32 (ResetParams s) hwf, hinv.2.1, hinv.2.2.1,
        fun h => absurd (show CaliStatus.CaliSta_None = CaliStatus.CaliSta_Margin from h)
          (by decide)⟩
    · exact hinv
    · exact hinv
  | correct stick left =>
    show MarginInv (StickCorrect stick left s).2
    rw [StickCorrect_state]
    exact hinv

theorem reachable12_inv (crc32 : List Nat → Nat) (s : State) (h : Reachable12 crc32 s) :
    MarginInv s := by
  induction h with
  | init flash led => exact Cali_Init_inv crc32 flash led
  | step a s _ ha ih => exact act_inv crc32 a s ha ih

theorem reachable12_runActions (crc32 : List Nat → Nat) (acts : List Action) (s : State)
    (h : Reachable12 crc32 s) (ha : ∀ a ∈ acts, actionAdc12 a) :
    Reachable12 crc32 (runActions crc32 acts s) := by
  induction acts generalizing s with
  | nil => exact h
  | cons a rest ih =>
    have h1 : Reachable12 crc32 (act crc32 a s) :=
      Reachable12.step a s h (ha a (List.mem_cons_self _ _))
    exact ih (act crc32 a s) h1 (fun b hb => ha b (List.mem_cons_of_mem _ hb))

theorem restState_reachable : Reachable12 sumCrc restState :=
  reachable12_runActions sumCrc restActions _ (Reachable12.init [] .PadLedStyle_On) (by decide)

theorem restState_status : restState.caliStatus = .CaliSta_Margin := by decide

/-- C21: in every state the module reaches with 12-bit readings, a poll in
status `CaliSta_Margin` with 12-bit readings leaves each of the 60 left and
each of the 60 right radius entries greater than or equal to its value before
the poll; the truncated square root `StickMarginProc` writes under its three
conditions is never below the entry it replaces. -/
theorem C21_entries_only_grow (crc32 : List Nat → Nat) (s : State) (inp : PollInput)
    (hr : Reachable12 crc32 s) (hst : s.caliStatus = .CaliSta_Margin) (hin : adc12 inp) :
    (∀ i, s.caliParams.leftMag.getD i 0 ≤ (Cali_Process inp s).caliParams.leftMag.getD i 0) ∧
    (∀ i, s.caliParams.rightMag.getD i 0 ≤ (Cali_Process inp s).caliParams.rightMag.getD i 0) ∧
    s.caliParams.leftMag.length = 60 ∧ s.caliParams.rightMag.length = 60 ∧
    (Cali_Process inp s).caliParams.leftMag.length = 60 ∧
    (Cali_Process inp s).caliParams.rightMag.length = 60 ∧
    (∀ (stick : Vector2) (left : Bool), marginCond stick left s.caliParams →
      (selectMag left s.caliParams).getD (marginSector stick left s.caliParams) 0 ≤
        ⌊Real.sqrt (marginSqr stick left s.caliParams)⌋₊) := by
  have hinv := reachable12_inv crc32 s hr
  obtain ⟨hp, _, _, hm⟩ := hinv
  obtain ⟨m1, m2, m3, m4, hl, hrr⟩ := hm hst
  obtain ⟨_, _, _, hgl, hgr⟩ := marginParams_margin inp s.caliParams 5791 (le_refl _)
    (by norm_num) hin ⟨m1, m2, m3, m4⟩ hl hrr
  have hwf := marginParams_wf inp s.caliParams hp
  rw [Cali_Process_margin inp s hst, MarginProc_params]
  exact ⟨hgl, hgr, hp.2.2.2.2.1, hp.2.2.2.2.2.2.1, hwf.2.2.2.2.1, hwf.2.2.2.2.2.2.1,
    fun stick left hc => le_floor_sqrt _ _ hc.2.2⟩

/-- C21 at a concrete input: the calibration started at power-on has settled
after 20 polls at rest, and a further poll with the left stick pushed up does
not lower any left radius entry. -/
theorem C21_entries_only_grow_witness :
    Reachable12 sumCrc restState ∧ restState.caliStatus = .CaliSta_Margin ∧ adc12 pushInput ∧
    (∀ i, restState.caliParams.leftMag.getD i 0 ≤
      (Cali_Process pushInput restState).caliParams.leftMag.getD i 0) :=
  ⟨restState_reachable, restState_status, by decide,
    (C21_entries_only_grow sumCrc restState pushInput restState_reachable restState_status
      (by decide)).1⟩

theorem complete_step (inp : PollInput) (s : State) (hinv : MarginInv s)
    (hst : s.caliStatus = .CaliSta_Margin) (hin : adc12 inp) (hc : complete s.caliParams) :
    complete (marginParams inp s.caliParams) := by
  obtain ⟨hp, _, _, hm⟩ := hinv
  obtain ⟨m1, m2, m3, m4, hl, hrr⟩ := hm hst
  obtain ⟨_, _, _, hgl, hgr⟩ := marginParams_margin inp s.caliParams 5791 (le_refl _)
    (by norm_num) hin ⟨m1, m2, m3, m4⟩ hl hrr
  obtain ⟨c1, c2, c3, c4⟩ := hc
  have ht := marginParams_triggers inp s.caliParams
  have hlh : inp.leftHall < 65536 := by have := hin.2.2.2.2.1; omega
  have hrh : inp.rightHall < 65536 := by have := hin.2.2.2.2.2; omega
  unfold complete
  rw [ht.1, ht.2, max_mod_u16 _ _ hp.2.2.2.2.2.2.2.2.2.1 hlh,
    max_mod_u16 _ _ hp.2.2.2.2.2.2.2.2.2.2.2.1 hrh]
  refine ⟨fun i hi => ?_, fun i hi => ?_, ?_, ?_⟩
  · have h1 := c1 i hi
    have h2 := hgl i
    omega
  · have h1 := c2 i hi
    have h2 := hgr i
    omega
  · exact le_trans c3 (le_max_left _ _)
  · exact le_trans c4 (le_max_left _ _)

/-- C22: if in a state of status `CaliSta_Margin` that satisfies the
invariant of the runs with 12-bit readings all 120 radius entries are non-zero
and both trigger maxima are at least their minima plus 500, then the same
holds at the end of every later poll of the same calibration cycle, for every
sequence of 12-bit readings, and the status stays `CaliSta_Margin`. -/
theorem C22_completeness_stable (inps : List PollInput) (s : State) (hinv : MarginInv s)
    (hst : s.caliStatus = .CaliSta_Margin) (hin : ∀ inp ∈ inps, adc12 inp)
    (hc : complete s.caliParams) :
    complete (runPolls inps s).caliParams ∧
    (runPolls inps s).caliStatus = .CaliSta_Margin := by
  induction inps generalizing s with
  | nil => exact ⟨hc, hst⟩
  | cons inp rest ih =>
    have hinp := hin inp (List.mem_cons_self _ _)
    have hstep : runPolls (inp :: rest) s = runPolls rest (MarginProc inp s) := by
      unfold runPolls
      rw [List.foldl_cons, Cali_Process_margin inp s hst]
    have hst1 : (MarginProc inp s).caliStatus = .CaliSta_Margin := by
      rw [MarginProc_status, hst]
    have hc1 : complete (MarginProc inp s).caliParams := by
      rw [MarginProc_params]
      exact complete_step inp s hinv hst hinp hc
    rw [hstep]
    exact ih (MarginProc inp s) (MarginProc_inv inp s hinp hinv hst) hst1
      (fun i hi => hin i (List.mem_cons_of_mem _ hi)) hc1

/-- C22 at a concrete input: a complete state stays complete over three
further polls. -/
theorem C22_completeness_stable_witness :
    MarginInv completeState ∧ completeState.caliStatus = .CaliSta_Margin ∧
    (∀ inp ∈ risingInputs, adc12 inp) ∧ complete completeState.caliParams ∧
    complete (runPolls risingInputs completeState).caliParams :=
  ⟨by decide, rfl, by decide, by decide,
    (C22_completeness_stable risingInputs completeState (by decide) rfl (by decide)
      (by decide)).1⟩

/-! ## Float arithmetic -/

theorem FVal.lt_fin (x y : ℝ) : FVal.lt (.fin x) (.fin y) ↔ x < y := Iff.rfl

theorem FVal.le_fin (x y : ℝ) : FVal.le (.fin x) (.fin y) ↔ x ≤ y := Iff.rfl

theorem rnd_ne_nan (ops : FloatOps) (x : ℝ) : ops.rnd x ≠ .nan := by
  intro h
  rcases le_total 0 x with h0 | h0
  · have h3 := ops.rnd_mono 0 x h0
    rw [h] at h3
    cases h5 : ops.rnd 0 <;> rw [h5] at h3 <;> exact absurd h3 (by simp only [FVal.le, not_false_eq_true])
  · have h3 := ops.rnd_mono x 0 h0
    rw [h] at h3
    exact absurd h3 (by simp only [FVal.le, not_false_eq_true])

theorem rnd_nat (ops : FloatOps) (k : Nat) (h : k ≤ 2 ^ 24) : ops.rnd (k : ℝ) = .fin (k : ℝ) := by
  have := ops.rnd_int (k : Int) (by rw [abs_of_nonneg (by positivity)]; exact_mod_cast h)
  exact_mod_cast this

theorem rnd_zero (ops : FloatOps) : ops.rnd 0 = .fin 0 := by
  have := rnd_nat ops 0 (by norm_num)
  exact_mod_cast this

theorem rnd_one (ops : FloatOps) : ops.rnd 1 = .fin 1 := by
  have := rnd_nat ops 1 (by norm_num)
  exact_mod_cast this

theorem StickCorrectF_dead (ops : FloatOps) (stick : FVec) (left : Bool) (s : State) (n : FVec)
    (hn : normalizedF ops stick left s.caliParams = some n)
    (h : FVal.lt (normSqrF ops n) (ops.rnd (7 / 1000))) :
    (StickCorrectF ops stick left s).1 = some ⟨.fin 0, .fin 0⟩ := by
  unfold StickCorrectF
  rw [hn]
  dsimp only
  rw [if_pos h]

theorem StickCorrectF_live (ops : FloatOps) (stick : FVec) (left : Bool) (s : State) (n : FVec)
    (hn : normalizedF ops stick left s.caliParams = some n)
    (h : ¬ FVal.lt (normSqrF ops n) (ops.rnd (7 / 1000))) :
    (StickCorrectF ops stick left s).1 = some ⟨scaleClamp ops n.x, scaleClamp ops n.y⟩ := by
  unfold StickCorrectF
  rw [hn]
  dsimp only
  rw [if_neg h]

theorem centeredF_ideal (x y : ℝ) (left : Bool) (p : CaliParams) :
    centeredF idealOps (rawStick x y) left p =
      ⟨.fin (centered ⟨x, y⟩ left p).x, .fin (centered ⟨x, y⟩ left p).y⟩ := by
  unfold centeredF centered rawStick
  cases left
  · simp only [Bool.false_eq_true, if_false]
    show (⟨FVal.fin (x + -(p.rightMidX : ℝ)), FVal.fin (y + -(p.rightMidY : ℝ))⟩ : FVec) = _
    rw [← sub_eq_add_neg, ← sub_eq_add_neg]
  · simp only [if_true]
    show (⟨FVal.fin (x + -(p.leftMidX : ℝ)), FVal.fin (y + -(p.leftMidY : ℝ))⟩ : FVec) = _
    rw [← sub_eq_add_neg, ← sub_eq_add_neg]

theorem sqrMagnitudeF_ideal (x y : ℝ) :
    Vector2_SqrMagnitudeF idealOps ⟨.fin x, .fin y⟩ = .fin (Vector2_SqrMagnitude ⟨x, y⟩) := rfl

theorem magnitudeF_ideal (x y : ℝ) :
    Vector2_MagnitudeF idealOps ⟨.fin x, .fin y⟩ = .fin (Vector2_Magnitude ⟨x, y⟩) := by
  unfold Vector2_MagnitudeF
  rw [sqrMagnitudeF_ideal]
  unfold Vector2_SqrMagnitude Vector2_Magnitude
  show (if x * x + y * y < 0 then FVal.nan else FVal.fin (Real.sqrt (x * x + y * y))) = _
  rw [if_neg (not_lt.mpr (by nlinarith [mul_self_nonneg x, mul_self_nonneg y]))]

theorem clampF_unit (c : ℝ) :
    CL_CLAMPF (.fin c) (.fin (-1)) (.fin 1) = .fin (CL_CLAMP c (-1) 1) := by
  unfold CL_CLAMPF CL_CLAMP
  simp only [FVal.lt_fin, gt_iff_lt]
  split_ifs <;> rfl

theorem clamp_unit_range (c : ℝ) : -1 ≤ CL_CLAMP c (-1) 1 ∧ CL_CLAMP c (-1) 1 ≤ 1 := by
  unfold CL_CLAMP
  split_ifs <;> constructor <;> linarith

theorem GetRadianF_ideal (x y : ℝ) (h : Vector2_Magnitude ⟨x, y⟩ ≠ 0) :
    GetRadianF idealOps ⟨.fin x, .fin y⟩ = .fin (GetRadian ⟨x, y⟩) := by
  unfold GetRadianF GetRadian
  dsimp only
  rw [magnitudeF_ideal]
  have hq : divWith idealOps.rnd (.fin y) (.fin (Vector2_Magnitude ⟨x, y⟩)) =
      .fin (y / Vector2_Magnitude ⟨x, y⟩) := by
    show (if Vector2_Magnitude ⟨x, y⟩ = 0 then _ else FVal.fin (y / Vector2_Magnitude ⟨x, y⟩)) = _
    rw [if_neg h]
  rw [hq, clampF_unit]
  have ha : acosF idealOps (.fin (CL_CLAMP (y / Vector2_Magnitude ⟨x, y⟩) (-1) 1)) =
      .fin (Real.arccos (CL_CLAMP (y / Vector2_Magnitude ⟨x, y⟩) (-1) 1)) := by
    show (if _ then FVal.fin (Real.arccos _) else FVal.nan) = _
    rw [if_pos (clamp_unit_range _)]
  rw [ha]
  by_cases hx : x < 0
  · rw [if_pos (show FVal.lt (.fin x) (.fin 0) from hx), if_pos hx]
    show FVal.fin (Real.pi * 2 + -Real.arccos _) = _
    rw [← sub_eq_add_neg]
  · rw [if_neg (show ¬ FVal.lt (.fin x) (.fin 0) from hx), if_neg hx]

theorem sectorIndexF_ideal (x y : ℝ) (h : Vector2_Magnitude ⟨x, y⟩ ≠ 0) :
    sectorIndexF idealOps ⟨.fin x, .fin y⟩ = .fin (sectorIndex ⟨x, y⟩) := by
  unfold sectorIndexF sectorIndex MAG_LEN
  rw [GetRadianF_ideal x y h]
  have hw : divWith idealOps.rndD (twoPi idealOps) (.fin 60) = .fin (Real.pi * 2 / 60) := by
    show (if (60 : ℝ) = 0 then _ else FVal.fin (Real.pi * 2 / 60)) = _
    rw [if_neg (by norm_num)]
  rw [hw]
  have hne : Real.pi * 2 / 60 ≠ 0 := by
    have := Real.pi_pos
    positivity
  have hd : divWith idealOps.rndD (.fin (GetRadian ⟨x, y⟩)) (.fin (Real.pi * 2 / 60)) =
      .fin (GetRadian ⟨x, y⟩ / (Real.pi * 2 / 60)) := by
    show (if Real.pi * 2 / 60 = 0 then _ else FVal.fin (GetRadian ⟨x, y⟩ / (Real.pi * 2 / 60))) = _
    rw [if_neg hne]
  rw [hd]
  show FVal.fin _ = FVal.fin _
  norm_num

theorem magnitude_ne_zero (x y : ℝ) (h : x ≠ 0 ∨ y ≠ 0) : Vector2_Magnitude ⟨x, y⟩ ≠ 0 := by
  unfold Vector2_Magnitude
  apply ne_of_gt
  apply Real.sqrt_pos.mpr
  rcases h with h | h
  · nlinarith [mul_self_pos.mpr h, mul_self_nonneg y]
  · nlinarith [mul_self_pos.mpr h, mul_self_nonneg x]

theorem divF_ideal (a b : ℝ) (hb : b ≠ 0) : divWith FVal.fin (.fin a) (.fin b) = .fin (a / b) := by
  show (if b = 0 then _ else FVal.fin (a / b)) = _
  rw [if_neg hb]

/-! ## Gain and clamp -/

/-- The quotient of two numbers is a NaN exactly when both are 0. -/
theorem divF_nan_iff (ops : FloatOps) (a m : ℝ) :
    divWith ops.rnd (.fin a) (.fin m) = .nan ↔ m = 0 ∧ a = 0 := by
  show (if m = 0 then (if 0 < a then FVal.pinf else if a < 0 then FVal.ninf else FVal.nan)
    else ops.rnd (a / m)) = FVal.nan ↔ _
  by_cases hm : m = 0
  · rw [if_pos hm]
    by_cases h1 : 0 < a
    · rw [if_pos h1]
      exact ⟨fun h => FVal.noConfusion h, fun h => absurd h.2 (ne_of_gt h1)⟩
    · rw [if_neg h1]
      by_cases h2 : a < 0
      · rw [if_pos h2]
        exact ⟨fun h => FVal.noConfusion h, fun h => absurd h.2 (ne_of_lt h2)⟩
      · rw [if_neg h2]
        exact ⟨fun _ => ⟨hm, le_antisymm (not_lt.mp h1) (not_lt.mp h2)⟩, fun _ => rfl⟩
  · rw [if_neg hm]
    exact ⟨fun h => absurd h (rnd_ne_nan ops _), fun h => absurd h.1 hm⟩

theorem between_of_mono (r : ℝ → FVal) (hm : ∀ x y : ℝ, x ≤ y → FVal.le (r x) (r y))
    (a b x : ℝ) (ha : r a = .fin a) (hb : r b = .fin b) (h1 : a ≤ x) (h2 : x ≤ b) :
    ∃ z, r x = .fin z ∧ a ≤ z ∧ z ≤ b := by
  have h3 := hm a x h1
  have h4 := hm x b h2
  rw [ha] at h3
  rw [hb] at h4
  cases h : r x with
  | fin z =>
    rw [h] at h3 h4
    exact ⟨z, rfl, h3, h4⟩
  | pinf => rw [h] at h4; exact absurd h4 (by simp only [FVal.le, not_false_eq_true])
  | ninf => rw [h] at h3; exact absurd h3 (by simp only [FVal.le, not_false_eq_true])
  | nan => rw [h] at h3; exact absurd h3 (by simp only [FVal.le, not_false_eq_true])

theorem rndD_nat (ops : FloatOps) (k : Nat) (h : k ≤ 2 ^ 24) : ops.rndD (k : ℝ) = .fin (k : ℝ) := by
  have := ops.rndD_int (k : Int) (by rw [abs_of_nonneg (by positivity)]; exact_mod_cast h)
  exact_mod_cast this

/-- The value of `M_PI * 2`: a number between 6 and 8. -/
theorem twoPi_val (ops : FloatOps) : ∃ t, twoPi ops = .fin t ∧ 6 ≤ t ∧ t ≤ 8 := by
  have h6 : ops.rndD 6 = .fin 6 := by
    have := rndD_nat ops 6 (by norm_num)
    exact_mod_cast this
  have h8 : ops.rndD 8 = .fin 8 := by
    have := rndD_nat ops 8 (by norm_num)
    exact_mod_cast this
  have hp := ops.pi_range
  exact between_of_mono ops.rndD ops.rndD_mono 6 8 (ops.pi * 2) h6 h8 (by linarith) (by linarith)

/-- The value of `M_PI * 2 / len`: a number between 1/16 and 1/4. -/
theorem sectorWidth_val (ops : FloatOps) :
    ∃ w, divWith ops.rndD (twoPi ops) (.fin 60) = .fin w ∧ (1 / 2 : ℝ) ^ 4 ≤ w ∧
      w ≤ (1 / 2 : ℝ) ^ 2 := by
  obtain ⟨t, ht, ht6, ht8⟩ := twoPi_val ops
  rw [ht]
  have hd : divWith ops.rndD (.fin t) (.fin 60) = ops.rndD (t / 60) := by
    show (if (60 : ℝ) = 0 then _ else ops.rndD (t / 60)) = _
    rw [if_neg (by norm_num)]
  rw [hd]
  apply between_of_mono ops.rndD ops.rndD_mono _ _ _ (ops.rndD_pow 4 (by norm_num))
    (ops.rndD_pow 2 (by norm_num))
  · rw [le_div_iff₀ (by norm_num)]
    norm_num
    linarith
  · rw [div_le_iff₀ (by norm_num)]
    norm_num
    linarith

theorem clampF_unit_nan (c : FVal) : CL_CLAMPF c (.fin (-1)) (.fin 1) = .nan ↔ c = .nan := by
  unfold CL_CLAMPF
  cases c with
  | fin z =>
    simp only [FVal.lt_fin]
    constructor
    · intro h
      split_ifs at h
    · intro h
      exact FVal.noConfusion h
  | pinf =>
    rw [if_neg (by simp only [FVal.lt, not_false_eq_true]), if_pos (by simp only [FVal.lt])]
    exact ⟨fun h => FVal.noConfusion h, fun h => FVal.noConfusion h⟩
  | ninf =>
    rw [if_pos (by simp only [FVal.lt])]
    exact ⟨fun h => FVal.noConfusion h, fun h => FVal.noConfusion h⟩
  | nan =>
    rw [if_neg (by simp only [FVal.lt, not_false_eq_true]),
      if_neg (by simp only [FVal.lt, not_false_eq_true])]

theorem clampF_unit_val (c : FVal) (h : c ≠ .nan) :
    ∃ z, CL_CLAMPF c (.fin (-1)) (.fin 1) = .fin z ∧ -1 ≤ z ∧ z ≤ 1 := by
  cases c with
  | fin z =>
    rw [clampF_unit]
    exact ⟨_, rfl, clamp_unit_range z⟩
  | pinf =>
    refine ⟨1, ?_, by norm_num, by norm_num⟩
    unfold CL_CLAMPF
    rw [if_neg (by simp only [FVal.lt, not_false_eq_true]), if_pos (by simp only [FVal.lt])]
  | ninf =>
    refine ⟨-1, ?_, by norm_num, by norm_num⟩
    unfold CL_CLAMPF
    rw [if_pos (by simp only [FVal.lt])]
  | nan => exact absurd rfl h

/-- The angle `GetRadian` returns is a NaN when the quotient of the Y
component by the magnitude is one, and else a number between 0 and 8. -/
theorem GetRadianF_cases (ops : FloatOps) (v : FVec) :
    (divWith ops.rnd v.y (Vector2_MagnitudeF ops v) = .nan → GetRadianF ops v = .nan) ∧
    (divWith ops.rnd v.y (Vector2_MagnitudeF ops v) ≠ .nan →
      ∃ g, GetRadianF ops v = .fin g ∧ 0 ≤ g ∧ g ≤ 8) := by
  obtain ⟨t, ht, ht6, ht8⟩ := twoPi_val ops
  constructor
  · intro hq
    unfold GetRadianF
    dsimp only
    rw [hq, (clampF_unit_nan .nan).mpr rfl]
    have ha : acosF ops .nan = .nan := rfl
    rw [ha]
    split_ifs
    · rw [ht]
      rfl
    · rfl
  · intro hq
    obtain ⟨z, hz, hz1, hz2⟩ := clampF_unit_val _ hq
    unfold GetRadianF
    dsimp only
    rw [hz]
    have ha : acosF ops (.fin z) = .fin (ops.acosf z) := by
      show (if -1 ≤ z ∧ z ≤ 1 then FVal.fin (ops.acosf z) else FVal.nan) = _
      rw [if_pos ⟨hz1, hz2⟩]
    rw [ha]
    have hr := ops.acosf_range z
    split_ifs
    · rw [ht]
      have h2 : ops.rndD 2 = .fin 2 := by
        have := rndD_nat ops 2 (by norm_num)
        exact_mod_cast this
      have h8 : ops.rndD 8 = .fin 8 := by
        have := rndD_nat ops 8 (by norm_num)
        exact_mod_cast this
      obtain ⟨d, hd, hd2, hd8⟩ := between_of_mono ops.rndD ops.rndD_mono 2 8 (t + -ops.acosf z)
        h2 h8 (by linarith [hr.2]) (by linarith [hr.1])
      have hs : subWith ops.rndD (.fin t) (.fin (ops.acosf z)) = .fin d := hd
      rw [hs]
      have h2f : ops.rnd 2 = .fin 2 := by
        have := rnd_nat ops 2 (by norm_num)
        exact_mod_cast this
      have h8f : ops.rnd 8 = .fin 8 := by
        have := rnd_nat ops 8 (by norm_num)
        exact_mod_cast this
      obtain ⟨g, hg, hg2, hg8⟩ := between_of_mono ops.rnd ops.rnd_mono 2 8 d h2f h8f hd2 hd8
      exact ⟨g, hg, by linarith, hg8⟩
    · exact ⟨_, rfl, hr.1, by linarith [hr.2]⟩

/-- The fractional sector index is a NaN when the quotient of the Y component
by the magnitude is one, and else a number between 0 and 128. -/
theorem sectorIndexF_cases (ops : FloatOps) (v : FVec) :
    (divWith ops.rnd v.y (Vector2_MagnitudeF ops v) = .nan → sectorIndexF ops v = .nan) ∧
    (divWith ops.rnd v.y (Vector2_MagnitudeF ops v) ≠ .nan →
      ∃ i, sectorIndexF ops v = .fin i ∧ 0 ≤ i ∧ i ≤ 128) := by
  obtain ⟨w, hw, hw1, hw2⟩ := sectorWidth_val ops
  have hw0 : 0 < w := by
    have : (0 : ℝ) < (1 / 2) ^ 4 := by norm_num
    linarith
  constructor
  · intro hq
    unfold sectorIndexF
    rw [(GetRadianF_cases ops v).1 hq, hw]
    rfl
  · intro hq
    obtain ⟨g, hg, hg0, hg8⟩ := (GetRadianF_cases ops v).2 hq
    unfold sectorIndexF
    rw [hg, hw]
    have hd : divWith ops.rndD (.fin g) (.fin w) = ops.rndD (g / w) := by
      show (if w = 0 then _ else ops.rndD (g / w)) = _
      rw [if_neg (ne_of_gt hw0)]
    rw [hd]
    have h0 : ops.rndD 0 = .fin 0 := by
      have := rndD_nat ops 0 (by norm_num)
      exact_mod_cast this
    have h128 : ops.rndD 128 = .fin 128 := by
      have := rndD_nat ops 128 (by norm_num)
      exact_mod_cast this
    have hq1 : 0 ≤ g / w := div_nonneg hg0 hw0.le
    have hq2 : g / w ≤ 128 := by
      rw [div_le_iff₀ hw0]
      have : (1 / 2 : ℝ) ^ 4 = 1 / 16 := by norm_num
      rw [this] at hw1
      linarith
    obtain ⟨d, hd, hd0, hd128⟩ := between_of_mono ops.rndD ops.rndD_mono 0 128 _ h0 h128 hq1 hq2
    rw [hd]
    have h0f : ops.rnd 0 = .fin 0 := rnd_zero ops
    have h128f : ops.rnd 128 = .fin 128 := by
      have := rnd_nat ops 128 (by norm_num)
      exact_mod_cast this
    exact between_of_mono ops.rnd ops.rnd_mono 0 128 d h0f h128f hd0 hd128

theorem tableAt_some (caliMags : List Nat) (k : Int) (h0 : 0 ≤ k) (hlen : caliMags.length = 60) :
    ∃ m, tableAt caliMags k = some m := by
  unfold tableAt MAG_LEN
  have h1 : 0 ≤ Int.tmod k ((60 : Nat) : Int) := by
    rw [Int.tmod_eq_emod h0 (by norm_num)]
    omega
  have hlt : (Int.tmod k ((60 : Nat) : Int)).toNat < caliMags.length := by
    rw [Int.tmod_eq_emod h0 (by norm_num)]
    omega
  rw [if_pos h1, List.getElem?_eq_getElem hlt]
  exact ⟨_, rfl⟩

theorem mulInt_nat (m : Nat) (h : m ≤ 46340) :
    mulInt (m : Int) (m : Int) = some ((m : Int) * (m : Int)) := by
  unfold mulInt
  have h2 : m * m ≤ 46340 * 46340 := Nat.mul_le_mul h h
  have h3 : (m : Int) * (m : Int) = ((m * m : Nat) : Int) := by push_cast; rfl
  rw [if_pos]
  unfold inInt
  rw [h3]
  generalize m * m = x at *
  constructor <;> omega

theorem mulInt_some (m : Nat) (mm : Int) (h : mulInt (m : Int) (m : Int) = some mm) :
    m ≤ 46340 ∧ mm = (m : Int) * (m : Int) := by
  unfold mulInt at h
  by_cases hin : inInt ((m : Int) * (m : Int))
  · rw [if_pos hin] at h
    refine ⟨?_, (Option.some.inj h).symm⟩
    by_contra hlt
    have h1 : 46341 ≤ m := by omega
    have h2 : 46341 * 46341 ≤ m * m := Nat.mul_le_mul h1 h1
    have h3 : (m : Int) * (m : Int) = ((m * m : Nat) : Int) := by push_cast; rfl
    unfold inInt at hin
    rw [h3] at hin
    generalize m * m = x at *
    omega
  · rw [if_neg hin] at h
    exact Option.noConfusion h

theorem tableAt_getD (caliMags : List Nat) (pos : Int) (m : Nat)
    (h : tableAt caliMags pos = some m) :
    (Int.tmod pos (MAG_LEN : Nat)).toNat < caliMags.length ∧
      caliMags.getD (Int.tmod pos (MAG_LEN : Nat)).toNat 0 = m := by
  unfold tableAt at h
  by_cases h0 : 0 ≤ Int.tmod pos (MAG_LEN : Nat)
  · rw [if_pos h0] at h
    have hlt : (Int.tmod pos (MAG_LEN : Nat)).toNat < caliMags.length := by
      by_contra hge
      rw [List.getElem?_eq_none (not_lt.mp hge)] at h
      exact Option.noConfusion h
    refine ⟨hlt, ?_⟩
    rw [List.getElem?_eq_getElem hlt] at h
    rw [List.getD_eq_getElem _ 0 hlt]
    exact Option.some.inj h
  · rw [if_neg h0] at h
    exact Option.noConfusion h

theorem StickMarginProcF_write (ops : FloatOps) (stick : FVec) (left : Bool) (p : CaliParams)
    (pos : Int) (val : Nat) (h : marginWriteF ops stick left p pos val) :
    StickMarginProcF ops stick left p =
      some (storeMag left p (Int.tmod pos (MAG_LEN : Nat)).toNat val) := by
  obtain ⟨h1, h2, h3, m, h4, h5, h6, h7⟩ := h
  unfold marginSqrF at h1 h6 h7
  unfold marginIndexF at h2 h3
  unfold StickMarginProcF
  dsimp only
  rw [if_pos h1, h2, Option.some_bind, if_pos h3, h4, Option.some_bind, mulInt_nat m h5,
    Option.some_bind, if_pos h6, h7, Option.some_bind]

theorem marginWriteF_unique (ops : FloatOps) (stick : FVec) (left : Bool) (p : CaliParams)
    (pos pos2 : Int) (val val2 : Nat) (h : marginWriteF ops stick left p pos val)
    (h2 : marginWriteF ops stick left p pos2 val2) : pos2 = pos ∧ val2 = val := by
  have e1 := StickMarginProcF_write ops stick left p pos val h
  obtain ⟨_, hr, _, _, _, _, _, hv⟩ := h
  obtain ⟨_, hr2, _, _, _, _, _, hv2⟩ := h2
  rw [hr] at hr2
  rw [hv] at hv2
  exact ⟨(Option.some.inj hr2).symm, (Option.some.inj hv2).symm⟩

theorem StickMarginProcF_some (ops : FloatOps) (stick : FVec) (left : Bool) (p q : CaliParams)
    (h : StickMarginProcF ops stick left p = some q) :
    (∃ pos val, marginWriteF ops stick left p pos val ∧
      q = storeMag left p (Int.tmod pos (MAG_LEN : Nat)).toNat val) ∨
    ((¬ ∃ pos val, marginWriteF ops stick left p pos val) ∧ q = p) := by
  unfold StickMarginProcF at h
  dsimp only at h
  by_cases h1 : FVal.lt (.fin 90000) (Vector2_SqrMagnitudeF ops (centeredF ops stick left p))
  · rw [if_pos h1] at h
    cases hr : roundInt (sectorIndexF ops (centeredF ops stick left p)) with
    | none =>
      rw [hr, Option.none_bind] at h
      exact Option.noConfusion h
    | some pos =>
      rw [hr, Option.some_bind] at h
      by_cases h3 : FLOAT_NEARF ops (sectorIndexF ops (centeredF ops stick left p))
          (ops.rnd (pos : ℝ)) (ops.rnd (1 / 10))
      · rw [if_pos h3] at h
        cases ht : tableAt (selectMag left p) pos with
        | none =>
          rw [ht, Option.none_bind] at h
          exact Option.noConfusion h
        | some m =>
          rw [ht, Option.some_bind] at h
          cases hmm : mulInt (m : Int) (m : Int) with
          | none =>
            rw [hmm, Option.none_bind] at h
            exact Option.noConfusion h
          | some mm =>
            rw [hmm, Option.some_bind] at h
            obtain ⟨hm, hmm2⟩ := mulInt_some m mm hmm
            by_cases h6 : FVal.lt (ops.rnd (mm : ℝ))
                (Vector2_SqrMagnitudeF ops (centeredF ops stick left p))
            · rw [if_pos h6] at h
              cases hv : toU16 (sqrtF ops (Vector2_SqrMagnitudeF ops (centeredF ops stick left p)))
                with
              | none =>
                rw [hv, Option.none_bind] at h
                exact Option.noConfusion h
              | some val =>
                rw [hv, Option.some_bind] at h
                left
                refine ⟨pos, val, ⟨h1, hr, h3, m, ht, hm, ?_, hv⟩, (Option.some.inj h).symm⟩
                rw [← hmm2]
                exact h6
            · rw [if_neg h6] at h
              right
              refine ⟨?_, (Option.some.inj h).symm⟩
              rintro ⟨pos2, val2, _, hr2, _, m2, ht2, _, h62, _⟩
              unfold marginIndexF at hr2
              rw [hr] at hr2
              have hp : pos2 = pos := (Option.some.inj hr2).symm
              subst hp
              rw [ht] at ht2
              have hm2 : m2 = m := (Option.some.inj ht2).symm
              subst hm2
              rw [← hmm2] at h62
              exact h6 h62
      · rw [if_neg h3] at h
        right
        refine ⟨?_, (Option.some.inj h).symm⟩
        rintro ⟨pos2, val2, _, hr2, h32, _⟩
        unfold marginIndexF at hr2 h32
        rw [hr] at hr2
        have hp : pos2 = pos := (Option.some.inj hr2).symm
        subst hp
        exact h3 h32
  · rw [if_neg h1] at h
    right
    refine ⟨?_, (Option.some.inj h).symm⟩
    rintro ⟨pos2, val2, h12, _⟩
    exact h1 h12

theorem marginWriteF_index (ops : FloatOps) (stick : FVec) (left : Bool) (p : CaliParams)
    (pos : Int) (val : Nat) (h : marginWriteF ops stick left p pos val) :
    (Int.tmod pos (MAG_LEN : Nat)).toNat < (selectMag left p).length := by
  obtain ⟨_, _, _, m, h4, _⟩ := h
  exact (tableAt_getD _ _ _ h4).1

/-! ## The float functions on 12-bit readings -/

theorem sub_reading (ops : FloatOps) (a m : Nat) (ha : a ≤ 4095) (hm : m ≤ 4095) :
    subWith ops.rnd (.fin (a : ℝ)) (ops.rnd (m : ℝ)) = .fin (((a : Int) - (m : Int) : Int) : ℝ) := by
  rw [rnd_nat ops m (by omega)]
  show ops.rnd ((a : ℝ) + -(m : ℝ)) = _
  have h : (a : ℝ) + -(m : ℝ) = (((a : Int) - (m : Int) : Int) : ℝ) := by
    push_cast
    ring
  rw [h]
  exact ops.rnd_int _ (by rw [abs_le]; constructor <;> omega)

/-- The center-relative vector of a sample of two 12-bit readings against a
12-bit center: the two integer differences, without a rounding error. -/
theorem centeredF_reading (ops : FloatOps) (left : Bool) (p : CaliParams) (x y mx my : Nat)
    (hmid : selectMid left p = (mx, my)) (hx : x ≤ 4095) (hy : y ≤ 4095) (hmx : mx ≤ 4095)
    (hmy : my ≤ 4095) :
    centeredF ops ⟨.fin (x : ℝ), .fin (y : ℝ)⟩ left p =
      ⟨.fin (((x : Int) - (mx : Int) : Int) : ℝ), .fin (((y : Int) - (my : Int) : Int) : ℝ)⟩ := by
  unfold selectMid at hmid
  unfold centeredF
  cases left
  · simp only [Bool.false_eq_true, if_false, Prod.mk.injEq] at hmid ⊢
    rw [hmid.1, hmid.2, sub_reading ops x mx hx hmx, sub_reading ops y my hy hmy]
  · simp only [if_true, Prod.mk.injEq] at hmid ⊢
    rw [hmid.1, hmid.2, sub_reading ops x mx hx hmx, sub_reading ops y my hy hmy]

theorem sq_reading (ops : FloatOps) (a : Int) (ha : |a| ≤ 4095) :
    mulWith ops.rnd (.fin (a : ℝ)) (.fin (a : ℝ)) = .fin ((a * a : Int) : ℝ) := by
  show ops.rnd ((a : ℝ) * (a : ℝ)) = _
  have h : (a : ℝ) * (a : ℝ) = ((a * a : Int) : ℝ) := by push_cast; rfl
  rw [h]
  apply ops.rnd_int
  rw [abs_mul]
  have h0 := abs_nonneg a
  have h2 : |a| * |a| ≤ 4095 * 4095 := mul_le_mul ha ha h0 (by norm_num)
  omega

/-- The squared magnitude of a vector of two integers of absolute value at
most 4095 is a number between 0 and 2^26, and at least 1 unless both are 0. -/
theorem sqrMagnitudeF_reading (ops : FloatOps) (a b : Int) (ha : |a| ≤ 4095) (hb : |b| ≤ 4095) :
    ∃ t : ℝ, Vector2_SqrMagnitudeF ops ⟨.fin (a : ℝ), .fin (b : ℝ)⟩ = .fin t ∧ 0 ≤ t ∧
      t ≤ 2 ^ 26 ∧ ((a ≠ 0 ∨ b ≠ 0) → 1 ≤ t) := by
  unfold Vector2_SqrMagnitudeF
  dsimp only
  rw [sq_reading ops a ha, sq_reading ops b hb]
  show ∃ t : ℝ, ops.rnd (((a * a : Int) : ℝ) + ((b * b : Int) : ℝ)) = .fin t ∧ _
  have ha2 : 0 ≤ a * a := mul_self_nonneg a
  have hb2 : 0 ≤ b * b := mul_self_nonneg b
  have ha3 : a * a ≤ 4095 * 4095 := by
    have := mul_le_mul ha ha (abs_nonneg a) (by norm_num : (0 : Int) ≤ 4095)
    rw [abs_mul_abs_self] at this
    exact this
  have hb3 : b * b ≤ 4095 * 4095 := by
    have := mul_le_mul hb hb (abs_nonneg b) (by norm_num : (0 : Int) ≤ 4095)
    rw [abs_mul_abs_self] at this
    exact this
  have hsum0 : (0 : ℝ) ≤ ((a * a : Int) : ℝ) + ((b * b : Int) : ℝ) := by
    have h1 : (0 : ℝ) ≤ ((a * a : Int) : ℝ) := by exact_mod_cast ha2
    have h2 : (0 : ℝ) ≤ ((b * b : Int) : ℝ) := by exact_mod_cast hb2
    linarith
  have hsum1 : ((a * a : Int) : ℝ) + ((b * b : Int) : ℝ) ≤ 2 ^ 26 := by
    have h1 : ((a * a : Int) : ℝ) ≤ 4095 * 4095 := by exact_mod_cast ha3
    have h2 : ((b * b : Int) : ℝ) ≤ 4095 * 4095 := by exact_mod_cast hb3
    norm_num at h1 h2 ⊢
    linarith
  obtain ⟨t, ht, ht0, ht1⟩ := between_of_mono ops.rnd ops.rnd_mono 0 (2 ^ 26) _ (rnd_zero ops)
    (ops.rnd_two_pow 26 (by norm_num)) hsum0 hsum1
  refine ⟨t, ht, ht0, ht1, ?_⟩
  intro hne
  have hpos : (1 : ℝ) ≤ ((a * a : Int) : ℝ) + ((b * b : Int) : ℝ) := by
    have h3 : 1 ≤ a * a + b * b := by
      rcases hne with h | h
      · have := mul_self_pos.mpr h
        omega
      · have := mul_self_pos.mpr h
        omega
    exact_mod_cast h3
  have := ops.rnd_mono _ _ hpos
  rw [rnd_one, ht, FVal.le_fin] at this
  exact this

theorem sqrtF_reading (ops : FloatOps) (t : ℝ) (h1 : 1 ≤ t) (h2 : t ≤ 2 ^ 26) :
    sqrtF ops (.fin t) = .fin (ops.sqrtf t) ∧ 1 ≤ ops.sqrtf t ∧ ops.sqrtf t ≤ 8192 := by
  refine ⟨?_, ?_, ?_⟩
  · show (if t < 0 then FVal.nan else FVal.fin (ops.sqrtf t)) = _
    rw [if_neg (by linarith)]
  · have h := ops.sqrtf_mono ((4 : ℝ) ^ 0) t (by norm_num) (by norm_num; exact h1)
    rw [ops.sqrtf_pow 0 (by norm_num)] at h
    norm_num at h
    exact h
  · have h := ops.sqrtf_mono t ((4 : ℝ) ^ 13) (by linarith) (by norm_num at h2 ⊢; exact h2)
    rw [ops.sqrtf_pow 13 (by norm_num)] at h
    norm_num at h
    exact h

theorem roundInt_index (i : ℝ) (h0 : 0 ≤ i) (h1 : i ≤ 128) :
    roundInt (.fin i) = some (roundf i) ∧ 0 ≤ roundf i := by
  have hr : roundf i = round i := roundf_eq_round i h0
  have hk0 : 0 ≤ roundf i := by
    rw [hr]
    exact round_nonneg_of_nonneg i h0
  have hk1 : roundf i ≤ 129 := by
    rw [hr, round_eq]
    have h2 : ((⌊i + 1 / 2⌋ : Int) : ℝ) ≤ 129 := le_trans (Int.floor_le _) (by linarith)
    exact_mod_cast h2
  refine ⟨?_, hk0⟩
  show (if inInt (roundf i) then some (roundf i) else none) = _
  rw [if_pos (by unfold inInt; constructor <;> omega)]

/-- On 12-bit readings, 12-bit centers and tables of 60 entries none of which
exceeds 46340, `StickMarginProc` has no undefined behaviour. -/
theorem StickMarginProcF_reading (ops : FloatOps) (left : Bool) (p : CaliParams)
    (x y mx my : Nat) (hmid : selectMid left p = (mx, my)) (hx : x ≤ 4095) (hy : y ≤ 4095)
    (hmx : mx ≤ 4095) (hmy : my ≤ 4095) (hlen : (selectMag left p).length = 60)
    (hent : ∀ m ∈ selectMag left p, m ≤ 46340) :
    ∃ q, StickMarginProcF ops ⟨.fin (x : ℝ), .fin (y : ℝ)⟩ left p = some q := by
  have hc := centeredF_reading ops left p x y mx my hmid hx hy hmx hmy
  have ha : |(x : Int) - (mx : Int)| ≤ 4095 := by rw [abs_le]; constructor <;> omega
  have hb : |(y : Int) - (my : Int)| ≤ 4095 := by rw [abs_le]; constructor <;> omega
  obtain ⟨t, ht, ht0, ht1, ht2⟩ := sqrMagnitudeF_reading ops _ _ ha hb
  unfold StickMarginProcF
  dsimp only
  rw [hc, ht]
  by_cases h1 : FVal.lt (.fin 90000) (.fin t)
  · rw [if_pos h1]
    have h90 : (90000 : ℝ) < t := h1
    obtain ⟨hs, hs1, hs2⟩ := sqrtF_reading ops t (by linarith) ht1
    have hq : divWith ops.rnd
        (FVec.mk (.fin (((x : Int) - (mx : Int) : Int) : ℝ))
          (.fin (((y : Int) - (my : Int) : Int) : ℝ))).y
        (Vector2_MagnitudeF ops ⟨.fin (((x : Int) - (mx : Int) : Int) : ℝ),
          .fin (((y : Int) - (my : Int) : Int) : ℝ)⟩) ≠ .nan := by
      unfold Vector2_MagnitudeF
      rw [ht, hs]
      intro h
      have := (divF_nan_iff ops _ _).mp h
      linarith [this.1]
    obtain ⟨i, hi, hi0, hi1⟩ := (sectorIndexF_cases ops _).2 hq
    rw [hi, (roundInt_index i hi0 hi1).1, Option.some_bind]
    split_ifs with hnear
    · obtain ⟨m, hm⟩ := tableAt_some (selectMag left p) (roundf i) (roundInt_index i hi0 hi1).2
        hlen
      have hm2 : m ≤ 46340 := by
        rw [← (tableAt_getD _ _ _ hm).2]
        exact getD_le_of_forall _ _ _ hent
      rw [hm, Option.some_bind, mulInt_nat m hm2, Option.some_bind]
      split_ifs with hgt
      · have hu : toU16 (sqrtF ops (.fin t)) = some ⌊ops.sqrtf t⌋₊ := by
          rw [hs]
          show (if -1 < ops.sqrtf t ∧ ops.sqrtf t < 65536 then some ⌊ops.sqrtf t⌋₊ else none) = _
          rw [if_pos ⟨by linarith, by linarith⟩]
        rw [hu, Option.some_bind]
        exact ⟨_, rfl⟩
      · exact ⟨_, rfl⟩
    · exact ⟨_, rfl⟩
  · rw [if_neg h1]
    exact ⟨_, rfl⟩

/-! ## The stick correction reads only -/

/-- C10, as amended: on the values the code computes in `float`,
`StickMarginProc` writes the selected table if and only if the center-relative
squared magnitude exceeds 90000, the fractional sector index differs from its
nearest integer `pos` by less than `0.1f`, and the squared magnitude exceeds
the square of the entry of sector `pos % 60`; the write sets exactly that
entry to `sqrtf` of the squared magnitude truncated to an integer, every other
entry of both tables and every other field is unchanged, and the table differs
afterwards exactly when, in addition, the value written is not the old entry;
on 12-bit readings, 12-bit centers and tables of 60 entries up to 46340 the
function has no undefined behaviour. -/
theorem C10_sector_update_rule (ops : FloatOps) (stick : FVec) (left : Bool) (p : CaliParams) :
    (∀ pos val, marginWriteF ops stick left p pos val →
      StickMarginProcF ops stick left p =
        some (storeMag left p (Int.tmod pos (MAG_LEN : Nat)).toNat val)) ∧
    (∀ q, StickMarginProcF ops stick left p = some q →
      (∃ pos val, marginWriteF ops stick left p pos val ∧
        q = storeMag left p (Int.tmod pos (MAG_LEN : Nat)).toNat val) ∨
      ((¬ ∃ pos val, marginWriteF ops stick left p pos val) ∧ q = p)) ∧
    (∀ q, StickMarginProcF ops stick left p = some q →
      (selectMag left q ≠ selectMag left p ↔
        ∃ pos val, marginWriteF ops stick left p pos val ∧
          val ≠ (selectMag left p).getD (Int.tmod pos (MAG_LEN : Nat)).toNat 0)) ∧
    (∀ q, StickMarginProcF ops stick left p = some q →
      ∀ pos val, marginWriteF ops stick left p pos val →
        ∀ j, j ≠ (Int.tmod pos (MAG_LEN : Nat)).toNat →
          (selectMag left q).getD j 0 = (selectMag left p).getD j 0) ∧
    (∀ q, StickMarginProcF ops stick left p = some q →
      selectMag (!left) q = selectMag (!left) p) ∧
    (∀ x y mx my : Nat, selectMid left p = (mx, my) → x ≤ 4095 → y ≤ 4095 → mx ≤ 4095 →
      my ≤ 4095 → (selectMag left p).length = 60 → (∀ m ∈ selectMag left p, m ≤ 46340) →
      ∃ q, StickMarginProcF ops ⟨.fin (x : ℝ), .fin (y : ℝ)⟩ left p = some q) := by
  refine ⟨StickMarginProcF_write ops stick left p, StickMarginProcF_some ops stick left p,
    ?_, ?_, ?_, ?_⟩
  · intro q hq
    constructor
    · intro hne
      rcases StickMarginProcF_some ops stick left p q hq with ⟨pos, val, hw, rfl⟩ | ⟨_, rfl⟩
      · refine ⟨pos, val, hw, ?_⟩
        rw [selectMag_storeMag, set_ne_iff _ _ _ (marginWriteF_index ops stick left p pos val hw)]
          at hne
        exact hne
      · exact absurd rfl hne
    · rintro ⟨pos, val, hw, hv⟩
      have h1 := StickMarginProcF_write ops stick left p pos val hw
      rw [hq] at h1
      rw [Option.some.inj h1, selectMag_storeMag,
        set_ne_iff _ _ _ (marginWriteF_index ops stick left p pos val hw)]
      exact hv
  · intro q hq pos val hw j hj
    have h1 := StickMarginProcF_write ops stick left p pos val hw
    rw [hq] at h1
    rw [Option.some.inj h1, selectMag_storeMag]
    simp only [List.getD_eq_getElem?_getD, List.getElem?_set_ne (Ne.symm hj)]
  · intro q hq
    rcases StickMarginProcF_some ops stick left p q hq with ⟨pos, val, _, rfl⟩ | ⟨_, rfl⟩
    · rw [selectMag_storeMag_other]
    · rfl
  · intro x y mx my hmid hx hy hmx hmy hlen hent
    exact StickMarginProcF_reading ops left p x y mx my hmid hx hy hmx hmy hlen hent

theorem marginSqrF_ideal (x y : ℝ) (left : Bool) (p : CaliParams) :
    marginSqrF idealOps (rawStick x y) left p = .fin (marginSqr ⟨x, y⟩ left p) := by
  unfold marginSqrF marginSqr
  rw [centeredF_ideal, sqrMagnitudeF_ideal]

theorem marginIndexF_ideal (x y : ℝ) (left : Bool) (p : CaliParams)
    (h : 0 < marginSqr ⟨x, y⟩ left p) :
    marginIndexF idealOps (rawStick x y) left p = .fin (marginIndex ⟨x, y⟩ left p) := by
  unfold marginIndexF marginIndex
  rw [centeredF_ideal, sectorIndexF_ideal]
  unfold marginSqr Vector2_SqrMagnitude at h
  unfold Vector2_Magnitude
  exact ne_of_gt (Real.sqrt_pos.mpr h)

/-- The conditions of the update rule in the arithmetic without rounding
errors, from their counterparts on real numbers. -/
theorem marginWriteF_ideal (x y : ℝ) (left : Bool) (p : CaliParams) (m val : Nat)
    (h1 : 90000 < marginSqr ⟨x, y⟩ left p)
    (h2 : 0 ≤ marginIndex ⟨x, y⟩ left p) (h3 : marginIndex ⟨x, y⟩ left p < 1 / 10)
    (h4 : tableAt (selectMag left p) 0 = some m) (h5 : m ≤ 46340)
    (h6 : ((m : ℝ)) * (m : ℝ) < marginSqr ⟨x, y⟩ left p)
    (h7 : ⌊Real.sqrt (marginSqr ⟨x, y⟩ left p)⌋₊ = val) (h8 : marginSqr ⟨x, y⟩ left p < 65536 ^ 2) :
    marginWriteF idealOps (rawStick x y) left p 0 val := by
  have hround : roundf (marginIndex ⟨x, y⟩ left p) = 0 := by
    rw [roundf_eq_round _ h2, round_eq_zero_of_small _ h2 h3]
  unfold marginWriteF
  rw [marginSqrF_ideal, marginIndexF_ideal x y left p (by linarith)]
  refine ⟨h1, ?_, ?_, m, h4, h5, ?_, ?_⟩
  · show (if inInt (roundf (marginIndex ⟨x, y⟩ left p)) then
      some (roundf (marginIndex ⟨x, y⟩ left p)) else none) = some 0
    rw [hround, if_pos (by decide)]
  · show |marginIndex ⟨x, y⟩ left p + -((0 : Int) : ℝ)| < 1 / 10
    rw [Int.cast_zero, neg_zero, add_zero, abs_of_nonneg h2]
    exact h3
  · show (((m : Int) * (m : Int) : Int) : ℝ) < marginSqr ⟨x, y⟩ left p
    push_cast
    exact h6
  · have hs0 := Real.sqrt_nonneg (marginSqr ⟨x, y⟩ left p)
    have hs1 : Real.sqrt (marginSqr ⟨x, y⟩ left p) < 65536 := by
      rw [Real.sqrt_lt' (by norm_num)]
      exact h8
    show toU16 (if marginSqr ⟨x, y⟩ left p < 0 then FVal.nan
      else FVal.fin (Real.sqrt (marginSqr ⟨x, y⟩ left p))) = _
    rw [if_neg (by linarith)]
    show (if -1 < Real.sqrt (marginSqr ⟨x, y⟩ left p) ∧
      Real.sqrt (marginSqr ⟨x, y⟩ left p) < 65536 then
        some ⌊Real.sqrt (marginSqr ⟨x, y⟩ left p)⌋₊ else none) = _
    rw [if_pos ⟨by linarith, hs1⟩, h7]

/-- C10 fails as stated: in the arithmetic without rounding errors, with
sector 0 of the left table at 400 and the left stick one unit right of and 400
units above its center, the squared magnitude 160001 exceeds 90000 and 400
squared and the fractional sector index is within 0.1 of 0, yet the entry
written is 400 again and the table is not changed. -/
theorem C10_sector_update_rule_counterexample :
    marginWriteF idealOps (rawStick 2049 2448) true nearParams 0 400 ∧
    ∃ q, StickMarginProcF idealOps (rawStick 2049 2448) true nearParams = some q ∧
      selectMag true q = selectMag true nearParams := by
  have hw : marginWriteF idealOps (rawStick 2049 2448) true nearParams 0 400 :=
    marginWriteF_ideal 2049 2448 true nearParams 400 400
      (by have := nearStick_sqr; unfold nearStick at this; rw [this]; norm_num)
      nearStick_index.1 nearStick_index.2 (by decide) (by norm_num)
      (by have := nearStick_sqr; unfold nearStick at this; rw [this]; norm_num)
      (by have := nearStick_sqr; unfold nearStick at this; rw [this]; exact floor_sqrt_160001)
      (by have := nearStick_sqr; unfold nearStick at this; rw [this]; norm_num)
  refine ⟨hw, _, StickMarginProcF_write idealOps _ true nearParams 0 400 hw, ?_⟩
  decide

/-- C10 at a concrete input, in the arithmetic without rounding errors: with
sector 0 of the left table at 400, a left stick 500 units above its center
meets the conditions and sector 0 becomes 500. -/
theorem C10_sector_update_rule_witness :
    marginWriteF idealOps (rawStick 2048 2548) true nearParams 0 500 ∧
    StickMarginProcF idealOps (rawStick 2048 2548) true nearParams =
      some (storeMag true nearParams 0 500) := by
  have hw : marginWriteF idealOps (rawStick 2048 2548) true nearParams 0 500 :=
    marginWriteF_ideal 2048 2548 true nearParams 400 500
      (by have := upStick_sqr; unfold upStick at this; rw [this]; norm_num)
      (by have := upStick_index; unfold upStick at this; rw [this])
      (by have := upStick_index; unfold upStick at this; rw [this]; norm_num)
      (by decide) (by norm_num)
      (by have := upStick_sqr; unfold upStick at this; rw [this]; norm_num)
      (by have := upStick_sqr; unfold upStick at this; rw [this]; exact floor_sqrt_250000)
      (by have := upStick_sqr; unfold upStick at this; rw [this]; norm_num)
  exact ⟨hw, (C10_sector_update_rule idealOps (rawStick 2048 2548) true nearParams).1 0 500 hw⟩

/-! ## A table of zeros -/

theorem tableAt_eq_getD (caliMags : List Nat) (k : Int) (h0 : 0 ≤ k) (hlen : caliMags.length = 60) :
    tableAt caliMags k = some (caliMags.getD (Int.tmod k ((MAG_LEN : Nat) : Int)).toNat 0) := by
  obtain ⟨m, hm⟩ := tableAt_some caliMags k h0 hlen
  rw [hm, (tableAt_getD caliMags k m hm).2]

theorem clampF_output (z : ℝ) :
    CL_CLAMPF (.fin z) (.fin (-32767)) (.fin 32767) = .fin (CL_CLAMP z (-32767) 32767) := by
  unfold CL_CLAMPF CL_CLAMP
  simp only [FVal.lt_fin, gt_iff_lt]
  split_ifs <;> rfl

/-- Without rounding errors, on tables of 60 entries none of which exceeds
46340 and for a squared magnitude below 65536 squared, `StickMarginProcF` is
defined and is `StickMarginProc`. -/
theorem StickMarginProcF_ideal (x y : ℝ) (left : Bool) (p : CaliParams)
    (hlen : (selectMag left p).length = 60) (hent : ∀ m ∈ selectMag left p, m ≤ 46340)
    (hfit : marginSqr ⟨x, y⟩ left p < 65536 ^ 2) :
    StickMarginProcF idealOps (rawStick x y) left p = some (StickMarginProc ⟨x, y⟩ left p) := by
  have hsq : Vector2_SqrMagnitudeF idealOps (centeredF idealOps (rawStick x y) left p) =
      .fin (marginSqr ⟨x, y⟩ left p) := marginSqrF_ideal x y left p
  rw [StickMarginProc_eq]
  unfold StickMarginProcF
  dsimp only
  rw [hsq]
  by_cases h1 : marginSqr ⟨x, y⟩ left p > 90000
  · rw [if_pos (show FVal.lt (.fin 90000) (.fin (marginSqr ⟨x, y⟩ left p)) from h1), if_pos h1]
    have hidx : sectorIndexF idealOps (centeredF idealOps (rawStick x y) left p) =
        .fin (marginIndex ⟨x, y⟩ left p) :=
      marginIndexF_ideal x y left p (by linarith)
    rw [hidx]
    have hi0 : 0 ≤ marginIndex ⟨x, y⟩ left p := sectorIndex_nonneg _
    have hi60 : marginIndex ⟨x, y⟩ left p ≤ 60 := sectorIndex_le _
    have hround : roundf (marginIndex ⟨x, y⟩ left p) = round (marginIndex ⟨x, y⟩ left p) :=
      roundf_eq_round _ hi0
    have hk0 : 0 ≤ roundf (marginIndex ⟨x, y⟩ left p) := by
      rw [hround]
      exact round_nonneg_of_nonneg _ hi0
    have hk1 : roundf (marginIndex ⟨x, y⟩ left p) ≤ 61 := by
      rw [hround, round_eq]
      have h2 : ((⌊marginIndex ⟨x, y⟩ left p + 1 / 2⌋ : Int) : ℝ) ≤ 61 :=
        le_trans (Int.floor_le _) (by linarith)
      exact_mod_cast h2
    have hkin : inInt (roundf (marginIndex ⟨x, y⟩ left p)) := by
      unfold inInt
      constructor <;> omega
    have hr : roundInt (.fin (marginIndex ⟨x, y⟩ left p)) =
        some (roundf (marginIndex ⟨x, y⟩ left p)) := by
      show (if inInt (roundf (marginIndex ⟨x, y⟩ left p)) then
        some (roundf (marginIndex ⟨x, y⟩ left p)) else none) = _
      rw [if_pos hkin]
    rw [hr, Option.some_bind]
    have hnear : FLOAT_NEARF idealOps (.fin (marginIndex ⟨x, y⟩ left p))
        (idealOps.rnd ((roundf (marginIndex ⟨x, y⟩ left p) : Int) : ℝ)) (idealOps.rnd (1 / 10)) ↔
        FLOAT_NEAR (marginIndex ⟨x, y⟩ left p) (roundf (marginIndex ⟨x, y⟩ left p)) (1 / 10) := by
      show |marginIndex ⟨x, y⟩ left p + -((roundf (marginIndex ⟨x, y⟩ left p) : Int) : ℝ)| <
        1 / 10 ↔ |marginIndex ⟨x, y⟩ left p - (roundf (marginIndex ⟨x, y⟩ left p) : ℝ)| < 1 / 10
      rw [sub_eq_add_neg]
    by_cases h2 : FLOAT_NEAR (marginIndex ⟨x, y⟩ left p)
        (roundf (marginIndex ⟨x, y⟩ left p)) (1 / 10)
    · rw [if_pos (hnear.mpr h2), if_pos h2, tableAt_eq_getD _ _ hk0 hlen, Option.some_bind]
      have hm : (selectMag left p).getD
          (Int.tmod (roundf (marginIndex ⟨x, y⟩ left p)) ((MAG_LEN : Nat) : Int)).toNat 0 ≤ 46340 :=
        getD_le_of_forall _ _ _ hent
      rw [mulInt_nat _ hm, Option.some_bind, mulInt32_small _ hm]
      generalize (selectMag left p).getD
        (Int.tmod (roundf (marginIndex ⟨x, y⟩ left p)) ((MAG_LEN : Nat) : Int)).toNat 0 = m
      have hcast : (((m : Int) * (m : Int) : Int) : ℝ) = (((m * m : Nat) : Int) : ℝ) := by
        push_cast
        ring
      have htou : toU16 (sqrtF idealOps (.fin (marginSqr ⟨x, y⟩ left p))) =
          some ⌊Real.sqrt (marginSqr ⟨x, y⟩ left p)⌋₊ := by
        have hs0 := Real.sqrt_nonneg (marginSqr ⟨x, y⟩ left p)
        have hs1 : Real.sqrt (marginSqr ⟨x, y⟩ left p) < 65536 := by
          rw [Real.sqrt_lt' (by norm_num)]
          exact hfit
        show toU16 (if marginSqr ⟨x, y⟩ left p < 0 then FVal.nan
          else FVal.fin (Real.sqrt (marginSqr ⟨x, y⟩ left p))) = _
        rw [if_neg (by linarith)]
        show (if -1 < Real.sqrt (marginSqr ⟨x, y⟩ left p) ∧
          Real.sqrt (marginSqr ⟨x, y⟩ left p) < 65536 then
            some ⌊Real.sqrt (marginSqr ⟨x, y⟩ left p)⌋₊ else none) = _
        rw [if_pos ⟨by linarith, hs1⟩]
      by_cases h3 : marginSqr ⟨x, y⟩ left p > (((m * m : Nat) : Int) : ℝ)
      · rw [if_pos (show FVal.lt (idealOps.rnd (((m : Int) * (m : Int) : Int) : ℝ))
          (.fin (marginSqr ⟨x, y⟩ left p)) from (by
            show (((m : Int) * (m : Int) : Int) : ℝ) < marginSqr ⟨x, y⟩ left p
            rw [hcast]
            exact h3)), if_pos h3, htou, Option.some_bind, floor_sqrt_mod _ hfit]
      · rw [if_neg (show ¬ FVal.lt (idealOps.rnd (((m : Int) * (m : Int) : Int) : ℝ))
          (.fin (marginSqr ⟨x, y⟩ left p)) from (by
            show ¬ (((m : Int) * (m : Int) : Int) : ℝ) < marginSqr ⟨x, y⟩ left p
            rw [hcast]
            exact h3)), if_neg h3]
    · rw [if_neg (fun h => h2 (hnear.mp h)), if_neg h2]
  · rw [if_neg (show ¬ FVal.lt (.fin 90000) (.fin (marginSqr ⟨x, y⟩ left p)) from h1), if_neg h1]

theorem interpMagF_ideal (caliMags : List Nat) (r : ℝ) (h0 : 0 ≤ r) (h1 : r ≤ 60)
    (hlen : caliMags.length = 60) :
    interpMagF idealOps caliMags (.fin r) = some (.fin (interpMag caliMags r)) := by
  have hf0 : 0 ≤ ⌊r⌋ := Int.floor_nonneg.mpr h0
  have hf1 : ⌊r⌋ ≤ 60 := by
    have h2 : ((⌊r⌋ : Int) : ℝ) ≤ 60 := le_trans (Int.floor_le r) h1
    exact_mod_cast h2
  have hc0 : 0 ≤ ⌈r⌉ := Int.ceil_nonneg h0
  have hc1 : ⌈r⌉ ≤ 60 := by
    apply Int.ceil_le.mpr
    exact_mod_cast h1
  have hfl : floorInt (.fin r) = some ⌊r⌋ := by
    show (if inInt ⌊r⌋ then some ⌊r⌋ else none) = _
    rw [if_pos (by unfold inInt; constructor <;> omega)]
  have hce : ceilInt (.fin r) = some ⌈r⌉ := by
    show (if inInt ⌈r⌉ then some ⌈r⌉ else none) = _
    rw [if_pos (by unfold inInt; constructor <;> omega)]
  unfold interpMagF interpMag magAt
  rw [hfl, hce]
  dsimp only
  split_ifs
  · rw [tableAt_eq_getD _ _ hf0 hlen]
    rfl
  · rw [tableAt_eq_getD _ _ hc0 hlen, tableAt_eq_getD _ _ hf0 hlen]
    dsimp only
    show some (FVal.fin ((r + -((⌊r⌋ : Int) : ℝ)) * _ + (((⌈r⌉ : Int) : ℝ) + -r) * _)) = _
    rw [← sub_eq_add_neg, ← sub_eq_add_neg]

/-- Without rounding errors, over a table of 60 entries, for a stick off the
center and an interpolated radius that is not 0, `StickCorrectF` is defined
and leaves the vector of `StickCorrect`. -/
theorem StickCorrectF_ideal (x y : ℝ) (left : Bool) (s : State)
    (hlen : (selectMag left s.caliParams).length = 60)
    (hv : (centered ⟨x, y⟩ left s.caliParams).x ≠ 0 ∨ (centered ⟨x, y⟩ left s.caliParams).y ≠ 0)
    (hmag : interpMag (selectMag left s.caliParams)
      (sectorIndex (centered ⟨x, y⟩ left s.caliParams)) ≠ 0) :
    (StickCorrectF idealOps (rawStick x y) left s).1 =
      some ⟨.fin (StickCorrect ⟨x, y⟩ left s).1.x, .fin (StickCorrect ⟨x, y⟩ left s).1.y⟩ := by
  have hn : normalizedF idealOps (rawStick x y) left s.caliParams =
      some ⟨.fin (normalized ⟨x, y⟩ left s.caliParams).x,
        .fin (normalized ⟨x, y⟩ left s.caliParams).y⟩ := by
    unfold normalizedF normalized
    dsimp only
    rw [centeredF_ideal]
    generalize centered ⟨x, y⟩ left s.caliParams = v at hv hmag
    obtain ⟨a, b⟩ := v
    dsimp only at hv hmag ⊢
    rw [sectorIndexF_ideal a b (magnitude_ne_zero a b hv),
      interpMagF_ideal _ _ (sectorIndex_nonneg _) (sectorIndex_le _) hlen]
    dsimp only
    show some (⟨divWith FVal.fin (.fin a) _, divWith FVal.fin (.fin b) _⟩ : FVec) = _
    rw [divF_ideal _ _ hmag, divF_ideal _ _ hmag]
  have hsq : normSqrF idealOps ⟨.fin (normalized ⟨x, y⟩ left s.caliParams).x,
      .fin (normalized ⟨x, y⟩ left s.caliParams).y⟩ =
      .fin ((normalized ⟨x, y⟩ left s.caliParams).x * (normalized ⟨x, y⟩ left s.caliParams).x +
        (normalized ⟨x, y⟩ left s.caliParams).y * (normalized ⟨x, y⟩ left s.caliParams).y) := rfl
  have hsc : ∀ a : ℝ, scaleClamp idealOps (.fin a) = .fin (CL_CLAMP (a * 33000) (-32767) 32767) := by
    intro a
    unfold scaleClamp
    show CL_CLAMPF (FVal.fin (a * 33000)) _ _ = _
    rw [clampF_output]
  by_cases hd : (normalized ⟨x, y⟩ left s.caliParams).x * (normalized ⟨x, y⟩ left s.caliParams).x +
      (normalized ⟨x, y⟩ left s.caliParams).y * (normalized ⟨x, y⟩ left s.caliParams).y < 7 / 1000
  · rw [StickCorrectF_dead idealOps _ left s _ hn (by rw [hsq]; exact hd)]
    unfold StickCorrect
    dsimp only
    rw [if_pos hd]
  · rw [StickCorrectF_live idealOps _ left s _ hn (by rw [hsq]; exact hd)]
    unfold StickCorrect
    dsimp only
    rw [if_neg hd, hsc, hsc]

end Cali
